import Mathlib

/-!
# YOLOX post-processing (`demo/OpenVINO/cpp/yolox_openvino.cpp`)

A shallow embedding of the decode / sort / NMS pipeline of the OpenVINO demo.

Modelling conventions.

* `float` and `double` values are rationals (`ℚ`): finite values with exact arithmetic.
  The IoU quotient of `nms_sorted_bboxes`, which can be an infinity or a NaN for finite
  operands, is modelled explicitly (`iou_exceeds`).  The constants `NMS_THRESH` and
  `BBOX_CONF_THRESH` have the values of the `float` parameters that receive them.
* For the box of the rescale/clip step, two further models cover what exact rationals
  leave out: the rounding of each `float` operation (`fl32`, `rescale_clip_rect_fl`) and
  the infinities and NaN that an overflowing `exp` brings in (`FloatVal`, `decode_rect_f`,
  `rescale_clip_rect_f`).  Signed zeros and subnormal values are outside every model.
* `int` values are `Int`.  The integer division of `generate_grids_and_stride` is the
  only integer operation that can fault on small inputs; it is modelled by `int_div`.
* An access outside a `std::vector` or outside the prediction buffer, and an integer
  division that C++ leaves undefined, end the computation with a `Fault`.
* The `while` loops and the recursion of the quicksort carry a fuel counter; running
  out of fuel is the separate fault `Fault.outOfFuel`.
* `exp` is a parameter of the decoder.
-/

namespace Yolox

/-! ## Data model -/

/-- Ways in which the C++ code can leave its defined behaviour (or the model its fuel). -/
inductive Fault where
  | outOfRange
  | divFault
  | outOfFuel
  deriving DecidableEq, Repr

deriving instance DecidableEq for Except

/-- `static const int NUM_CLASSES = 6;` -/
def NUM_CLASSES : Nat := 6

/-- `static const int INPUT_W = 640;` -/
def INPUT_W : Int := 640

/-- `static const int INPUT_H = 640;` -/
def INPUT_H : Int := 640

/-- Smallest value of a 32-bit `int`. -/
def INT_MIN : Int := -2147483648

/-- Modelled from the spec: the axis-aligned rectangle `{x, y, width, height}` in floating
point (`cv::Rect_<float>`, an OpenCV type whose declaration is not in the repository). -/
structure Rect where
  x : ℚ
  y : ℚ
  width : ℚ
  height : ℚ
  deriving DecidableEq

/-- Modelled from the spec: a polygon point `(x, y)` (`cv::Point2d`, an OpenCV type whose
declaration is not in the repository). -/
structure Point2d where
  x : ℚ
  y : ℚ
  deriving DecidableEq

/-- `struct Object { cv::Rect_<float> rect; cv::Point2d points[4]; int label; float prob; }`.
The four entries of `points` are the fields `points0` .. `points3`. -/
structure Object where
  rect : Rect
  points0 : Point2d
  points1 : Point2d
  points2 : Point2d
  points3 : Point2d
  label : Int
  prob : ℚ
  deriving DecidableEq

/-- Entry `points[k]` of an object, for `k = 0..3`. -/
def Object.points (o : Object) (k : Nat) : Point2d :=
  match k with
  | 0 => o.points0
  | 1 => o.points1
  | 2 => o.points2
  | _ => o.points3

/-- `struct GridAndStride { int grid0; int grid1; int stride; }` -/
structure GridAndStride where
  grid0 : Int
  grid1 : Int
  stride : Int
  deriving DecidableEq

/-! ## Grid generator -/

/-- C++ `int` division `a / b`: the quotient truncated toward zero.  Division by zero and
`INT_MIN / -1` are undefined behaviour. -/
def int_div (a b : Int) : Except Fault Int :=
  if b = 0 ∨ (a = INT_MIN ∧ b = -1) then .error .divFault else .ok (a.tdiv b)

/-- Inner loop of `generate_grids_and_stride`:
`for (int g0 = 0; g0 < num_grid_w; g0++) grid_strides.push_back({g0, g1, stride});` -/
def grid_row (num_grid_w g1 stride : Int) (grid_strides : List GridAndStride) :
    List GridAndStride :=
  (List.range num_grid_w.toNat).foldl
    (fun acc (g0 : Nat) => acc ++ [{ grid0 := (g0 : Int), grid1 := g1, stride := stride }])
    grid_strides

/-- Body of the loop over strides of `generate_grids_and_stride`: the two divisions and the
loop `for (int g1 = 0; g1 < num_grid_h; g1++)` around `grid_row`. -/
def grids_for_stride (target_w target_h stride : Int) (grid_strides : List GridAndStride) :
    Except Fault (List GridAndStride) :=
  match int_div target_w stride with
  | .error e => .error e
  | .ok num_grid_w =>
    match int_div target_h stride with
    | .error e => .error e
    | .ok num_grid_h =>
      .ok ((List.range num_grid_h.toNat).foldl
        (fun acc (g1 : Nat) => grid_row num_grid_w (g1 : Int) stride acc) grid_strides)

/-- `generate_grids_and_stride(target_w, target_h, strides, grid_strides)`: the loop
`for (auto stride : strides)`; the result is the final content of `grid_strides`. -/
def generate_grids_and_stride (target_w target_h : Int) :
    List Int → List GridAndStride → Except Fault (List GridAndStride)
  | [], grid_strides => .ok grid_strides
  | stride :: rest, grid_strides =>
    match grids_for_stride target_w target_h stride grid_strides with
    | .error e => .error e
    | .ok gs => generate_grids_and_stride target_w target_h rest gs

/-- The specification's enumeration for one stride `s`: the cells `(gx, gy, s)` with
`0 <= gy < h/s`, `0 <= gx < w/s` (floor division), `gy` outer and `gx` inner. -/
def spec_cells (w h s : Int) : List GridAndStride :=
  (List.range (h.fdiv s).toNat).flatMap fun (gy : Nat) =>
    (List.range (w.fdiv s).toNat).map fun (gx : Nat) =>
      { grid0 := (gx : Int), grid1 := (gy : Int), stride := s }

/-! ## Proposal decoder -/

/-- Read `feat_ptr[i]` of the prediction buffer.  The buffer is a `const float*`; the model
gives it its length, and a read outside it is a fault. -/
def feat_at (feat_ptr : List ℚ) (i : Nat) : Except Fault ℚ :=
  match feat_ptr[i]? with
  | some v => .ok v
  | none => .error .outOfRange

/-- The class loop of `generate_yolox_proposals`,
`for (int class_idx = 0; class_idx < NUM_CLASSES; class_idx++)`, run over the class indices
still to visit.  `rect` and `p0 .. p3` are the box and polygon computed before the loop
from `x0, y0, w, h` and `x1, y1 .. x4, y4`. -/
def class_loop (feat_ptr : List ℚ) (prob_threshold : ℚ) (basic_pos : Nat)
    (box_objectness : ℚ) (rect : Rect) (p0 p1 p2 p3 : Point2d) :
    List Nat → List Object → Except Fault (List Object)
  | [], objects => .ok objects
  | class_idx :: rest, objects =>
    match feat_at feat_ptr (basic_pos + 13 + class_idx) with
    | .error e => .error e
    | .ok box_cls_score =>
      let box_prob := box_objectness * box_cls_score
      if box_prob > prob_threshold then
        class_loop feat_ptr prob_threshold basic_pos box_objectness rect p0 p1 p2 p3 rest
          (objects ++ [{ rect := rect, points0 := p0, points1 := p1, points2 := p2,
                         points3 := p3, label := (class_idx : Int), prob := box_prob }])
      else
        class_loop feat_ptr prob_threshold basic_pos box_objectness rect p0 p1 p2 p3 rest
          objects

/-- Body of the anchor loop of `generate_yolox_proposals` for the anchor `anchor_idx`, whose
grid entry `grid_strides[anchor_idx]` is `gs`. -/
def proposals_for_anchor (exp : ℚ → ℚ) (feat_ptr : List ℚ) (prob_threshold : ℚ)
    (anchor_idx : Nat) (gs : GridAndStride) (objects : List Object) :
    Except Fault (List Object) := do
  let grid0 : ℚ := gs.grid0
  let grid1 : ℚ := gs.grid1
  let stride : ℚ := gs.stride
  let basic_pos := anchor_idx * (NUM_CLASSES + 13)
  let f0 ← feat_at feat_ptr (basic_pos + 0)
  let f1 ← feat_at feat_ptr (basic_pos + 1)
  let f2 ← feat_at feat_ptr (basic_pos + 2)
  let f3 ← feat_at feat_ptr (basic_pos + 3)
  let f4 ← feat_at feat_ptr (basic_pos + 4)
  let f5 ← feat_at feat_ptr (basic_pos + 5)
  let f6 ← feat_at feat_ptr (basic_pos + 6)
  let f7 ← feat_at feat_ptr (basic_pos + 7)
  let f8 ← feat_at feat_ptr (basic_pos + 8)
  let f9 ← feat_at feat_ptr (basic_pos + 9)
  let f10 ← feat_at feat_ptr (basic_pos + 10)
  let f11 ← feat_at feat_ptr (basic_pos + 11)
  let x_center := (f0 + grid0) * stride
  let y_center := (f1 + grid1) * stride
  let w := exp f2 * stride
  let h := exp f3 * stride
  let x1 := (f4 + grid0) * stride
  let y1 := (f5 + grid1) * stride
  let x2 := (f6 + grid0) * stride
  let y2 := (f7 + grid1) * stride
  let x3 := (f8 + grid0) * stride
  let y3 := (f9 + grid1) * stride
  let x4 := (f10 + grid0) * stride
  let y4 := (f11 + grid1) * stride
  let x0 := x_center - w * (1 / 2)
  let y0 := y_center - h * (1 / 2)
  let box_objectness ← feat_at feat_ptr (basic_pos + 12)
  class_loop feat_ptr prob_threshold basic_pos box_objectness
    { x := x0, y := y0, width := w, height := h }
    { x := x1, y := y1 } { x := x2, y := y2 } { x := x3, y := y3 } { x := x4, y := y4 }
    (List.range NUM_CLASSES) objects

/-- The anchor loop of `generate_yolox_proposals`,
`for (int anchor_idx = 0; anchor_idx < num_anchors; anchor_idx++)`, from the anchor
`anchor_idx` on; the list holds `grid_strides[anchor_idx]`, `grid_strides[anchor_idx + 1]`,
and so on to the end of the vector. -/
def anchor_loop (exp : ℚ → ℚ) (feat_ptr : List ℚ) (prob_threshold : ℚ) :
    Nat → List GridAndStride → List Object → Except Fault (List Object)
  | _, [], objects => .ok objects
  | anchor_idx, gs :: rest, objects =>
    match proposals_for_anchor exp feat_ptr prob_threshold anchor_idx gs objects with
    | .error e => .error e
    | .ok objs => anchor_loop exp feat_ptr prob_threshold (anchor_idx + 1) rest objs

/-- `generate_yolox_proposals(grid_strides, feat_ptr, prob_threshold, objects)`; the result
is the final content of `objects`. -/
def generate_yolox_proposals (exp : ℚ → ℚ) (grid_strides : List GridAndStride)
    (feat_ptr : List ℚ) (prob_threshold : ℚ) (objects : List Object) :
    Except Fault (List Object) :=
  anchor_loop exp feat_ptr prob_threshold 0 grid_strides objects

/-- Value `raw[k]` of the record of anchor `a`: the buffer entry at position
`a * (13 + NUM_CLASSES) + k` (0 outside the buffer). -/
def raw_at (feat_ptr : List ℚ) (a k : Nat) : ℚ :=
  feat_ptr.getD (a * (NUM_CLASSES + 13) + k) 0

/-- The specification's decode rule: the candidate of class `c` for an anchor at grid
`(gx, gy)` with stride `s` and record `raw`. -/
def spec_candidate (exp : ℚ → ℚ) (raw : Nat → ℚ) (g : GridAndStride) (c : Nat) : Object :=
  let center_x := (raw 0 + g.grid0) * g.stride
  let center_y := (raw 1 + g.grid1) * g.stride
  let w := exp (raw 2) * g.stride
  let h := exp (raw 3) * g.stride
  { rect := { x := center_x - w / 2, y := center_y - h / 2, width := w, height := h }
    points0 := { x := (raw 4 + g.grid0) * g.stride, y := (raw 5 + g.grid1) * g.stride }
    points1 := { x := (raw 6 + g.grid0) * g.stride, y := (raw 7 + g.grid1) * g.stride }
    points2 := { x := (raw 8 + g.grid0) * g.stride, y := (raw 9 + g.grid1) * g.stride }
    points3 := { x := (raw 10 + g.grid0) * g.stride, y := (raw 11 + g.grid1) * g.stride }
    label := (c : Int)
    prob := raw 12 * raw (13 + c) }

/-- The specification's candidates of one anchor: one per class `c`, in increasing `c`,
whose score `raw[12] * raw[13 + c]` is strictly above the threshold. -/
def spec_anchor_proposals (exp : ℚ → ℚ) (feat_ptr : List ℚ) (prob_threshold : ℚ)
    (a : Nat) (g : GridAndStride) : List Object :=
  ((List.range NUM_CLASSES).filter fun c =>
      decide (raw_at feat_ptr a 12 * raw_at feat_ptr a (13 + c) > prob_threshold)).map
    fun c => spec_candidate exp (raw_at feat_ptr a) g c

/-- The specification's candidate list: the candidates of the anchors `first`, `first + 1`,
... in anchor order. -/
def spec_proposals_from (exp : ℚ → ℚ) (feat_ptr : List ℚ) (prob_threshold : ℚ) :
    Nat → List GridAndStride → List Object
  | _, [] => []
  | first, g :: rest =>
    spec_anchor_proposals exp feat_ptr prob_threshold first g
      ++ spec_proposals_from exp feat_ptr prob_threshold (first + 1) rest

/-- The record of the specification's decoder test: 12 offset values equal to 0,
objectness 1, then class probability 1 at class index `c` and 0 at every other class. -/
def one_hot_record (c : Nat) : List ℚ :=
  List.replicate 12 0 ++ [1] ++ (List.range NUM_CLASSES).map fun k => if k = c then 1 else 0

/-! ## Ranker -/

/-- Read `faceobjects[i]` for an `int` index; an index outside the vector is a fault. -/
def obj_at (faceobjects : List Object) (i : Int) : Except Fault Object :=
  if i < 0 then .error .outOfRange
  else
    match faceobjects[i.toNat]? with
    | some o => .ok o
    | none => .error .outOfRange

/-- The scan `while (faceobjects[i].prob > p) i++;` of `qsort_descent_inplace`; the result
is the final `i`. -/
def scan_i (faceobjects : List Object) (p : ℚ) : Nat → Int → Except Fault Int
  | 0, _ => .error .outOfFuel
  | fuel + 1, i =>
    match obj_at faceobjects i with
    | .error e => .error e
    | .ok o => if o.prob > p then scan_i faceobjects p fuel (i + 1) else .ok i

/-- The scan `while (faceobjects[j].prob < p) j--;` of `qsort_descent_inplace`; the result
is the final `j`. -/
def scan_j (faceobjects : List Object) (p : ℚ) : Nat → Int → Except Fault Int
  | 0, _ => .error .outOfFuel
  | fuel + 1, j =>
    match obj_at faceobjects j with
    | .error e => .error e
    | .ok o => if o.prob < p then scan_j faceobjects p fuel (j - 1) else .ok j

/-- `std::swap(faceobjects[i], faceobjects[j])`. -/
def swap_at (faceobjects : List Object) (i j : Int) : Except Fault (List Object) :=
  match obj_at faceobjects i with
  | .error e => .error e
  | .ok oi =>
    match obj_at faceobjects j with
    | .error e => .error e
    | .ok oj => .ok ((faceobjects.set i.toNat oj).set j.toNat oi)

/-- The partition loop `while (i <= j) { scan; scan; if (i <= j) { swap; i++; j--; } }` of
`qsort_descent_inplace`; the result is the vector with the final `i` and `j`.  Each scan
gets the fuel `size + 1`, which it cannot use up before leaving the vector. -/
def partition_loop (p : ℚ) :
    Nat → List Object → Int → Int → Except Fault (List Object × Int × Int)
  | 0, _, _, _ => .error .outOfFuel
  | fuel + 1, faceobjects, i, j =>
    if i ≤ j then
      match scan_i faceobjects p (faceobjects.length + 1) i with
      | .error e => .error e
      | .ok i1 =>
        match scan_j faceobjects p (faceobjects.length + 1) j with
        | .error e => .error e
        | .ok j1 =>
          if i1 ≤ j1 then
            match swap_at faceobjects i1 j1 with
            | .error e => .error e
            | .ok swapped => partition_loop p fuel swapped (i1 + 1) (j1 - 1)
          else partition_loop p fuel faceobjects i1 j1
    else .ok (faceobjects, i, j)

/-- `qsort_descent_inplace(faceobjects, left, right)`; the result is the final content of
the vector.  The two `omp section`s work on the disjoint index ranges `[left, j]` and
`[i, right]`; they are run one after the other.  The fuel bounds the recursion depth; the
partition loop gets the fuel `size + 1`. -/
def qsort_descent_inplace_range :
    Nat → List Object → Int → Int → Except Fault (List Object)
  | 0, _, _, _ => .error .outOfFuel
  | fuel + 1, faceobjects, left, right =>
    match obj_at faceobjects ((left + right).tdiv 2) with
    | .error e => .error e
    | .ok pivot =>
      match partition_loop pivot.prob (faceobjects.length + 1) faceobjects left right with
      | .error e => .error e
      | .ok (partitioned, i, j) =>
        match (if left < j then qsort_descent_inplace_range fuel partitioned left j
               else .ok partitioned) with
        | .error e => .error e
        | .ok sorted_left =>
          if i < right then qsort_descent_inplace_range fuel sorted_left i right
          else .ok sorted_left

/-- `qsort_descent_inplace(objects)`: nothing for an empty vector, otherwise the sort of
the range `[0, size - 1]`.  The recursion gets the fuel `size`. -/
def qsort_descent_inplace (objects : List Object) : Except Fault (List Object) :=
  if objects.isEmpty then .ok objects
  else qsort_descent_inplace_range objects.length objects 0 ((objects.length : Int) - 1)

/-- Score of the element at position `k` of a vector (0 outside the vector). -/
def prob_at (a : List Object) (k : Nat) : ℚ :=
  match a[k]? with
  | some o => o.prob
  | none => 0

/-- `a2` is `a1` with the positions `lo .. hi` rearranged among themselves. -/
structure RangePerm (lo hi : Nat) (a1 a2 : List Object) : Prop where
  length_eq : a2.length = a1.length
  perm : a2.Perm a1
  outside : ∀ k, k < lo ∨ hi < k → a2[k]? = a1[k]?
  inside : ∀ P : ℚ → Prop, (∀ k, lo ≤ k → k ≤ hi → P (prob_at a1 k)) →
    ∀ k, lo ≤ k → k ≤ hi → P (prob_at a2 k)

/-- Invariant of the partition loop on the range `lo .. hi` with pivot value `p`, at a
state with index `i` and `j = J - 1`. -/
structure PartInv (lo hi : Nat) (p : ℚ) (a : List Object) (i J : Nat) : Prop where
  hi_lt : hi < a.length
  lo_le_hi : lo ≤ hi
  lo_le_i : lo ≤ i
  J_le : J ≤ hi + 1
  left_ge : ∀ k, lo ≤ k → k < i → p ≤ prob_at a k
  right_le : ∀ k, J ≤ k → k ≤ hi → prob_at a k ≤ p
  sentinel_i : lo < i → i < J → ∃ k, i ≤ k ∧ k ≤ hi ∧ prob_at a k ≤ p
  sentinel_j : lo < i → i < J → ∃ k, lo ≤ k ∧ k < J ∧ p ≤ prob_at a k
  progress : (i = lo ∧ J = hi + 1 ∧ ∃ m, lo ≤ m ∧ m ≤ hi ∧ prob_at a m = p) ∨ (lo < i ∧ J ≤ hi)

/-- Candidate with a unit box at the origin, the given label and the given score. -/
def unit_candidate (label : Int) (prob : ℚ) : Object :=
  { rect := { x := 0, y := 0, width := 1, height := 1 }
    points0 := { x := 0, y := 0 }, points1 := { x := 0, y := 0 }
    points2 := { x := 0, y := 0 }, points3 := { x := 0, y := 0 }
    label := label, prob := prob }

/-! ## Suppressor (NMS) -/

/-- Modelled from the spec: the area `width * height` of a rectangle
(`cv::Rect_<float>::area()`, OpenCV code that is not in the repository). -/
def Rect.area (r : Rect) : ℚ := r.width * r.height

/-- Modelled from the spec: the axis-aligned rectangle intersection
(`cv::Rect_<float>::operator&`, OpenCV code that is not in the repository): the overlap of
the two rectangles, and the empty rectangle `(0, 0, 0, 0)` when the overlap has no positive
width or no positive height. -/
def Rect.inter (a b : Rect) : Rect :=
  let x1 := max a.x b.x
  let y1 := max a.y b.y
  let w := min (a.x + a.width) (b.x + b.width) - x1
  let h := min (a.y + a.height) (b.y + b.height) - y1
  if w ≤ 0 ∨ h ≤ 0 then { x := 0, y := 0, width := 0, height := 0 }
  else { x := x1, y := y1, width := w, height := h }

/-- `intersection_area(a, b)`: the area of `a.rect & b.rect`. -/
def intersection_area (a b : Object) : ℚ := (a.rect.inter b.rect).area

/-- The test `inter_area / union_area > nms_threshold` of `nms_sorted_bboxes` on finite
floats.  With `union_area == 0` the quotient is not a finite number: it is `+inf` for a
positive `inter_area` (above every threshold), NaN for `inter_area == 0` and `-inf` for a
negative one (both compare false). -/
def iou_exceeds (inter_area union_area nms_threshold : ℚ) : Bool :=
  if union_area = 0 then decide (0 < inter_area)
  else decide (inter_area / union_area > nms_threshold)

/-- The inner loop `for (int j = 0; j < (int)picked.size(); j++)` of `nms_sorted_bboxes`
for the candidate `a = faceobjects[i]`, run over the entries `picked[j]` still to visit;
the result is the final value of `keep`. -/
def nms_keep (faceobjects : List Object) (areas : List ℚ) (nms_threshold : ℚ) (i : Nat)
    (a : Object) : List Nat → Bool → Except Fault Bool
  | [], keep => .ok keep
  | pj :: rest, keep =>
    match faceobjects[pj]?, areas[i]?, areas[pj]? with
    | some b, some area_i, some area_pj =>
      let inter_area := intersection_area a b
      let union_area := area_i + area_pj - inter_area
      if iou_exceeds inter_area union_area nms_threshold then
        nms_keep faceobjects areas nms_threshold i a rest false
      else
        nms_keep faceobjects areas nms_threshold i a rest keep
    | _, _, _ => .error .outOfRange

/-- The outer loop `for (int i = 0; i < n; i++)` of `nms_sorted_bboxes`, run over the
indices still to visit; the result is the final content of `picked`. -/
def nms_loop (faceobjects : List Object) (areas : List ℚ) (nms_threshold : ℚ) :
    List Nat → List Nat → Except Fault (List Nat)
  | [], picked => .ok picked
  | i :: rest, picked =>
    match faceobjects[i]? with
    | none => .error .outOfRange
    | some a =>
      match nms_keep faceobjects areas nms_threshold i a picked true with
      | .error e => .error e
      | .ok keep =>
        if keep then nms_loop faceobjects areas nms_threshold rest (picked ++ [i])
        else nms_loop faceobjects areas nms_threshold rest picked

/-- `nms_sorted_bboxes(faceobjects, picked, nms_threshold)`; the result is the final
content of `picked` (indices into `faceobjects`).  The argument `picked` is the content of
the vector at the call, which `picked.clear()` discards. -/
def nms_sorted_bboxes (faceobjects : List Object) (_picked : List Nat) (nms_threshold : ℚ) :
    Except Fault (List Nat) :=
  let picked : List Nat := []
  let n := faceobjects.length
  let areas := faceobjects.map fun o => o.rect.area
  nms_loop faceobjects areas nms_threshold (List.range n) picked

/-- The test of `nms_sorted_bboxes` for the candidates at positions `i` and `j`:
`intersection_area(i, j) / (area(i) + area(j) - intersection_area(i, j)) > threshold`, as
the code evaluates it (see `iou_exceeds`). -/
def iou_gt (faceobjects : List Object) (nms_threshold : ℚ) (i j : Nat) : Bool :=
  match faceobjects[i]?, faceobjects[j]? with
  | some a, some b =>
    iou_exceeds (intersection_area a b)
      (a.rect.area + b.rect.area - intersection_area a b) nms_threshold
  | _, _ => false

/-- Invariant of the outer loop of `nms_sorted_bboxes` before the index `s` is visited. -/
structure NmsInv (faceobjects : List Object) (thr : ℚ) (s : Nat) (picked : List Nat) :
    Prop where
  increasing : picked.Pairwise (· < ·)
  below : ∀ x ∈ picked, x < s
  greedy : ∀ i, i < s →
    (i ∈ picked ↔ ∀ j ∈ picked, j < i → iou_gt faceobjects thr i j = false)

/-- Candidate with the given box and score (label 0, polygon at the origin). -/
def box_candidate (x y width height prob : ℚ) : Object :=
  { rect := { x := x, y := y, width := width, height := height }
    points0 := { x := 0, y := 0 }, points1 := { x := 0, y := 0 }
    points2 := { x := 0, y := 0 }, points3 := { x := 0, y := 0 }
    label := 0, prob := prob }

/-! ## Rescaler / clipper and the pipeline -/

/-- `#define NMS_THRESH 0.45`, as `nms_sorted_bboxes` receives it: the parameter
`nms_threshold` is a `float`, so the value is 0.45 rounded to `float`,
`7549747 / 2 ^ 24 = 0.449999988...` (`fl32 (45 / 100)` below). -/
def NMS_THRESH : ℚ := 7549747 / 16777216

/-- `#define BBOX_CONF_THRESH 0.3`, as `generate_yolox_proposals` receives it: the parameter
`prob_threshold` is a `float`, so the value is 0.3 rounded to `float`,
`5033165 / 2 ^ 24 = 0.300000011...` (`fl32 (3 / 10)` below). -/
def BBOX_CONF_THRESH : ℚ := 5033165 / 16777216

/-- The clip `std::max(std::min(v, (float)(dim - 1)), 0.f)` of `decode_outputs`, for the
image dimension `dim` (`img_w` or `img_h`; `dim - 1` does not overflow for `dim > INT_MIN`),
on a finite value `v`; `clip_f` is the same clip on values that can be infinite or NaN. -/
def clip (v : ℚ) (dim : Int) : ℚ :=
  max (min v ((dim - 1 : Int) : ℚ)) 0

/-- Body of the loop `for (int i = 0; i < count; i++)` of `decode_outputs` after
`objects[i] = proposals[picked[i]]`: the division of the box corners and polygon points by
`scale`, the clip, and the rewriting of the coordinate fields of `objects[i]`, on finite
values in exact arithmetic (the quotients are finite for `scale != 0`).  The box part is
modelled again with rounding in `rescale_clip_rect_fl` and with infinities and NaN in
`rescale_clip_rect_f`. -/
def rescale_clip (o : Object) (scale : ℚ) (img_w img_h : Int) : Object :=
  let x0 := o.rect.x / scale
  let y0 := o.rect.y / scale
  let x1 := (o.rect.x + o.rect.width) / scale
  let y1 := (o.rect.y + o.rect.height) / scale
  let x_1 := o.points0.x / scale
  let y_1 := o.points0.y / scale
  let x_2 := o.points1.x / scale
  let y_2 := o.points1.y / scale
  let x_3 := o.points2.x / scale
  let y_3 := o.points2.y / scale
  let x_4 := o.points3.x / scale
  let y_4 := o.points3.y / scale
  let x0 := clip x0 img_w
  let y0 := clip y0 img_h
  let x1 := clip x1 img_w
  let y1 := clip y1 img_h
  let x_1 := clip x_1 img_w
  let y_1 := clip y_1 img_h
  let x_2 := clip x_2 img_w
  let y_2 := clip y_2 img_h
  let x_3 := clip x_3 img_w
  let y_3 := clip y_3 img_h
  let x_4 := clip x_4 img_w
  let y_4 := clip y_4 img_h
  { rect := { x := x0, y := y0, width := x1 - x0, height := y1 - y0 }
    points0 := { x := x_1, y := y_1 }
    points1 := { x := x_2, y := y_2 }
    points2 := { x := x_3, y := y_3 }
    points3 := { x := x_4, y := y_4 }
    label := o.label
    prob := o.prob }

/-- The loop `for (int i = 0; i < count; i++)` of `decode_outputs`, run over the entries
`picked[i]` still to visit; `objects` holds the detections `objects[0 .. i-1]` written so
far. -/
def rescale_loop (proposals : List Object) (scale : ℚ) (img_w img_h : Int) :
    List Nat → List Object → Except Fault (List Object)
  | [], objects => .ok objects
  | pi :: rest, objects =>
    match proposals[pi]? with
    | none => .error .outOfRange
    | some o =>
      rescale_loop proposals scale img_w img_h rest
        (objects ++ [rescale_clip o scale img_w img_h])

/-- The statements of `decode_outputs` that follow the call of `generate_grids_and_stride`,
whose outcome is `grids`: proposals, sort, NMS and the rescale loop. -/
def decode_with_grids (exp : ℚ → ℚ) (prob : List ℚ) (scale : ℚ) (img_w img_h : Int)
    (grids : Except Fault (List GridAndStride)) : Except Fault (List Object) :=
  match grids with
  | .error e => .error e
  | .ok grid_strides =>
    match generate_yolox_proposals exp grid_strides prob BBOX_CONF_THRESH [] with
    | .error e => .error e
    | .ok proposals =>
      match qsort_descent_inplace proposals with
      | .error e => .error e
      | .ok sorted =>
        match nms_sorted_bboxes sorted [] NMS_THRESH with
        | .error e => .error e
        | .ok picked => rescale_loop sorted scale img_w img_h picked []

/-- `decode_outputs(prob, objects, scale, img_w, img_h)`; the result is the final content
of `objects`.  The argument `_objects` is the content of the vector at the call, which
`objects.resize(count)` and the assignments `objects[i] = ...` replace entirely. -/
def decode_outputs (exp : ℚ → ℚ) (prob : List ℚ) (_objects : List Object) (scale : ℚ)
    (img_w img_h : Int) : Except Fault (List Object) :=
  decode_with_grids exp prob scale img_w img_h
    (generate_grids_and_stride INPUT_W INPUT_H [8, 16, 32] [])

/-- The candidates at the positions `picked` of a list, in the order of `picked`. -/
def kept_objects (faceobjects : List Object) (picked : List Nat) : List Object :=
  picked.filterMap fun i => faceobjects[i]?

/-- The buffer of the end-to-end test: 8400 records, the record of anchor 0 being
`one_hot_record c` and every value of the other 8399 records being 0. -/
def single_anchor_buffer (c : Nat) : List ℚ :=
  one_hot_record c ++ List.replicate (8399 * (NUM_CLASSES + 13)) 0

/-! ## Ranker with range checks

The functions of the quicksort again, each access `faceobjects[k]` carrying the added check
that `k` lies in the range `[left, right]` of the call `qsort_descent_inplace(faceobjects,
left, right)` it occurs in.  Apart from the check they are the functions above. -/

/-- Read `faceobjects[i]` inside a call with the range `[left, right]`: a fault when the
index is outside that range, otherwise `obj_at`. -/
def obj_at_checked (faceobjects : List Object) (left right i : Int) : Except Fault Object :=
  if i < left ∨ right < i then .error .outOfRange else obj_at faceobjects i

/-- The scan `while (faceobjects[i].prob > p) i++;` with range-checked reads. -/
def scan_i_checked (faceobjects : List Object) (p : ℚ) (left right : Int) :
    Nat → Int → Except Fault Int
  | 0, _ => .error .outOfFuel
  | fuel + 1, i =>
    match obj_at_checked faceobjects left right i with
    | .error e => .error e
    | .ok o =>
      if o.prob > p then scan_i_checked faceobjects p left right fuel (i + 1) else .ok i

/-- The scan `while (faceobjects[j].prob < p) j--;` with range-checked reads. -/
def scan_j_checked (faceobjects : List Object) (p : ℚ) (left right : Int) :
    Nat → Int → Except Fault Int
  | 0, _ => .error .outOfFuel
  | fuel + 1, j =>
    match obj_at_checked faceobjects left right j with
    | .error e => .error e
    | .ok o =>
      if o.prob < p then scan_j_checked faceobjects p left right fuel (j - 1) else .ok j

/-- `std::swap(faceobjects[i], faceobjects[j])` with range-checked accesses. -/
def swap_at_checked (faceobjects : List Object) (left right i j : Int) :
    Except Fault (List Object) :=
  match obj_at_checked faceobjects left right i with
  | .error e => .error e
  | .ok oi =>
    match obj_at_checked faceobjects left right j with
    | .error e => .error e
    | .ok oj => .ok ((faceobjects.set i.toNat oj).set j.toNat oi)

/-- The partition loop of the call with the range `[left, right]`, with range-checked
scans and swaps. -/
def partition_loop_checked (p : ℚ) (left right : Int) :
    Nat → List Object → Int → Int → Except Fault (List Object × Int × Int)
  | 0, _, _, _ => .error .outOfFuel
  | fuel + 1, faceobjects, i, j =>
    if i ≤ j then
      match scan_i_checked faceobjects p left right (faceobjects.length + 1) i with
      | .error e => .error e
      | .ok i1 =>
        match scan_j_checked faceobjects p left right (faceobjects.length + 1) j with
        | .error e => .error e
        | .ok j1 =>
          if i1 ≤ j1 then
            match swap_at_checked faceobjects left right i1 j1 with
            | .error e => .error e
            | .ok swapped => partition_loop_checked p left right fuel swapped (i1 + 1) (j1 - 1)
          else partition_loop_checked p left right fuel faceobjects i1 j1
    else .ok (faceobjects, i, j)

/-- `qsort_descent_inplace(faceobjects, left, right)` with every access of the call checked
against `[left, right]`, and the accesses of each recursive call checked against the range
of that call. -/
def qsort_descent_inplace_range_checked :
    Nat → List Object → Int → Int → Except Fault (List Object)
  | 0, _, _, _ => .error .outOfFuel
  | fuel + 1, faceobjects, left, right =>
    match obj_at_checked faceobjects left right ((left + right).tdiv 2) with
    | .error e => .error e
    | .ok pivot =>
      match partition_loop_checked pivot.prob left right (faceobjects.length + 1) faceobjects
          left right with
      | .error e => .error e
      | .ok (partitioned, i, j) =>
        match (if left < j then qsort_descent_inplace_range_checked fuel partitioned left j
               else .ok partitioned) with
        | .error e => .error e
        | .ok sorted_left =>
          if i < right then qsort_descent_inplace_range_checked fuel sorted_left i right
          else .ok sorted_left

/-! ## Floating point: rounding

The definitions above compute with exact rationals.  Where a claim states an identity
between `float` values, the rounding of each `float` operation matters; this section and
the next model it for the box of the rescale/clip step.  The range of `float` is not
modelled here (no overflow, no subnormal values). -/

/-- Number of halvings that bring `n` below 2, counted in at most `fuel` steps: the integer
part of the binary logarithm of `n >= 1` when `fuel >= n`. -/
def log2_steps : Nat → Nat → Nat
  | 0, _ => 0
  | fuel + 1, n => if 2 ≤ n then log2_steps fuel (n / 2) + 1 else 0

/-- The binary exponent of a positive rational `a`: the `e` with `2 ^ e <= a < 2 ^ (e + 1)`. -/
def float_exponent (a : ℚ) : Int :=
  let e0 : Int := (log2_steps a.num.natAbs a.num.natAbs : Int) - (log2_steps a.den a.den : Int)
  if (2 : ℚ) ^ e0 ≤ a then e0 else e0 - 1

/-- Round a non-negative rational to the nearest integer, a tie going to the even one. -/
def round_half_even (m : ℚ) : Int :=
  let f := m.floor
  let r := m - f
  if r < 1 / 2 then f
  else if 1 / 2 < r then f + 1
  else if f % 2 = 0 then f else f + 1

/-- Rounding of a real value to `float` (IEEE 754 binary32: a significand of 24 bits, round
to nearest, ties to even), which every `float` operation of the code applies to its exact
result. -/
def fl32 (q : ℚ) : ℚ :=
  if q = 0 then 0
  else
    let a := |q|
    let u : ℚ := (2 : ℚ) ^ (float_exponent a - 23)
    let n := round_half_even (a / u)
    if 0 < q then n * u else -(n * u)

/-- The clip `std::max(std::min(v, (float)(dim - 1)), 0.f)` with the conversion of
`dim - 1` to `float` rounded by `fl`. -/
def clip_fl (fl : ℚ → ℚ) (v : ℚ) (dim : Int) : ℚ :=
  max (min v (fl ((dim - 1 : Int) : ℚ))) 0

/-- The statements of the rescale loop of `decode_outputs` that read and write
`objects[i].rect`, each `float` operation (the sum, the quotient, the difference) rounded
by `fl`: `x0 = rect.x / scale`, `x1 = (rect.x + rect.width) / scale`, the clip, and
`rect.width = x1 - x0`. -/
def rescale_clip_rect_fl (fl : ℚ → ℚ) (r : Rect) (scale : ℚ) (img_w img_h : Int) : Rect :=
  let x0 := fl (r.x / scale)
  let y0 := fl (r.y / scale)
  let x1 := fl (fl (r.x + r.width) / scale)
  let y1 := fl (fl (r.y + r.height) / scale)
  let x0 := clip_fl fl x0 img_w
  let y0 := clip_fl fl y0 img_h
  let x1 := clip_fl fl x1 img_w
  let y1 := clip_fl fl y1 img_h
  { x := x0, y := y0, width := fl (x1 - x0), height := fl (y1 - y0) }

/-- The box `x = y = 100.1f`, `width = height = 50.3f`: the `float` values nearest to 100.1
and to 50.3. -/
def rounding_box : Rect :=
  { x := fl32 (1001 / 10), y := fl32 (1001 / 10),
    width := fl32 (503 / 10), height := fl32 (503 / 10) }

/-! ## Floating point: infinities and NaN

A `float` operation can also return an infinity or a NaN.  This section models the values
of IEEE 754 arithmetic with exact finite results (no rounding, the sign of zero ignored)
and, over them, the geometry of one decoded box and the rescale/clip of a box. -/

/-- A `float` value: a finite number, an infinity, or a NaN. -/
inductive FloatVal where
  | fin (q : ℚ)
  | posInf
  | negInf
  | nan
  deriving DecidableEq

/-- The opposite `-a`. -/
def FloatVal.neg : FloatVal → FloatVal
  | .fin q => .fin (-q)
  | .posInf => .negInf
  | .negInf => .posInf
  | .nan => .nan

/-- The sum `a + b`: a NaN operand gives NaN, and so do infinities of opposite signs. -/
def FloatVal.add : FloatVal → FloatVal → FloatVal
  | .nan, _ => .nan
  | _, .nan => .nan
  | .fin a, .fin b => .fin (a + b)
  | .posInf, .negInf => .nan
  | .negInf, .posInf => .nan
  | .posInf, _ => .posInf
  | .negInf, _ => .negInf
  | .fin _, .posInf => .posInf
  | .fin _, .negInf => .negInf

/-- The difference `a - b`. -/
def FloatVal.sub (a b : FloatVal) : FloatVal :=
  a.add b.neg

/-- An infinity with the sign of the rational `q` (`q` not zero). -/
def FloatVal.inf_of_sign (q : ℚ) : FloatVal :=
  if 0 < q then .posInf else .negInf

/-- The product `a * b`: a NaN operand gives NaN, and so does zero times an infinity. -/
def FloatVal.mul : FloatVal → FloatVal → FloatVal
  | .nan, _ => .nan
  | _, .nan => .nan
  | .fin a, .fin b => .fin (a * b)
  | .fin a, .posInf => if a = 0 then .nan else inf_of_sign a
  | .fin a, .negInf => if a = 0 then .nan else inf_of_sign (-a)
  | .posInf, .fin b => if b = 0 then .nan else inf_of_sign b
  | .negInf, .fin b => if b = 0 then .nan else inf_of_sign (-b)
  | .posInf, .posInf => .posInf
  | .posInf, .negInf => .negInf
  | .negInf, .posInf => .negInf
  | .negInf, .negInf => .posInf

/-- A finite value between `lo` and `hi`. -/
def FloatVal.within (v : FloatVal) (lo hi : ℚ) : Prop :=
  match v with
  | .fin q => lo ≤ q ∧ q ≤ hi
  | _ => False

instance FloatVal.within_decidable (v : FloatVal) (lo hi : ℚ) : Decidable (v.within lo hi) := by
  unfold FloatVal.within
  cases v <;> infer_instance

/-- Modelled from the spec: `cv::Rect_<float>` with `float` fields that can be infinite or
NaN. -/
structure RectF where
  x : FloatVal
  y : FloatVal
  width : FloatVal
  height : FloatVal
  deriving DecidableEq

/-- A rectangle of finite fields as a `RectF`. -/
def Rect.toF (r : Rect) : RectF :=
  { x := .fin r.x, y := .fin r.y, width := .fin r.width, height := .fin r.height }

/-- The box `{x0, y0, w, h}` that `generate_yolox_proposals` decodes from the finite values
`f0 .. f3` of a record at the grid entry `gs`, with an `exp` that can return an infinity:
`w = exp(f2) * stride`, `x0 = x_center - w * 0.5f`. -/
def decode_rect_f (exp : ℚ → FloatVal) (f0 f1 f2 f3 : ℚ) (gs : GridAndStride) : RectF :=
  let grid0 : ℚ := gs.grid0
  let grid1 : ℚ := gs.grid1
  let stride : ℚ := gs.stride
  let x_center : FloatVal := .fin ((f0 + grid0) * stride)
  let y_center : FloatVal := .fin ((f1 + grid1) * stride)
  let w := (exp f2).mul (.fin stride)
  let h := (exp f3).mul (.fin stride)
  let x0 := x_center.sub (w.mul (.fin (1 / 2)))
  let y0 := y_center.sub (h.mul (.fin (1 / 2)))
  { x := x0, y := y0, width := w, height := h }

/-- The record of anchor 1 in `two_anchor_buffer`: 12 offset values equal to 0, objectness 1,
class probability 1/2 at class 3 and 0 at every other class. -/
def half_record : List ℚ :=
  List.replicate 12 0 ++ [1] ++ [0, 0, 0, 1 / 2, 0, 0]

/-- A buffer of 8400 records with two active anchors: anchor 0 (grid `(0, 0)`, stride 8) has
the record `one_hot_record 2` (score 1 for class 2), anchor 1 (grid `(1, 0)`, stride 8) the
record `half_record` (score 1/2 for class 3); every other value is 0. -/
def two_anchor_buffer : List ℚ :=
  (one_hot_record 2 ++ half_record) ++ List.replicate (8398 * (NUM_CLASSES + 13)) 0

/-! ## Lemmas -/

/-! ### Grid generator -/

theorem toNat_tdiv_eq_fdiv (a b : Int) : (a.tdiv b).toNat = (a.fdiv b).toNat := by
  cases a with
  | ofNat m =>
    cases b with
    | ofNat n => cases m <;> simp [Int.tdiv, Int.fdiv]
    | negSucc n =>
      cases m
      · simp [Int.tdiv, Int.fdiv]
      · simp [Int.tdiv, Int.fdiv]
        exact Int.ediv_nonneg (by omega) (by omega)
  | negSucc m =>
    cases b with
    | ofNat n =>
      cases n
      · simp [Int.tdiv, Int.fdiv]
      · simp [Int.tdiv, Int.fdiv]
        exact Int.ediv_nonneg (by omega) (by omega)
    | negSucc n => simp [Int.tdiv, Int.fdiv]

theorem grid_row_eq (W : Nat) (nw g1 s : Int) (gs : List GridAndStride) (hW : nw.toNat = W) :
    grid_row nw g1 s gs
      = gs ++ (List.range W).map
          fun (gx : Nat) => { grid0 := (gx : Int), grid1 := g1, stride := s } := by
  unfold grid_row
  rw [hW]
  clear hW
  induction W with
  | zero => simp
  | succ n ih => simp [List.range_succ, List.foldl_append, ih]

theorem grid_rows_eq (H W : Nat) (nw s : Int) (gs : List GridAndStride) (hW : nw.toNat = W) :
    (List.range H).foldl (fun acc (g1 : Nat) => grid_row nw (g1 : Int) s acc) gs
      = gs ++ (List.range H).flatMap fun (gy : Nat) =>
          (List.range W).map fun (gx : Nat) =>
            { grid0 := (gx : Int), grid1 := (gy : Int), stride := s } := by
  induction H with
  | zero => simp
  | succ n ih =>
    rw [List.range_succ, List.foldl_append, ih, List.flatMap_append]
    simp only [List.foldl_cons, List.foldl_nil]
    rw [grid_row_eq W nw _ s _ hW]
    simp

theorem grids_for_stride_eq (w h s : Int) (gs : List GridAndStride)
    (hs : s ≠ 0) (hov : s = -1 → w ≠ INT_MIN ∧ h ≠ INT_MIN) :
    grids_for_stride w h s gs = .ok (gs ++ spec_cells w h s) := by
  have h1 : int_div w s = .ok (w.tdiv s) := by
    unfold int_div
    rw [if_neg]
    rintro (h0 | ⟨h1, h2⟩)
    · exact hs h0
    · exact (hov h2).1 h1
  have h2 : int_div h s = .ok (h.tdiv s) := by
    unfold int_div
    rw [if_neg]
    rintro (h0 | ⟨h1, h2⟩)
    · exact hs h0
    · exact (hov h2).2 h1
  unfold grids_for_stride
  rw [h1, h2]
  simp only []
  rw [grid_rows_eq (h.tdiv s).toNat (w.tdiv s).toNat (w.tdiv s) s gs rfl]
  unfold spec_cells
  rw [toNat_tdiv_eq_fdiv w s, toNat_tdiv_eq_fdiv h s]

theorem generate_grids_eq (w h : Int) (strides : List Int) (gs : List GridAndStride)
    (hs : ∀ s ∈ strides, s ≠ 0 ∧ (s = -1 → w ≠ INT_MIN ∧ h ≠ INT_MIN)) :
    generate_grids_and_stride w h strides gs = .ok (gs ++ strides.flatMap (spec_cells w h)) := by
  induction strides generalizing gs with
  | nil => simp [generate_grids_and_stride]
  | cons s rest ih =>
    have hs0 := hs s (List.mem_cons_self _ _)
    unfold generate_grids_and_stride
    rw [grids_for_stride_eq w h s gs hs0.1 hs0.2]
    simp only []
    rw [ih _ (fun t ht => hs t (List.mem_cons_of_mem _ ht))]
    simp

theorem flatMap_range_length {α : Type} (H W : Nat) (f : Nat → Nat → α) :
    ((List.range H).flatMap fun gy => (List.range W).map (f gy)).length = H * W := by
  induction H with
  | zero => simp
  | succ n ih =>
    rw [List.range_succ, List.flatMap_append, List.length_append, ih]
    simp [Nat.succ_mul]

theorem flatMap_range_get {α : Type} (H W : Nat) (f : Nat → Nat → α) (gy gx : Nat)
    (hy : gy < H) (hx : gx < W) :
    ((List.range H).flatMap fun gy => (List.range W).map (f gy))[gy * W + gx]?
      = some (f gy gx) := by
  induction H with
  | zero => omega
  | succ n ih =>
    rw [List.range_succ, List.flatMap_append]
    by_cases hlt : gy < n
    · have hlen : gy * W + gx < n * W := by
        calc gy * W + gx < gy * W + W := by omega
          _ = (gy + 1) * W := by ring
          _ ≤ n * W := Nat.mul_le_mul_right W hlt
      rw [List.getElem?_append_left (by rw [flatMap_range_length]; exact hlen)]
      exact ih hlt
    · have hgy : gy = n := by omega
      subst hgy
      rw [List.getElem?_append_right (by rw [flatMap_range_length]; omega)]
      rw [flatMap_range_length]
      simp [hx]

theorem spec_cells_length (w h s : Int) :
    (spec_cells w h s).length = (h.fdiv s).toNat * (w.fdiv s).toNat := by
  unfold spec_cells
  exact flatMap_range_length _ _ _

theorem spec_cells_stride (w h s : Int) : ∀ c ∈ spec_cells w h s, c.stride = s := by
  intro c hc
  unfold spec_cells at hc
  simp only [List.mem_flatMap, List.mem_map, List.mem_range] at hc
  obtain ⟨_, _, _, _, rfl⟩ := hc
  rfl

theorem getElem?_stride_of_forall (A : List GridAndStride) (s : Int)
    (hA : ∀ c ∈ A, c.stride = s) (k : Nat) (hk : k < A.length) :
    (A[k]?).map GridAndStride.stride = some s := by
  rw [List.getElem?_eq_getElem hk]
  simp [hA _ (List.getElem_mem hk)]

theorem grids_640_strides (k : Nat) (hk : k < 8400) :
    ((spec_cells 640 640 8 ++ (spec_cells 640 640 16 ++ spec_cells 640 640 32))[k]?).map
        GridAndStride.stride
      = some (if k < 6400 then 8 else if k < 8000 then 16 else 32) := by
  have l8 : (spec_cells 640 640 8).length = 6400 := by
    rw [spec_cells_length]; decide
  have l16 : (spec_cells 640 640 16).length = 1600 := by
    rw [spec_cells_length]; decide
  have l32 : (spec_cells 640 640 32).length = 400 := by
    rw [spec_cells_length]; decide
  by_cases h1 : k < 6400
  · rw [List.getElem?_append_left (by omega), if_pos h1]
    exact getElem?_stride_of_forall _ _ (spec_cells_stride _ _ _) k (by omega)
  · rw [List.getElem?_append_right (by omega), if_neg h1, l8]
    by_cases h2 : k < 8000
    · rw [List.getElem?_append_left (by omega), if_pos h2]
      exact getElem?_stride_of_forall _ _ (spec_cells_stride _ _ _) _ (by omega)
    · rw [List.getElem?_append_right (by omega), if_neg h2, l16]
      exact getElem?_stride_of_forall _ _ (spec_cells_stride _ _ _) _ (by omega)

/-! ### Proposal decoder -/

theorem feat_at_ok (feat : List ℚ) (i : Nat) (h : i < feat.length) :
    feat_at feat i = .ok (feat.getD i 0) := by
  unfold feat_at
  rw [List.getD_eq_getElem?_getD, List.getElem?_eq_getElem h]
  rfl

theorem feat_at_raw (feat : List ℚ) (a k : Nat) (hk : k < NUM_CLASSES + 13)
    (h : (a + 1) * (NUM_CLASSES + 13) ≤ feat.length) :
    feat_at feat (a * (NUM_CLASSES + 13) + k) = .ok (raw_at feat a k) := by
  unfold raw_at
  apply feat_at_ok
  have : (a + 1) * (NUM_CLASSES + 13) = a * (NUM_CLASSES + 13) + (NUM_CLASSES + 13) := by ring
  omega

theorem class_loop_eq (feat : List ℚ) (thr : ℚ) (a : Nat) (obj : ℚ) (rect : Rect)
    (p0 p1 p2 p3 : Point2d) (cs : List Nat) (objects : List Object)
    (hcs : ∀ c ∈ cs, c < NUM_CLASSES)
    (h : (a + 1) * (NUM_CLASSES + 13) ≤ feat.length) :
    class_loop feat thr (a * (NUM_CLASSES + 13)) obj rect p0 p1 p2 p3 cs objects
      = .ok (objects ++ (cs.filter fun c => decide (obj * raw_at feat a (13 + c) > thr)).map
          fun c => { rect := rect, points0 := p0, points1 := p1, points2 := p2, points3 := p3,
                     label := (c : Int), prob := obj * raw_at feat a (13 + c) }) := by
  induction cs generalizing objects with
  | nil => simp [class_loop]
  | cons c rest ih =>
    have hc : c < NUM_CLASSES := hcs c (List.mem_cons_self _ _)
    have hrest : ∀ d ∈ rest, d < NUM_CLASSES := fun d hd => hcs d (List.mem_cons_of_mem _ hd)
    have hread : feat_at feat (a * (NUM_CLASSES + 13) + 13 + c) = .ok (raw_at feat a (13 + c)) := by
      rw [Nat.add_assoc]
      exact feat_at_raw feat a (13 + c) (by omega) h
    unfold class_loop
    rw [hread]
    simp only []
    by_cases hp : obj * raw_at feat a (13 + c) > thr
    · rw [if_pos hp, ih _ hrest, List.filter_cons_of_pos (by simpa using hp)]
      simp
    · rw [if_neg hp, ih _ hrest, List.filter_cons_of_neg (by simpa using hp)]

theorem proposals_for_anchor_eq (exp : ℚ → ℚ) (feat : List ℚ) (thr : ℚ) (a : Nat)
    (g : GridAndStride) (objects : List Object)
    (h : (a + 1) * (NUM_CLASSES + 13) ≤ feat.length) :
    proposals_for_anchor exp feat thr a g objects
      = .ok (objects ++ spec_anchor_proposals exp feat thr a g) := by
  have hk : ∀ k, k < NUM_CLASSES + 13 →
      feat_at feat (a * (NUM_CLASSES + 13) + k) = .ok (raw_at feat a k) :=
    fun k hk => feat_at_raw feat a k hk h
  have hN : NUM_CLASSES + 13 = 19 := rfl
  unfold proposals_for_anchor
  dsimp only
  rw [hk 0 (by omega), hk 1 (by omega), hk 2 (by omega), hk 3 (by omega), hk 4 (by omega),
    hk 5 (by omega), hk 6 (by omega), hk 7 (by omega), hk 8 (by omega), hk 9 (by omega),
    hk 10 (by omega), hk 11 (by omega), hk 12 (by omega)]
  simp only [bind, Except.bind]
  rw [class_loop_eq feat thr a _ _ _ _ _ _ _ objects (fun c hc => List.mem_range.mp hc) h]
  unfold spec_anchor_proposals spec_candidate
  simp only [mul_one_div]

theorem anchor_loop_eq (exp : ℚ → ℚ) (feat : List ℚ) (thr : ℚ) (first : Nat)
    (gs : List GridAndStride) (objects : List Object)
    (h : (first + gs.length) * (NUM_CLASSES + 13) ≤ feat.length) :
    anchor_loop exp feat thr first gs objects
      = .ok (objects ++ spec_proposals_from exp feat thr first gs) := by
  induction gs generalizing first objects with
  | nil => simp [anchor_loop, spec_proposals_from]
  | cons g rest ih =>
    have hlen : (first + 1 + rest.length) * (NUM_CLASSES + 13) ≤ feat.length := by
      have : first + (g :: rest).length = first + 1 + rest.length := by
        simp only [List.length_cons]; omega
      rw [← this]; exact h
    have hfirst : (first + 1) * (NUM_CLASSES + 13) ≤ feat.length :=
      le_trans (Nat.mul_le_mul_right _ (by omega)) hlen
    unfold anchor_loop
    rw [proposals_for_anchor_eq exp feat thr first g objects hfirst]
    simp only []
    rw [ih (first + 1) _ hlen]
    simp [spec_proposals_from]

theorem generate_yolox_proposals_eq (exp : ℚ → ℚ) (gs : List GridAndStride) (feat : List ℚ)
    (thr : ℚ) (objects : List Object) (h : gs.length * (NUM_CLASSES + 13) ≤ feat.length) :
    generate_yolox_proposals exp gs feat thr objects
      = .ok (objects ++ spec_proposals_from exp feat thr 0 gs) :=
  anchor_loop_eq exp feat thr 0 gs objects (by simpa using h)

theorem raw_at_of_getElem? (feat : List ℚ) (a k : Nat) (v : ℚ)
    (h : feat[a * (13 + NUM_CLASSES) + k]? = some v) : raw_at feat a k = v := by
  unfold raw_at
  rw [Nat.add_comm NUM_CLASSES 13, List.getD_eq_getElem?_getD, h]
  rfl

theorem mem_spec_anchor_proposals (exp : ℚ → ℚ) (feat : List ℚ) (thr : ℚ) (a : Nat)
    (g : GridAndStride) (o : Object) (ho : o ∈ spec_anchor_proposals exp feat thr a g) :
    ∃ c, c < NUM_CLASSES ∧ raw_at feat a 12 * raw_at feat a (13 + c) > thr
      ∧ o = spec_candidate exp (raw_at feat a) g c := by
  unfold spec_anchor_proposals at ho
  simp only [List.mem_map, List.mem_filter, List.mem_range, decide_eq_true_eq] at ho
  obtain ⟨c, ⟨hc, hp⟩, rfl⟩ := ho
  exact ⟨c, hc, hp, rfl⟩

theorem mem_spec_proposals_from (exp : ℚ → ℚ) (feat : List ℚ) (thr : ℚ) (first : Nat)
    (gs : List GridAndStride) (o : Object)
    (ho : o ∈ spec_proposals_from exp feat thr first gs) :
    ∃ i g, gs[i]? = some g ∧ o ∈ spec_anchor_proposals exp feat thr (first + i) g := by
  induction gs generalizing first with
  | nil => simp [spec_proposals_from] at ho
  | cons g rest ih =>
    simp only [spec_proposals_from, List.mem_append] at ho
    rcases ho with ho | ho
    · exact ⟨0, g, by simp, by simpa using ho⟩
    · obtain ⟨i, g', hg', hmem⟩ := ih (first + 1) ho
      refine ⟨i + 1, g', by simpa using hg', ?_⟩
      have : first + (i + 1) = first + 1 + i := by omega
      rw [this]; exact hmem

theorem spec_anchor_proposals_nil (exp : ℚ → ℚ) (feat : List ℚ) (thr : ℚ) (a : Nat)
    (g : GridAndStride)
    (h : ∀ c, c < NUM_CLASSES → raw_at feat a 12 * raw_at feat a (13 + c) ≤ thr) :
    spec_anchor_proposals exp feat thr a g = [] := by
  unfold spec_anchor_proposals
  rw [List.map_eq_nil_iff, List.filter_eq_nil_iff]
  intro c hc
  have := h c (List.mem_range.mp hc)
  simpa using this

theorem spec_proposals_from_nil (exp : ℚ → ℚ) (feat : List ℚ) (thr : ℚ) (first : Nat)
    (gs : List GridAndStride)
    (h : ∀ i, i < gs.length → ∀ c, c < NUM_CLASSES →
      raw_at feat (first + i) 12 * raw_at feat (first + i) (13 + c) ≤ thr) :
    spec_proposals_from exp feat thr first gs = [] := by
  induction gs generalizing first with
  | nil => rfl
  | cons g rest ih =>
    simp only [spec_proposals_from, List.append_eq_nil]
    refine ⟨spec_anchor_proposals_nil exp feat thr first g (fun c hc => ?_), ih (first + 1) ?_⟩
    · simpa using h 0 (by simp) c hc
    · intro i hi c hc
      have := h (i + 1) (by simpa using hi) c hc
      have e : first + (i + 1) = first + 1 + i := by omega
      rwa [e] at this

theorem one_hot_len (c : Nat) : (one_hot_record c).length = 19 := by
  simp [one_hot_record, NUM_CLASSES]

theorem raw_one_hot_offsets (c k : Nat) (hk : k < 12) : raw_at (one_hot_record c) 0 k = 0 := by
  unfold raw_at one_hot_record
  interval_cases k <;> simp [List.replicate]

theorem raw_one_hot_obj (c : Nat) : raw_at (one_hot_record c) 0 12 = 1 := by
  unfold raw_at one_hot_record
  simp [List.replicate]

theorem raw_one_hot_cls (c k : Nat) (hk : k < NUM_CLASSES) :
    raw_at (one_hot_record c) 0 (13 + k) = if k = c then 1 else 0 := by
  unfold raw_at one_hot_record
  have h6 : NUM_CLASSES = 6 := rfl
  rw [h6] at hk
  interval_cases k <;> simp [List.replicate, NUM_CLASSES, List.range_succ]

theorem filter_range_eq_singleton (n c : Nat) (hc : c < n) (p : Nat → Bool)
    (hp : ∀ k, k < n → (p k = true ↔ k = c)) : (List.range n).filter p = [c] := by
  induction n with
  | zero => omega
  | succ m ih =>
    rw [List.range_succ, List.filter_append]
    by_cases hcm : c < m
    · rw [ih hcm (fun k hk => hp k (by omega))]
      have : p m = false := by
        cases hpm : p m with
        | false => rfl
        | true => have := (hp m (by omega)).mp hpm; omega
      simp [this]
    · have hcm' : c = m := by omega
      subst hcm'
      have h1 : (List.range c).filter p = [] := by
        rw [List.filter_eq_nil_iff]
        intro k hk
        have hk' := List.mem_range.mp hk
        intro hpk
        have := (hp k (by omega)).mp hpk
        omega
      have h2 : p c = true := (hp c (by omega)).mpr rfl
      simp [h1, h2]

/-! ### Ranker -/

theorem obj_at_natCast (a : List Object) (k : Nat) (hk : k < a.length) :
    obj_at a (k : Int) = .ok a[k] := by
  unfold obj_at
  rw [if_neg (by omega)]
  simp [List.getElem?_eq_getElem hk]

theorem prob_at_eq (a : List Object) (k : Nat) (hk : k < a.length) :
    prob_at a k = a[k].prob := by
  unfold prob_at
  rw [List.getElem?_eq_getElem hk]

theorem prob_at_congr (a b : List Object) (k : Nat) (h : b[k]? = a[k]?) :
    prob_at b k = prob_at a k := by
  unfold prob_at
  rw [h]

theorem set_getElem_same (a : List Object) (i : Nat) (hi : i < a.length) :
    a.set i a[i] = a := by
  apply List.ext_getElem?
  intro n
  rw [List.getElem?_set]
  by_cases h : i = n
  · subst h
    simp [hi, List.getElem?_eq_getElem hi]
  · simp [h]

theorem set_set_perm_self (a : List Object) (i j : Nat) (hi : i < a.length)
    (hj : j < a.length) : ((a.set i a[j]).set j a[i]).Perm a := by
  by_cases hij : i = j
  · subst hij
    rw [List.set_set, set_getElem_same a i hi]
  · rw [List.perm_iff_count]
    intro b
    rw [List.count_set _ _ _ _ (by simpa using hj), List.count_set _ _ _ _ hi]
    rw [List.getElem_set_ne hij]
    have h1 : (a[i] == b) = true → 0 < List.count b a := by
      intro h
      have hb : a[i] = b := by simpa using h
      rw [List.count_pos_iff]
      rw [← hb]
      exact List.getElem_mem hi
    cases hb1 : (a[i] == b) <;> cases hb2 : (a[j] == b)
    · simp
    · simp
    · have := h1 hb1
      simp only [if_true, Bool.false_eq_true, if_false]
      omega
    · have := h1 hb1
      simp only [if_true]
      omega

theorem swap_at_spec (a : List Object) (i j : Nat) (hi : i < a.length) (hj : j < a.length) :
    ∃ a2, swap_at a (i : Int) (j : Int) = .ok a2 ∧ a2.length = a.length ∧ a2.Perm a ∧
      ∀ k, a2[k]? = if k = j then a[i]? else if k = i then a[j]? else a[k]? := by
  refine ⟨(a.set i a[j]).set j a[i], ?_, by simp, set_set_perm_self a i j hi hj, ?_⟩
  · unfold swap_at
    rw [obj_at_natCast a i hi, obj_at_natCast a j hj]
    simp
  · intro k
    rw [List.getElem?_set, List.getElem?_set]
    by_cases hkj : k = j
    · subst hkj
      simp [hi, hj, List.getElem?_eq_getElem hi]
    · by_cases hki : k = i
      · subst hki
        simp [hkj, Ne.symm hkj, hi, List.getElem?_eq_getElem hj]
      · simp [hkj, hki, Ne.symm hkj, Ne.symm hki]

theorem RangePerm.refl (lo hi : Nat) (a : List Object) : RangePerm lo hi a a :=
  ⟨rfl, List.Perm.refl a, fun _ _ => rfl, fun _ h => h⟩

theorem RangePerm.trans {lo hi : Nat} {a1 a2 a3 : List Object}
    (h12 : RangePerm lo hi a1 a2) (h23 : RangePerm lo hi a2 a3) : RangePerm lo hi a1 a3 :=
  ⟨h23.length_eq.trans h12.length_eq, h23.perm.trans h12.perm,
   fun k hk => (h23.outside k hk).trans (h12.outside k hk),
   fun P hP => h23.inside P (h12.inside P hP)⟩

theorem RangePerm.mono {lo hi lo2 hi2 : Nat} {a1 a2 : List Object}
    (h : RangePerm lo2 hi2 a1 a2) (hlo : lo ≤ lo2) (hhi : hi2 ≤ hi) : RangePerm lo hi a1 a2 := by
  refine ⟨h.length_eq, h.perm, fun k hk => h.outside k (by omega), ?_⟩
  intro P hP k hk1 hk2
  by_cases hin : lo2 ≤ k ∧ k ≤ hi2
  · exact h.inside P (fun m hm1 hm2 => hP m (by omega) (by omega)) k hin.1 hin.2
  · rw [prob_at_congr a1 a2 k (h.outside k (by omega))]
    exact hP k hk1 hk2

theorem RangePerm.of_swap (lo hi : Nat) (a a2 : List Object) (i j : Nat)
    (hi1 : lo ≤ i) (hi2 : i ≤ hi) (hj1 : lo ≤ j) (hj2 : j ≤ hi)
    (hlen : a2.length = a.length) (hperm : a2.Perm a)
    (hget : ∀ k, a2[k]? = if k = j then a[i]? else if k = i then a[j]? else a[k]?) :
    RangePerm lo hi a a2 := by
  refine ⟨hlen, hperm, ?_, ?_⟩
  · intro k hk
    rw [hget k, if_neg (by omega), if_neg (by omega)]
  · intro P hP k hk1 hk2
    by_cases hkj : k = j
    · have : prob_at a2 k = prob_at a i := by
        unfold prob_at; rw [hget k, if_pos hkj]
      rw [this]; exact hP i hi1 hi2
    · by_cases hki : k = i
      · have : prob_at a2 k = prob_at a j := by
          unfold prob_at; rw [hget k, if_neg hkj, if_pos hki]
        rw [this]; exact hP j hj1 hj2
      · have : prob_at a2 k = prob_at a k := by
          unfold prob_at; rw [hget k, if_neg hkj, if_neg hki]
        rw [this]; exact hP k hk1 hk2

theorem scan_i_spec (a : List Object) (p : ℚ) (fuel i k : Nat) (hik : i ≤ k)
    (hk : k < a.length) (hstop : ¬ prob_at a k > p) (hfuel : k - i < fuel) :
    ∃ i1 : Nat, scan_i a p fuel (i : Int) = .ok (i1 : Int) ∧ i ≤ i1 ∧ i1 ≤ k ∧
      (∀ m, i ≤ m → m < i1 → prob_at a m > p) ∧ ¬ prob_at a i1 > p := by
  induction fuel generalizing i with
  | zero => omega
  | succ n ih =>
    have hi : i < a.length := by omega
    unfold scan_i
    rw [obj_at_natCast a i hi]
    simp only []
    by_cases hgt : a[i].prob > p
    · rw [if_pos hgt]
      have hne : i ≠ k := by
        rintro rfl
        exact hstop (by rw [prob_at_eq a i hi]; exact hgt)
      obtain ⟨i1, h1, h2, h3, h4, h5⟩ := ih (i + 1) (by omega) (by omega)
      refine ⟨i1, by exact_mod_cast h1, by omega, h3, ?_, h5⟩
      intro m hm1 hm2
      by_cases hmi : m = i
      · subst hmi; rw [prob_at_eq a m hi]; exact hgt
      · exact h4 m (by omega) hm2
    · rw [if_neg hgt]
      refine ⟨i, rfl, le_refl _, hik, fun m h1 h2 => by omega, ?_⟩
      rw [prob_at_eq a i hi]; exact hgt

theorem scan_j_spec (a : List Object) (p : ℚ) (fuel j k : Nat) (hkj : k ≤ j)
    (hj : j < a.length) (hstop : ¬ prob_at a k < p) (hfuel : j - k < fuel) :
    ∃ j1 : Nat, scan_j a p fuel (j : Int) = .ok (j1 : Int) ∧ k ≤ j1 ∧ j1 ≤ j ∧
      (∀ m, j1 < m → m ≤ j → prob_at a m < p) ∧ ¬ prob_at a j1 < p := by
  induction fuel generalizing j with
  | zero => omega
  | succ n ih =>
    unfold scan_j
    rw [obj_at_natCast a j hj]
    simp only []
    by_cases hlt : a[j].prob < p
    · rw [if_pos hlt]
      have hne : j ≠ k := by
        rintro rfl
        exact hstop (by rw [prob_at_eq a j hj]; exact hlt)
      obtain ⟨j1, h1, h2, h3, h4, h5⟩ := ih (j - 1) (by omega) (by omega) (by omega)
      have hcast : ((j : Int) - 1) = ((j - 1 : Nat) : Int) := by omega
      refine ⟨j1, by rw [hcast]; exact h1, h2, by omega, ?_, h5⟩
      intro m hm1 hm2
      by_cases hmj : m = j
      · subst hmj; rw [prob_at_eq a m hj]; exact hlt
      · exact h4 m hm1 (by omega)
    · rw [if_neg hlt]
      refine ⟨j, rfl, hkj, le_refl _, fun m h1 h2 => by omega, ?_⟩
      rw [prob_at_eq a j hj]; exact hlt

theorem partition_loop_spec (lo hi : Nat) (p : ℚ) (fuel : Nat) (a : List Object) (i J : Nat)
    (inv : PartInv lo hi p a i J) (hfuel : J - i + 1 ≤ fuel) :
    ∃ (a2 : List Object) (i2 J2 : Nat),
      partition_loop p fuel a (i : Int) ((J : Int) - 1) = .ok (a2, (i2 : Int), (J2 : Int) - 1) ∧
      RangePerm lo hi a a2 ∧ J2 ≤ i2 ∧ lo < i2 ∧ J2 ≤ hi ∧
      (∀ k, lo ≤ k → k < i2 → p ≤ prob_at a2 k) ∧
      (∀ k, J2 ≤ k → k ≤ hi → prob_at a2 k ≤ p) := by
  induction fuel generalizing a i J with
  | zero => omega
  | succ n ih =>
    have hlen := inv.hi_lt
    have hlohi := inv.lo_le_hi
    have hloi := inv.lo_le_i
    have hJle := inv.J_le
    unfold partition_loop
    by_cases hiJ : i < J
    · rw [if_pos (by omega)]
      -- sentinels for the two scans
      have hsent : ∃ k k2, i ≤ k ∧ k ≤ hi ∧ prob_at a k ≤ p ∧ lo ≤ k2 ∧ k2 < J ∧
          p ≤ prob_at a k2 ∧ (i = lo → k ≤ k2) := by
        rcases inv.progress with ⟨h1, h2, m, hm1, hm2, hm3⟩ | ⟨h1, h2⟩
        · exact ⟨m, m, by omega, hm2, le_of_eq hm3, hm1, by omega, le_of_eq hm3.symm,
            fun _ => le_refl _⟩
        · obtain ⟨k, hk1, hk2, hk3⟩ := inv.sentinel_i h1 hiJ
          obtain ⟨k2, hk4, hk5, hk6⟩ := inv.sentinel_j h1 hiJ
          exact ⟨k, k2, hk1, hk2, hk3, hk4, hk5, hk6, fun h => by omega⟩
      obtain ⟨k, k2, hk1, hk2, hk3, hk4, hk5, hk6, hkk⟩ := hsent
      obtain ⟨i1, hsi, hi1a, hi1b, hi1c, hi1d⟩ :=
        scan_i_spec a p (a.length + 1) i k hk1 (by omega) (not_lt.mpr hk3) (by omega)
      have hJ1 : ((J : Int) - 1) = ((J - 1 : Nat) : Int) := by omega
      obtain ⟨j1, hsj, hj1a, hj1b, hj1c, hj1d⟩ :=
        scan_j_spec a p (a.length + 1) (J - 1) k2 (by omega) (by omega)
          (not_lt.mpr hk6) (by omega)
      rw [hsi, hJ1, hsj]
      simp only []
      by_cases hij : i1 ≤ j1
      · rw [if_pos (by omega)]
        obtain ⟨a2, hsw, hlen2, hperm2, hget2⟩ := swap_at_spec a i1 j1 (by omega) (by omega)
        rw [hsw]
        simp only []
        have hrp : RangePerm lo hi a a2 :=
          RangePerm.of_swap lo hi a a2 i1 j1 (by omega) (by omega) (by omega) (by omega)
            hlen2 hperm2 hget2
        have hp_j1 : prob_at a2 j1 = prob_at a i1 := by
          unfold prob_at; rw [hget2 j1, if_pos rfl]
        have hp_i1 : prob_at a2 i1 = prob_at a j1 := by
          unfold prob_at; rw [hget2 i1]
          by_cases h : i1 = j1
          · rw [if_pos h, h]
          · rw [if_neg h, if_pos rfl]
        have hp_other : ∀ m, m ≠ i1 → m ≠ j1 → prob_at a2 m = prob_at a m := by
          intro m h1 h2
          unfold prob_at; rw [hget2 m, if_neg h2, if_neg h1]
        have inv2 : PartInv lo hi p a2 (i1 + 1) j1 := by
          refine ⟨by omega, inv.lo_le_hi, by omega, by omega, ?_, ?_, ?_, ?_, Or.inr ⟨by omega, by omega⟩⟩
          · intro m hm1 hm2
            by_cases hm : m = i1
            · rw [hm, hp_i1]; exact not_lt.mp hj1d
            · rw [hp_other m hm (by omega)]
              by_cases hmi : m < i
              · exact inv.left_ge m hm1 hmi
              · exact le_of_lt (hi1c m (by omega) (by omega))
          · intro m hm1 hm2
            by_cases hm : m = j1
            · rw [hm, hp_j1]; exact not_lt.mp hi1d
            · rw [hp_other m (by omega) hm]
              by_cases hmJ : J ≤ m
              · exact inv.right_le m hmJ hm2
              · exact le_of_lt (hj1c m (by omega) (by omega))
          · intro _ h
            exact ⟨j1, by omega, by omega, by rw [hp_j1]; exact not_lt.mp hi1d⟩
          · intro _ h
            exact ⟨i1, by omega, by omega, by rw [hp_i1]; exact not_lt.mp hj1d⟩
        obtain ⟨a3, i3, J3, hrun, hrp3, h1, h2, h3, h4, h5⟩ := ih a2 (i1 + 1) j1 inv2 (by omega)
        have e1 : ((i1 : Int) + 1) = ((i1 + 1 : Nat) : Int) := by omega
        rw [e1, hrun]
        exact ⟨a3, i3, J3, rfl, hrp.trans hrp3, h1, h2, h3, h4, h5⟩
      · rw [if_neg (by omega)]
        have hprog : lo < i ∧ J ≤ hi := by
          rcases inv.progress with ⟨h1, _, _⟩ | h
          · have := hkk h1; omega
          · exact h
        have inv2 : PartInv lo hi p a i1 (j1 + 1) := by
          refine ⟨hlen, inv.lo_le_hi, by omega, by omega, ?_, ?_, ?_, ?_, Or.inr ⟨by omega, by omega⟩⟩
          · intro m hm1 hm2
            by_cases hmi : m < i
            · exact inv.left_ge m hm1 hmi
            · exact le_of_lt (hi1c m (by omega) hm2)
          · intro m hm1 hm2
            by_cases hmJ : J ≤ m
            · exact inv.right_le m hmJ hm2
            · exact le_of_lt (hj1c m (by omega) (by omega))
          · intro _ h; omega
          · intro _ h; omega
        obtain ⟨a3, i3, J3, hrun, hrp3, h1, h2, h3, h4, h5⟩ := ih a i1 (j1 + 1) inv2 (by omega)
        have e1 : ((j1 : Int)) = ((j1 + 1 : Nat) : Int) - 1 := by omega
        rw [e1, hrun]
        exact ⟨a3, i3, J3, rfl, hrp3, h1, h2, h3, h4, h5⟩
    · rw [if_neg (by omega)]
      have hprog : lo < i ∧ J ≤ hi := by
        rcases inv.progress with ⟨h1, h2, _⟩ | h
        · have := inv.lo_le_hi; omega
        · exact h
      exact ⟨a, i, J, rfl, RangePerm.refl lo hi a, by omega, hprog.1, hprog.2,
        inv.left_ge, inv.right_le⟩

theorem qsort_range_spec (fuel : Nat) (a : List Object) (lo hi : Nat) (hlohi : lo ≤ hi)
    (hhi : hi < a.length) (hfuel : hi - lo + 1 ≤ fuel) :
    ∃ a3, qsort_descent_inplace_range fuel a (lo : Int) (hi : Int) = .ok a3 ∧
      RangePerm lo hi a a3 ∧
      ∀ k1 k2, lo ≤ k1 → k1 ≤ k2 → k2 ≤ hi → prob_at a3 k2 ≤ prob_at a3 k1 := by
  induction fuel generalizing a lo hi with
  | zero => omega
  | succ n ih =>
    unfold qsort_descent_inplace_range
    have hmid : ((lo : Int) + (hi : Int)).tdiv 2 = (((lo + hi) / 2 : Nat) : Int) := by
      rw [Int.tdiv_eq_ediv (by omega) (by omega)]
      omega
    have hmlt : (lo + hi) / 2 < a.length := by omega
    rw [hmid, obj_at_natCast a _ hmlt]
    simp only []
    have hp : a[(lo + hi) / 2].prob = prob_at a ((lo + hi) / 2) := (prob_at_eq a _ hmlt).symm
    rw [hp]
    have inv : PartInv lo hi (prob_at a ((lo + hi) / 2)) a lo (hi + 1) := by
      refine ⟨hhi, hlohi, le_refl _, le_refl _, ?_, ?_, ?_, ?_, ?_⟩
      · intro k h1 h2; omega
      · intro k h1 h2; omega
      · intro h; omega
      · intro h; omega
      · exact Or.inl ⟨rfl, rfl, (lo + hi) / 2, by omega, by omega, rfl⟩
    generalize prob_at a ((lo + hi) / 2) = p at inv ⊢
    obtain ⟨a1, i2, J2, hrun, hrp1, hJi, hloi, hJhi, hleft, hright⟩ :=
      partition_loop_spec lo hi p (a.length + 1) a lo (hi + 1) inv (by omega)
    have ehi : ((hi : Int)) = ((hi + 1 : Nat) : Int) - 1 := by omega
    rw [ehi, hrun]
    simp only []
    rw [← ehi]
    have hlen1 : a1.length = a.length := hrp1.length_eq
    -- first recursive call
    have stage1 : ∃ a2,
        (if (lo : Int) < (J2 : Int) - 1 then
            qsort_descent_inplace_range n a1 (lo : Int) ((J2 : Int) - 1)
          else .ok a1) = .ok a2 ∧
        RangePerm lo hi a1 a2 ∧ (∀ k, J2 ≤ k → a2[k]? = a1[k]?) ∧
        (∀ k, lo ≤ k → k < J2 → p ≤ prob_at a2 k) ∧
        (∀ k1 k2, lo ≤ k1 → k1 ≤ k2 → k2 < J2 → prob_at a2 k2 ≤ prob_at a2 k1) := by
      by_cases hrec : lo + 1 < J2
      · rw [if_pos (by omega)]
        have eJ : ((J2 : Int) - 1) = ((J2 - 1 : Nat) : Int) := by omega
        rw [eJ]
        obtain ⟨a2, h1, h2, h3⟩ := ih a1 lo (J2 - 1) (by omega) (by omega) (by omega)
        refine ⟨a2, h1, h2.mono (le_refl _) (by omega), fun k hk => h2.outside k (by omega),
          ?_, fun k1 k2 hk1 hk2 hk3 => h3 k1 k2 hk1 hk2 (by omega)⟩
        intro k hk1 hk2
        exact h2.inside (fun q => p ≤ q) (fun m hm1 hm2 => hleft m hm1 (by omega)) k hk1
          (by omega)
      · rw [if_neg (by omega)]
        refine ⟨a1, rfl, RangePerm.refl _ _ _, fun _ _ => rfl,
          fun k hk1 hk2 => hleft k hk1 (by omega), ?_⟩
        intro k1 k2 hk1 hk2 hk3
        have : k1 = k2 := by omega
        rw [this]
    obtain ⟨a2, hrun1, hrp2, hout2, hleft2, hsorted2⟩ := stage1
    rw [hrun1]
    simp only []
    have hlen2 : a2.length = a.length := hrp2.length_eq.trans hlen1
    -- second recursive call
    have stage2 : ∃ a3,
        (if (i2 : Int) < (hi : Int) then
            qsort_descent_inplace_range n a2 (i2 : Int) (hi : Int)
          else .ok a2) = .ok a3 ∧
        RangePerm lo hi a2 a3 ∧ (∀ k, k < i2 → a3[k]? = a2[k]?) ∧
        (∀ k, i2 ≤ k → k ≤ hi → prob_at a3 k ≤ p) ∧
        (∀ k1 k2, i2 ≤ k1 → k1 ≤ k2 → k2 ≤ hi → prob_at a3 k2 ≤ prob_at a3 k1) := by
      have hright2 : ∀ k, i2 ≤ k → k ≤ hi → prob_at a2 k ≤ p := by
        intro k hk1 hk2
        rw [prob_at_congr a1 a2 k (hout2 k (by omega))]
        exact hright k (by omega) hk2
      by_cases hrec : i2 < hi
      · rw [if_pos (by omega)]
        obtain ⟨a3, h1, h2, h3⟩ := ih a2 i2 hi (by omega) (by omega) (by omega)
        refine ⟨a3, h1, h2.mono (by omega) (le_refl _), fun k hk => h2.outside k (by omega),
          ?_, h3⟩
        intro k hk1 hk2
        exact h2.inside (fun q => q ≤ p) hright2 k hk1 hk2
      · rw [if_neg (by omega)]
        refine ⟨a2, rfl, RangePerm.refl _ _ _, fun _ _ => rfl, hright2, ?_⟩
        intro k1 k2 hk1 hk2 hk3
        have : k1 = k2 := by omega
        rw [this]
    obtain ⟨a3, hrun2, hrp3, hout3, hright3, hsorted3⟩ := stage2
    refine ⟨a3, hrun2, (hrp1.trans hrp2).trans hrp3, ?_⟩
    intro k1 k2 hk1 hk2 hk3
    by_cases hz1 : k2 < J2
    · rw [prob_at_congr a2 a3 k2 (hout3 k2 (by omega)),
        prob_at_congr a2 a3 k1 (hout3 k1 (by omega))]
      exact hsorted2 k1 k2 hk1 hk2 hz1
    · by_cases hz3 : i2 ≤ k1
      · exact hsorted3 k1 k2 hz3 hk2 hk3
      · have hge : p ≤ prob_at a3 k1 := by
          rw [prob_at_congr a2 a3 k1 (hout3 k1 (by omega))]
          by_cases hk : k1 < J2
          · exact hleft2 k1 hk1 hk
          · rw [prob_at_congr a1 a2 k1 (hout2 k1 (by omega))]
            exact hleft k1 hk1 (by omega)
        have hle : prob_at a3 k2 ≤ p := by
          by_cases hk : i2 ≤ k2
          · exact hright3 k2 hk hk3
          · rw [prob_at_congr a2 a3 k2 (hout3 k2 (by omega)),
              prob_at_congr a1 a2 k2 (hout2 k2 (by omega))]
            exact hright k2 (by omega) hk3
        exact le_trans hle hge

theorem qsort_descent_inplace_spec (objects : List Object) :
    ∃ result, qsort_descent_inplace objects = .ok result ∧ result.Perm objects ∧
      result.length = objects.length ∧
      ∀ k1 k2, k1 ≤ k2 → k2 < result.length → prob_at result k2 ≤ prob_at result k1 := by
  unfold qsort_descent_inplace
  cases objects with
  | nil =>
    refine ⟨[], by simp, List.Perm.refl _, rfl, ?_⟩
    intro k1 k2 _ h
    simp at h
  | cons o rest =>
    have hne : (o :: rest).isEmpty = false := rfl
    rw [hne]
    simp only [Bool.false_eq_true, if_false]
    have e0 : (0 : Int) = ((0 : Nat) : Int) := rfl
    have e1 : (((o :: rest).length : Int) - 1) = ((rest.length : Nat) : Int) := by
      simp
    rw [e0, e1]
    obtain ⟨a3, h1, h2, h3⟩ := qsort_range_spec (o :: rest).length (o :: rest) 0 rest.length
      (Nat.zero_le _) (by simp) (by simp)
    refine ⟨a3, h1, h2.perm, h2.length_eq, ?_⟩
    intro k1 k2 hk1 hk2
    have hlen := h2.length_eq
    simp only [List.length_cons] at hlen
    exact h3 k1 k2 (Nat.zero_le _) hk1 (by omega)

/-! ### Suppressor (NMS) -/

theorem nms_keep_eq (faceobjects : List Object) (thr : ℚ) (i : Nat) (a : Object)
    (ha : faceobjects[i]? = some a) (picked : List Nat)
    (hp : ∀ pj ∈ picked, pj < faceobjects.length) (keep : Bool) :
    nms_keep faceobjects (faceobjects.map fun o => o.rect.area) thr i a picked keep
      = .ok (keep && picked.all fun pj => !iou_gt faceobjects thr i pj) := by
  induction picked generalizing keep with
  | nil => simp [nms_keep]
  | cons pj rest ih =>
    have hpj : pj < faceobjects.length := hp pj (List.mem_cons_self _ _)
    have hrest : ∀ q ∈ rest, q < faceobjects.length :=
      fun q hq => hp q (List.mem_cons_of_mem _ hq)
    have hb : faceobjects[pj]? = some faceobjects[pj] := List.getElem?_eq_getElem hpj
    have hai : (faceobjects.map fun o => o.rect.area)[i]? = some a.rect.area := by
      rw [List.getElem?_map, ha]; rfl
    have hapj : (faceobjects.map fun o => o.rect.area)[pj]? = some faceobjects[pj].rect.area := by
      rw [List.getElem?_map, hb]; rfl
    have hgt : iou_gt faceobjects thr i pj
        = iou_exceeds (intersection_area a faceobjects[pj])
            (a.rect.area + faceobjects[pj].rect.area - intersection_area a faceobjects[pj])
            thr := by
      unfold iou_gt
      rw [ha, hb]
    unfold nms_keep
    rw [hb, hai, hapj]
    simp only []
    rw [← hgt]
    cases hc : iou_gt faceobjects thr i pj
    · simp only [Bool.false_eq_true, if_false]
      rw [ih hrest keep]
      simp [hc]
    · simp only [if_true]
      rw [ih hrest false]
      simp [hc]

theorem nms_loop_spec (faceobjects : List Object) (thr : ℚ) (m s : Nat) (picked : List Nat)
    (hs : s + m ≤ faceobjects.length) (inv : NmsInv faceobjects thr s picked) :
    ∃ picked2, nms_loop faceobjects (faceobjects.map fun o => o.rect.area) thr
        (List.range' s m) picked = .ok picked2 ∧ NmsInv faceobjects thr (s + m) picked2 := by
  induction m generalizing s picked with
  | zero => exact ⟨picked, by simp [nms_loop], inv⟩
  | succ m ih =>
    have hslt : s < faceobjects.length := by omega
    have ha : faceobjects[s]? = some faceobjects[s] := List.getElem?_eq_getElem hslt
    have hbelow : ∀ pj ∈ picked, pj < faceobjects.length :=
      fun pj h => lt_trans (inv.below pj h) hslt
    rw [List.range'_succ]
    unfold nms_loop
    rw [ha]
    simp only []
    rw [nms_keep_eq faceobjects thr s _ ha picked hbelow true]
    simp only [Bool.true_and]
    have hnot : s ∉ picked := fun h => lt_irrefl _ (inv.below s h)
    cases hk : picked.all fun pj => !iou_gt faceobjects thr s pj
    · -- the candidate `s` is discarded
      simp only [Bool.false_eq_true, if_false]
      have inv2 : NmsInv faceobjects thr (s + 1) picked := by
        refine ⟨inv.increasing, fun x hx => Nat.lt_succ_of_lt (inv.below x hx), ?_⟩
        intro i hi
        by_cases his : i = s
        · subst his
          constructor
          · intro h; exact absurd h hnot
          · intro h
            exfalso
            have hall : (picked.all fun pj => !iou_gt faceobjects thr i pj) = true := by
              rw [List.all_eq_true]
              intro pj hpj
              simp [h pj hpj (inv.below pj hpj)]
            rw [hk] at hall
            exact Bool.noConfusion hall
        · exact inv.greedy i (by omega)
      obtain ⟨picked2, h1, h2⟩ := ih (s + 1) picked (by omega) inv2
      exact ⟨picked2, h1, by rw [show s + (m + 1) = s + 1 + m by omega]; exact h2⟩
    · -- the candidate `s` is kept
      simp only [if_true]
      rw [List.all_eq_true] at hk
      have inv2 : NmsInv faceobjects thr (s + 1) (picked ++ [s]) := by
        refine ⟨?_, ?_, ?_⟩
        · rw [List.pairwise_append]
          refine ⟨inv.increasing, List.pairwise_singleton _ _, ?_⟩
          intro x hx y hy
          rw [List.mem_singleton] at hy
          rw [hy]; exact inv.below x hx
        · intro x hx
          rw [List.mem_append, List.mem_singleton] at hx
          rcases hx with hx | hx
          · exact Nat.lt_succ_of_lt (inv.below x hx)
          · omega
        · intro i hi
          by_cases his : i = s
          · subst his
            constructor
            · intro _ j hj hji
              rw [List.mem_append, List.mem_singleton] at hj
              rcases hj with hj | hj
              · simpa using hk j hj
              · omega
            · intro _
              simp
          · have hlt : i < s := by omega
            constructor
            · intro h j hj hji
              rw [List.mem_append, List.mem_singleton] at h hj
              rcases h with h | h
              · rcases hj with hj | hj
                · exact (inv.greedy i hlt).mp h j hj hji
                · omega
              · exact absurd h his
            · intro h
              rw [List.mem_append]
              left
              apply (inv.greedy i hlt).mpr
              intro j hj hji
              exact h j (List.mem_append_left _ hj) hji
      obtain ⟨picked2, h1, h2⟩ := ih (s + 1) (picked ++ [s]) (by omega) inv2
      exact ⟨picked2, h1, by rw [show s + (m + 1) = s + 1 + m by omega]; exact h2⟩

theorem nms_sorted_bboxes_spec (faceobjects : List Object) (picked0 : List Nat) (thr : ℚ) :
    ∃ picked, nms_sorted_bboxes faceobjects picked0 thr = .ok picked ∧
      NmsInv faceobjects thr faceobjects.length picked := by
  unfold nms_sorted_bboxes
  simp only []
  rw [List.range_eq_range']
  have inv0 : NmsInv faceobjects thr 0 [] :=
    ⟨List.Pairwise.nil, fun x hx => by simp at hx, fun i hi => by omega⟩
  obtain ⟨picked, h1, h2⟩ := nms_loop_spec faceobjects thr faceobjects.length 0 [] (by omega) inv0
  exact ⟨picked, h1, by simpa using h2⟩

theorem Rect.inter_comm (a b : Rect) : a.inter b = b.inter a := by
  unfold Rect.inter
  simp only [max_comm a.x b.x, max_comm a.y b.y, min_comm (a.x + a.width) (b.x + b.width),
    min_comm (a.y + a.height) (b.y + b.height)]

theorem intersection_area_comm (a b : Object) :
    intersection_area a b = intersection_area b a := by
  unfold intersection_area
  rw [Rect.inter_comm]

theorem Rect.inter_self_area (r : Rect) (hw : 0 < r.width) (hh : 0 < r.height) :
    (r.inter r).area = r.area := by
  unfold Rect.inter
  simp only [max_self, min_self, add_sub_cancel_left]
  rw [if_neg (by rintro (h | h) <;> linarith)]

theorem nms_pair (a b : Object) (picked0 : List Nat) (thr : ℚ) :
    nms_sorted_bboxes [a, b] picked0 thr
      = .ok (if iou_exceeds (intersection_area b a)
              (b.rect.area + a.rect.area - intersection_area b a) thr
            then [0] else [0, 1]) := by
  simp only [nms_sorted_bboxes, List.length_cons, List.length_nil, List.range_succ,
    List.range_zero, List.nil_append, List.cons_append, List.map_cons, List.map_nil,
    nms_loop, nms_keep, List.getElem?_cons_zero, List.getElem?_cons_succ, if_true]
  cases iou_exceeds (intersection_area b a)
      (b.rect.area + a.rect.area - intersection_area b a) thr <;> rfl

/-! ### Rescaler / clipper and the pipeline -/

theorem clip_of_mem (v : ℚ) (dim : Int) (h0 : 0 ≤ v) (h1 : v ≤ ((dim - 1 : Int) : ℚ)) :
    clip v dim = v := by
  unfold clip
  rw [min_eq_left h1, max_eq_left h0]

theorem kept_objects_cons (L : List Object) (i : Nat) (rest : List Nat) (o : Object)
    (h : L[i]? = some o) : kept_objects L (i :: rest) = o :: kept_objects L rest := by
  unfold kept_objects
  rw [List.filterMap_cons, h]

theorem kept_objects_length (L : List Object) (picked : List Nat)
    (h : ∀ i ∈ picked, i < L.length) : (kept_objects L picked).length = picked.length := by
  induction picked with
  | nil => rfl
  | cons i rest ih =>
    have hi : i < L.length := h i (List.mem_cons_self _ _)
    rw [kept_objects_cons L i rest _ (List.getElem?_eq_getElem hi)]
    simp [ih (fun j hj => h j (List.mem_cons_of_mem _ hj))]

theorem kept_objects_getElem? (L : List Object) (picked : List Nat)
    (h : ∀ i ∈ picked, i < L.length) (k : Nat) :
    (kept_objects L picked)[k]? = (picked[k]?).bind fun i => L[i]? := by
  induction picked generalizing k with
  | nil => simp [kept_objects]
  | cons i rest ih =>
    have hi : i < L.length := h i (List.mem_cons_self _ _)
    rw [kept_objects_cons L i rest _ (List.getElem?_eq_getElem hi)]
    cases k with
    | zero => simp [List.getElem?_eq_getElem hi]
    | succ k =>
      simp only [List.getElem?_cons_succ]
      exact ih (fun j hj => h j (List.mem_cons_of_mem _ hj)) k

theorem rescale_loop_eq (proposals : List Object) (scale : ℚ) (img_w img_h : Int)
    (picked : List Nat) (objects : List Object) (h : ∀ i ∈ picked, i < proposals.length) :
    rescale_loop proposals scale img_w img_h picked objects
      = .ok (objects ++ (kept_objects proposals picked).map
          fun o => rescale_clip o scale img_w img_h) := by
  induction picked generalizing objects with
  | nil => simp [rescale_loop, kept_objects]
  | cons i rest ih =>
    have hi : i < proposals.length := h i (List.mem_cons_self _ _)
    have hget : proposals[i]? = some proposals[i] := List.getElem?_eq_getElem hi
    unfold rescale_loop
    rw [hget]
    simp only []
    rw [ih _ (fun j hj => h j (List.mem_cons_of_mem _ hj)), kept_objects_cons _ _ _ _ hget]
    simp

theorem grids_640_eq :
    generate_grids_and_stride INPUT_W INPUT_H [8, 16, 32] []
      = .ok (spec_cells 640 640 8 ++ (spec_cells 640 640 16 ++ spec_cells 640 640 32)) := by
  have h := generate_grids_eq 640 640 [8, 16, 32] [] (by decide)
  simp only [List.nil_append, List.flatMap_cons, List.flatMap_nil, List.append_nil] at h
  exact h

theorem grids_640_length :
    (spec_cells 640 640 8 ++ (spec_cells 640 640 16 ++ spec_cells 640 640 32)).length
      = 8400 := by
  have l8 : (spec_cells 640 640 8).length = 6400 := by
    rw [spec_cells_length]; decide
  have l16 : (spec_cells 640 640 16).length = 1600 := by
    rw [spec_cells_length]; decide
  have l32 : (spec_cells 640 640 32).length = 400 := by
    rw [spec_cells_length]; decide
  rw [List.length_append, List.length_append, l8, l16, l32]

theorem decode_with_grids_of_stages (exp : ℚ → ℚ) (prob : List ℚ)
    (scale : ℚ) (img_w img_h : Int) (grid_strides : List GridAndStride)
    (proposals sorted : List Object) (picked : List Nat)
    (h2 : generate_yolox_proposals exp grid_strides prob BBOX_CONF_THRESH [] = .ok proposals)
    (h3 : qsort_descent_inplace proposals = .ok sorted)
    (h4 : nms_sorted_bboxes sorted [] NMS_THRESH = .ok picked) :
    decode_with_grids exp prob scale img_w img_h (.ok grid_strides)
      = rescale_loop sorted scale img_w img_h picked [] := by
  unfold decode_with_grids
  simp only []
  rw [h2]
  simp only []
  rw [h3]
  simp only []
  rw [h4]

/-- The stages of `decode_outputs` on a buffer that holds the 8400 records. -/
theorem decode_outputs_stages (exp : ℚ → ℚ) (prob : List ℚ) (objects0 : List Object)
    (scale : ℚ) (img_w img_h : Int) (hlen : 8400 * (NUM_CLASSES + 13) ≤ prob.length) :
    ∃ grid_strides proposals sorted picked,
      generate_grids_and_stride INPUT_W INPUT_H [8, 16, 32] [] = .ok grid_strides ∧
      grid_strides.length = 8400 ∧
      generate_yolox_proposals exp grid_strides prob BBOX_CONF_THRESH [] = .ok proposals ∧
      proposals = spec_proposals_from exp prob BBOX_CONF_THRESH 0 grid_strides ∧
      qsort_descent_inplace proposals = .ok sorted ∧
      sorted.Perm proposals ∧
      (∀ k1 k2, k1 ≤ k2 → k2 < sorted.length → prob_at sorted k2 ≤ prob_at sorted k1) ∧
      nms_sorted_bboxes sorted [] NMS_THRESH = .ok picked ∧
      NmsInv sorted NMS_THRESH sorted.length picked ∧
      decode_outputs exp prob objects0 scale img_w img_h
        = .ok ((kept_objects sorted picked).map fun o => rescale_clip o scale img_w img_h) := by
  obtain ⟨sorted, hs1, hs2, hs3, hs4⟩ := qsort_descent_inplace_spec
    (spec_proposals_from exp prob BBOX_CONF_THRESH 0
      (spec_cells 640 640 8 ++ (spec_cells 640 640 16 ++ spec_cells 640 640 32)))
  obtain ⟨picked, hp1, hp2⟩ := nms_sorted_bboxes_spec sorted [] NMS_THRESH
  have hgen := generate_yolox_proposals_eq exp
    (spec_cells 640 640 8 ++ (spec_cells 640 640 16 ++ spec_cells 640 640 32)) prob
    BBOX_CONF_THRESH [] (by rw [grids_640_length]; exact hlen)
  rw [List.nil_append] at hgen
  refine ⟨_, _, sorted, picked, grids_640_eq, grids_640_length, hgen, rfl, hs1, hs2, hs4, hp1,
    hp2, ?_⟩
  unfold decode_outputs
  rw [grids_640_eq, decode_with_grids_of_stages exp prob scale img_w img_h _ _ sorted picked
    hgen hs1 hp1,
    rescale_loop_eq sorted scale img_w img_h picked [] hp2.below]
  simp

/-! ### NMS on its own output, boxes of zero area -/

theorem increasing_eq_range (l : List Nat) (k : Nat) (hinc : l.Pairwise (· < ·))
    (hbelow : ∀ x ∈ l, x < k) (hall : ∀ i, i < k → i ∈ l) : l = List.range k := by
  apply List.eq_of_perm_of_sorted (r := (· < ·)) _ hinc (List.sorted_lt_range k)
  rw [List.perm_ext_iff_of_nodup (hinc.imp (fun h => Nat.ne_of_lt h)) (List.nodup_range k)]
  intro a
  rw [List.mem_range]
  exact ⟨hbelow a, hall a⟩

theorem iou_gt_congr (K L : List Object) (t : ℚ) (i j i2 j2 : Nat)
    (hi : K[i]? = L[i2]?) (hj : K[j]? = L[j2]?) : iou_gt K t i j = iou_gt L t i2 j2 := by
  unfold iou_gt
  rw [hi, hj]

theorem kept_objects_range (K : List Object) :
    kept_objects K (List.range K.length) = K := by
  apply List.ext_getElem?
  intro m
  rw [kept_objects_getElem? K _ (fun i hi => List.mem_range.mp hi)]
  by_cases hm : m < K.length
  · rw [List.getElem?_range hm]
    rfl
  · rw [List.getElem?_eq_none (by simpa using hm), List.getElem?_eq_none (by omega)]
    rfl

theorem nms_kept_all (L : List Object) (picked : List Nat) (t : ℚ) (prev : List Nat)
    (inv : NmsInv L t L.length picked) :
    nms_sorted_bboxes (kept_objects L picked) prev t = .ok (List.range picked.length) := by
  have hlen : (kept_objects L picked).length = picked.length :=
    kept_objects_length L picked inv.below
  obtain ⟨picked2, h1, h2⟩ := nms_sorted_bboxes_spec (kept_objects L picked) prev t
  rw [h1]
  congr 1
  rw [hlen] at h2
  apply increasing_eq_range picked2 picked.length h2.increasing h2.below
  intro i hi
  rw [h2.greedy i hi]
  intro j _ hji
  have hj : j < picked.length := by omega
  have hKi : (kept_objects L picked)[i]? = L[picked[i]]? := by
    rw [kept_objects_getElem? L picked inv.below, List.getElem?_eq_getElem hi]
    rfl
  have hKj : (kept_objects L picked)[j]? = L[picked[j]]? := by
    rw [kept_objects_getElem? L picked inv.below, List.getElem?_eq_getElem hj]
    rfl
  rw [iou_gt_congr _ L t i j _ _ hKi hKj]
  have hmi : picked[i] ∈ picked := List.getElem_mem hi
  have hmj : picked[j] ∈ picked := List.getElem_mem hj
  have hlt : picked[j] < picked[i] :=
    List.pairwise_iff_getElem.mp inv.increasing j i hj hi hji
  exact (inv.greedy picked[i] (inv.below _ hmi)).mp hmi picked[j] hmj hlt

theorem nms_sorted_bboxes_nil (prev : List Nat) (t : ℚ) :
    nms_sorted_bboxes [] prev t = .ok [] := by
  simp [nms_sorted_bboxes, nms_loop]

theorem zero_area_inter (a b : Rect) (ha : a.area = 0) : (a.inter b).area = 0 := by
  unfold Rect.area at ha
  unfold Rect.inter
  simp only []
  split
  · simp [Rect.area]
  · rename_i hne
    exfalso
    apply hne
    rcases mul_eq_zero.mp ha with hw | hh
    · left
      rw [hw, add_zero]
      have h1 : min a.x (b.x + b.width) ≤ a.x := min_le_left _ _
      have h2 : a.x ≤ max a.x b.x := le_max_left _ _
      linarith
    · right
      rw [hh, add_zero]
      have h1 : min a.y (b.y + b.height) ≤ a.y := min_le_left _ _
      have h2 : a.y ≤ max a.y b.y := le_max_left _ _
      linarith

/-! ### Rescale and clip -/

theorem rescale_clip_label_prob (o : Object) (scale : ℚ) (img_w img_h : Int) :
    (rescale_clip o scale img_w img_h).label = o.label ∧
      (rescale_clip o scale img_w img_h).prob = o.prob :=
  ⟨rfl, rfl⟩

theorem prob_at_rescaled (sorted : List Object) (picked : List Nat) (scale : ℚ)
    (img_w img_h : Int) (hbelow : ∀ i ∈ picked, i < sorted.length) (k : Nat)
    (hk : k < picked.length) :
    prob_at ((kept_objects sorted picked).map fun o => rescale_clip o scale img_w img_h) k
      = prob_at sorted picked[k] := by
  have hlt : picked[k] < sorted.length := hbelow _ (List.getElem_mem hk)
  unfold prob_at
  rw [List.getElem?_map, kept_objects_getElem? sorted picked hbelow,
    List.getElem?_eq_getElem hk]
  simp only [Option.some_bind]
  rw [List.getElem?_eq_getElem hlt]
  rfl

/-! ### The single-anchor buffer -/

theorem cons_of_getElem?_zero (l : List GridAndStride) (g : GridAndStride)
    (h : l[0]? = some g) : ∃ tail, l = g :: tail := by
  cases l with
  | nil => simp at h
  | cons x tail =>
    simp only [List.getElem?_cons_zero, Option.some.injEq] at h
    exact ⟨tail, by rw [h]⟩

theorem grids_640_head :
    ∃ tail, spec_cells 640 640 8 ++ (spec_cells 640 640 16 ++ spec_cells 640 640 32)
      = { grid0 := 0, grid1 := 0, stride := 8 } :: tail := by
  apply cons_of_getElem?_zero
  have l8 : (spec_cells 640 640 8).length = 6400 := by
    rw [spec_cells_length]; decide
  rw [List.getElem?_append_left (by omega)]
  unfold spec_cells
  have h := flatMap_range_get ((640 : Int).fdiv 8).toNat ((640 : Int).fdiv 8).toNat
    (fun (gy gx : Nat) => ({ grid0 := (gx : Int), grid1 := (gy : Int), stride := 8 } :
      GridAndStride)) 0 0 (by decide) (by decide)
  simpa using h

theorem raw_at_append_left (f rest : List ℚ) (a k : Nat)
    (h : a * (NUM_CLASSES + 13) + k < f.length) :
    raw_at (f ++ rest) a k = raw_at f a k := by
  unfold raw_at
  exact List.getD_append f rest 0 _ h

theorem raw_at_append_zeros (f : List ℚ) (m a k : Nat)
    (h : f.length ≤ a * (NUM_CLASSES + 13) + k) :
    raw_at (f ++ List.replicate m 0) a k = 0 := by
  unfold raw_at
  rw [List.getD_append_right f _ 0 _ h, List.getD_eq_getElem?_getD, List.getElem?_replicate]
  split <;> rfl

theorem spec_anchor_one_hot (exp : ℚ → ℚ) (feat : List ℚ) (thr : ℚ) (a : Nat)
    (g : GridAndStride) (c : Nat) (hc : c < NUM_CLASSES) (h0 : 0 ≤ thr) (h1 : thr < 1)
    (hobj : raw_at feat a 12 = 1)
    (hcls : ∀ k, k < NUM_CLASSES → raw_at feat a (13 + k) = if k = c then 1 else 0) :
    spec_anchor_proposals exp feat thr a g = [spec_candidate exp (raw_at feat a) g c] := by
  have hf : (List.range NUM_CLASSES).filter (fun k =>
      decide (raw_at feat a 12 * raw_at feat a (13 + k) > thr)) = [c] := by
    apply filter_range_eq_singleton _ _ hc
    intro k hk
    rw [hobj, hcls k hk]
    by_cases hkc : k = c
    · simp [hkc, h1]
    · simp [hkc, h0]
  unfold spec_anchor_proposals
  rw [hf]
  rfl

theorem qsort_singleton (o : Object) : qsort_descent_inplace [o] = .ok [o] := by
  obtain ⟨result, h1, h2, _, _⟩ := qsort_descent_inplace_spec [o]
  rw [h1, List.perm_singleton.mp h2]

theorem nms_singleton (o : Object) (prev : List Nat) (t : ℚ) :
    nms_sorted_bboxes [o] prev t = .ok [0] := by
  simp [nms_sorted_bboxes, nms_loop, nms_keep, List.range_succ]

theorem single_anchor_buffer_length (c : Nat) :
    (single_anchor_buffer c).length = 8400 * (NUM_CLASSES + 13) := by
  unfold single_anchor_buffer
  rw [List.length_append, one_hot_len, List.length_replicate]
  rfl

theorem single_anchor_candidate (exp : ℚ → ℚ) (hexp : exp 0 = 1) (c : Nat)
    (hc : c < NUM_CLASSES) :
    spec_candidate exp (raw_at (single_anchor_buffer c) 0)
        { grid0 := 0, grid1 := 0, stride := 8 } c
      = { rect := { x := -4, y := -4, width := 8, height := 8 }
          points0 := { x := 0, y := 0 }, points1 := { x := 0, y := 0 }
          points2 := { x := 0, y := 0 }, points3 := { x := 0, y := 0 }
          label := (c : Int), prob := 1 } := by
  have hN : NUM_CLASSES + 13 = 19 := rfl
  have hoff : ∀ k, k < 12 → raw_at (single_anchor_buffer c) 0 k = 0 := by
    intro k hk
    unfold single_anchor_buffer
    rw [raw_at_append_left _ _ 0 k (by rw [one_hot_len]; omega)]
    exact raw_one_hot_offsets c k hk
  have hobj : raw_at (single_anchor_buffer c) 0 12 = 1 := by
    unfold single_anchor_buffer
    rw [raw_at_append_left _ _ 0 12 (by rw [one_hot_len]; omega)]
    exact raw_one_hot_obj c
  have hcls : raw_at (single_anchor_buffer c) 0 (13 + c) = 1 := by
    have h6 : NUM_CLASSES = 6 := rfl
    unfold single_anchor_buffer
    rw [raw_at_append_left _ _ 0 (13 + c) (by rw [one_hot_len]; omega),
      raw_one_hot_cls c c hc, if_pos rfl]
  unfold spec_candidate
  simp only []
  rw [hoff 0 (by omega), hoff 1 (by omega), hoff 2 (by omega), hoff 3 (by omega),
    hoff 4 (by omega), hoff 5 (by omega), hoff 6 (by omega), hoff 7 (by omega),
    hoff 8 (by omega), hoff 9 (by omega), hoff 10 (by omega), hoff 11 (by omega), hobj, hcls,
    hexp]
  norm_num

theorem single_anchor_proposals (exp : ℚ → ℚ) (hexp : exp 0 = 1) (c : Nat)
    (hc : c < NUM_CLASSES) (tail : List GridAndStride) (htail : tail.length = 8399) :
    generate_yolox_proposals exp ({ grid0 := 0, grid1 := 0, stride := 8 } :: tail)
        (single_anchor_buffer c) BBOX_CONF_THRESH []
      = .ok [{ rect := { x := -4, y := -4, width := 8, height := 8 }
               points0 := { x := 0, y := 0 }, points1 := { x := 0, y := 0 }
               points2 := { x := 0, y := 0 }, points3 := { x := 0, y := 0 }
               label := (c : Int), prob := 1 }] := by
  have hN : NUM_CLASSES + 13 = 19 := rfl
  have h6 : NUM_CLASSES = 6 := rfl
  rw [generate_yolox_proposals_eq _ _ _ _ _
    (by rw [single_anchor_buffer_length, List.length_cons, htail])]
  have hobj : raw_at (single_anchor_buffer c) 0 12 = 1 := by
    unfold single_anchor_buffer
    rw [raw_at_append_left _ _ 0 12 (by rw [one_hot_len]; omega)]
    exact raw_one_hot_obj c
  have hcls : ∀ k, k < NUM_CLASSES →
      raw_at (single_anchor_buffer c) 0 (13 + k) = if k = c then 1 else 0 := by
    intro k hk
    unfold single_anchor_buffer
    rw [raw_at_append_left _ _ 0 (13 + k) (by rw [one_hot_len]; omega)]
    exact raw_one_hot_cls c k hk
  have hrest : spec_proposals_from exp (single_anchor_buffer c) BBOX_CONF_THRESH 1 tail = [] := by
    apply spec_proposals_from_nil
    intro i _ k _
    have hz : raw_at (single_anchor_buffer c) (1 + i) 12 = 0 := by
      unfold single_anchor_buffer
      apply raw_at_append_zeros
      rw [one_hot_len, hN]
      have : (1 + i) * 19 = 19 + i * 19 := by ring
      omega
    rw [hz, zero_mul]
    unfold BBOX_CONF_THRESH
    norm_num
  simp only [spec_proposals_from, List.nil_append]
  rw [hrest, spec_anchor_one_hot exp _ _ 0 _ c hc (by unfold BBOX_CONF_THRESH; norm_num)
    (by unfold BBOX_CONF_THRESH; norm_num) hobj hcls, single_anchor_candidate exp hexp c hc]
  rfl

/-! ### Buffers of the wrong length -/

theorem feat_at_error (feat : List ℚ) (i : Nat) (h : feat.length ≤ i) :
    feat_at feat i = .error .outOfRange := by
  unfold feat_at
  rw [List.getElem?_eq_none h]

theorem feat_at_error_kind (feat : List ℚ) (i : Nat) (e : Fault)
    (h : feat_at feat i = .error e) : e = .outOfRange := by
  unfold feat_at at h
  split at h
  · exact Except.noConfusion h
  · injection h with h
    exact h.symm

theorem bind_error_of {α β : Type} (x : Except Fault α) (f : α → Except Fault β)
    (hx : ∀ e, x = .error e → e = Fault.outOfRange)
    (hf : ∀ v, x = .ok v → f v = .error .outOfRange) :
    (x >>= f) = .error .outOfRange := by
  cases x with
  | error e => rw [hx e rfl]; rfl
  | ok v => exact hf v rfl

theorem class_loop_error (feat : List ℚ) (thr : ℚ) (bp : Nat) (obj : ℚ) (rect : Rect)
    (p0 p1 p2 p3 : Point2d) (cs : List Nat) (objects : List Object)
    (h : ∃ c ∈ cs, feat.length ≤ bp + 13 + c) :
    class_loop feat thr bp obj rect p0 p1 p2 p3 cs objects = .error .outOfRange := by
  induction cs generalizing objects with
  | nil =>
    obtain ⟨c, hc, _⟩ := h
    simp at hc
  | cons d rest ih =>
    unfold class_loop
    cases hd : feat_at feat (bp + 13 + d) with
    | error e =>
      simp only []
      rw [feat_at_error_kind feat _ e hd]
    | ok v =>
      simp only []
      have hrest : ∃ c ∈ rest, feat.length ≤ bp + 13 + c := by
        obtain ⟨c, hc, hlen⟩ := h
        rcases List.mem_cons.mp hc with rfl | hc
        · rw [feat_at_error feat _ hlen] at hd
          exact Except.noConfusion hd
        · exact ⟨c, hc, hlen⟩
      split
      · exact ih _ hrest
      · exact ih _ hrest

theorem proposals_for_anchor_error (exp : ℚ → ℚ) (feat : List ℚ) (thr : ℚ) (a : Nat)
    (g : GridAndStride) (objects : List Object)
    (h : feat.length < (a + 1) * (NUM_CLASSES + 13)) :
    proposals_for_anchor exp feat thr a g objects = .error .outOfRange := by
  have hN : NUM_CLASSES + 13 = 19 := rfl
  have h6 : NUM_CLASSES = 6 := rfl
  have hlast : feat.length ≤ a * (NUM_CLASSES + 13) + 13 + 5 := by
    have : (a + 1) * (NUM_CLASSES + 13) = a * (NUM_CLASSES + 13) + 19 := by rw [hN]; ring
    omega
  unfold proposals_for_anchor
  dsimp only
  iterate 13
    apply bind_error_of _ _ (fun e he => feat_at_error_kind feat _ e he)
    intro _ _
  apply class_loop_error
  exact ⟨5, by rw [h6]; simp [List.mem_range], hlast⟩

theorem anchor_loop_error (exp : ℚ → ℚ) (feat : List ℚ) (thr : ℚ) (first : Nat)
    (gs : List GridAndStride) (objects : List Object)
    (h1 : first * (NUM_CLASSES + 13) ≤ feat.length)
    (h2 : feat.length < (first + gs.length) * (NUM_CLASSES + 13)) :
    anchor_loop exp feat thr first gs objects = .error .outOfRange := by
  induction gs generalizing first objects with
  | nil => simp only [List.length_nil, Nat.add_zero] at h2; omega
  | cons g rest ih =>
    unfold anchor_loop
    by_cases hfit : (first + 1) * (NUM_CLASSES + 13) ≤ feat.length
    · rw [proposals_for_anchor_eq exp feat thr first g objects hfit]
      simp only []
      apply ih (first + 1) _ hfit
      have : first + (g :: rest).length = first + 1 + rest.length := by
        simp only [List.length_cons]; omega
      rw [← this]; exact h2
    · rw [proposals_for_anchor_error exp feat thr first g objects (by omega)]

theorem generate_yolox_proposals_error (exp : ℚ → ℚ) (gs : List GridAndStride)
    (feat : List ℚ) (thr : ℚ) (objects : List Object)
    (h : feat.length < gs.length * (NUM_CLASSES + 13)) :
    generate_yolox_proposals exp gs feat thr objects = .error .outOfRange :=
  anchor_loop_error exp feat thr 0 gs objects (by simp) (by simpa using h)

theorem spec_anchor_proposals_congr (exp : ℚ → ℚ) (f1 f2 : List ℚ) (thr : ℚ) (a : Nat)
    (g : GridAndStride) (h : ∀ k, k < NUM_CLASSES + 13 → raw_at f1 a k = raw_at f2 a k) :
    spec_anchor_proposals exp f1 thr a g = spec_anchor_proposals exp f2 thr a g := by
  have h6 : NUM_CLASSES = 6 := rfl
  have hfun : ∀ c, c < NUM_CLASSES →
      spec_candidate exp (raw_at f1 a) g c = spec_candidate exp (raw_at f2 a) g c := by
    intro c hc
    unfold spec_candidate
    simp only []
    rw [h 0 (by omega), h 1 (by omega), h 2 (by omega), h 3 (by omega), h 4 (by omega),
      h 5 (by omega), h 6 (by omega), h 7 (by omega), h 8 (by omega), h 9 (by omega),
      h 10 (by omega), h 11 (by omega), h 12 (by omega), h (13 + c) (by omega)]
  unfold spec_anchor_proposals
  rw [h 12 (by omega)]
  have hfilter : (List.range NUM_CLASSES).filter
        (fun c => decide (raw_at f2 a 12 * raw_at f1 a (13 + c) > thr))
      = (List.range NUM_CLASSES).filter
        (fun c => decide (raw_at f2 a 12 * raw_at f2 a (13 + c) > thr)) := by
    apply List.filter_congr
    intro c hc
    rw [h (13 + c) (by have := List.mem_range.mp hc; omega)]
  rw [hfilter]
  apply List.map_congr_left
  intro c hc
  exact hfun c (List.mem_range.mp (List.mem_filter.mp hc).1)

theorem spec_proposals_from_congr (exp : ℚ → ℚ) (f1 f2 : List ℚ) (thr : ℚ) (first : Nat)
    (gs : List GridAndStride)
    (h : ∀ i, i < gs.length → ∀ k, k < NUM_CLASSES + 13 →
      raw_at f1 (first + i) k = raw_at f2 (first + i) k) :
    spec_proposals_from exp f1 thr first gs = spec_proposals_from exp f2 thr first gs := by
  induction gs generalizing first with
  | nil => rfl
  | cons g rest ih =>
    simp only [spec_proposals_from]
    rw [spec_anchor_proposals_congr exp f1 f2 thr first g
      (fun k hk => by simpa using h 0 (by simp) k hk)]
    rw [ih (first + 1) (fun i hi k hk => by
      have := h (i + 1) (by simpa using hi) k hk
      have e : first + (i + 1) = first + 1 + i := by omega
      rwa [e] at this)]

theorem raw_at_take (feat : List ℚ) (m a k : Nat) (h : a * (NUM_CLASSES + 13) + k < m) :
    raw_at (feat.take m) a k = raw_at feat a k := by
  unfold raw_at
  rw [List.getD_eq_getElem?_getD, List.getD_eq_getElem?_getD, List.getElem?_take_of_lt h]

theorem raw_at_replicate_zero (m a k : Nat) : raw_at (List.replicate m 0) a k = 0 := by
  unfold raw_at
  rw [List.getD_eq_getElem?_getD, List.getElem?_replicate]
  split <;> rfl

theorem decode_outputs_zeros (exp : ℚ → ℚ) (m : Nat) (objects0 : List Object) (scale : ℚ)
    (img_w img_h : Int) (hm : 8400 * (NUM_CLASSES + 13) ≤ m) :
    decode_outputs exp (List.replicate m 0) objects0 scale img_w img_h = .ok [] := by
  have hgen := generate_yolox_proposals_eq exp
    (spec_cells 640 640 8 ++ (spec_cells 640 640 16 ++ spec_cells 640 640 32))
    (List.replicate m 0) BBOX_CONF_THRESH []
    (by rw [grids_640_length, List.length_replicate]; exact hm)
  rw [spec_proposals_from_nil exp _ _ 0 _ (fun i _ c _ => by
    rw [raw_at_replicate_zero, zero_mul]
    unfold BBOX_CONF_THRESH
    norm_num)] at hgen
  unfold decode_outputs
  rw [grids_640_eq, decode_with_grids_of_stages exp _ scale img_w img_h _ [] [] [] hgen
    (by simp [qsort_descent_inplace]) (nms_sorted_bboxes_nil [] NMS_THRESH)]
  rfl

theorem decode_outputs_short (exp : ℚ → ℚ) (prob : List ℚ) (objects0 : List Object)
    (scale : ℚ) (img_w img_h : Int) (h : prob.length < 8400 * (NUM_CLASSES + 13)) :
    decode_outputs exp prob objects0 scale img_w img_h = .error .outOfRange := by
  have hgen := generate_yolox_proposals_error exp
    (spec_cells 640 640 8 ++ (spec_cells 640 640 16 ++ spec_cells 640 640 32)) prob
    BBOX_CONF_THRESH [] (by rw [grids_640_length]; exact h)
  unfold decode_outputs
  rw [grids_640_eq]
  unfold decode_with_grids
  simp only []
  rw [hgen]

/-! ### Ranker with range checks -/

theorem obj_at_checked_natCast (a : List Object) (lo hi k : Nat) (hlo : lo ≤ k)
    (hhi : k ≤ hi) (hk : k < a.length) :
    obj_at_checked a (lo : Int) (hi : Int) (k : Int) = .ok a[k] := by
  unfold obj_at_checked
  rw [if_neg (by omega)]
  exact obj_at_natCast a k hk

theorem obj_at_of_checked (a : List Object) (left right i : Int) (o : Object)
    (h : obj_at_checked a left right i = .ok o) : obj_at a i = .ok o := by
  unfold obj_at_checked at h
  split at h
  · exact Except.noConfusion h
  · exact h

theorem scan_i_of_checked (a : List Object) (p : ℚ) (left right : Int) (fuel : Nat)
    (i r : Int) (h : scan_i_checked a p left right fuel i = .ok r) :
    scan_i a p fuel i = .ok r := by
  induction fuel generalizing i with
  | zero => exact Except.noConfusion h
  | succ n ih =>
    unfold scan_i_checked at h
    unfold scan_i
    cases hc : obj_at_checked a left right i with
    | error e => rw [hc] at h; exact Except.noConfusion h
    | ok o =>
      rw [hc] at h
      rw [obj_at_of_checked a left right i o hc]
      simp only [] at h ⊢
      by_cases hp : o.prob > p
      · rw [if_pos hp] at h ⊢
        exact ih _ h
      · rw [if_neg hp] at h ⊢
        exact h

theorem scan_j_of_checked (a : List Object) (p : ℚ) (left right : Int) (fuel : Nat)
    (j r : Int) (h : scan_j_checked a p left right fuel j = .ok r) :
    scan_j a p fuel j = .ok r := by
  induction fuel generalizing j with
  | zero => exact Except.noConfusion h
  | succ n ih =>
    unfold scan_j_checked at h
    unfold scan_j
    cases hc : obj_at_checked a left right j with
    | error e => rw [hc] at h; exact Except.noConfusion h
    | ok o =>
      rw [hc] at h
      rw [obj_at_of_checked a left right j o hc]
      simp only [] at h ⊢
      by_cases hp : o.prob < p
      · rw [if_pos hp] at h ⊢
        exact ih _ h
      · rw [if_neg hp] at h ⊢
        exact h

theorem swap_at_of_checked (a : List Object) (left right i j : Int) (r : List Object)
    (h : swap_at_checked a left right i j = .ok r) : swap_at a i j = .ok r := by
  unfold swap_at_checked at h
  unfold swap_at
  cases hi : obj_at_checked a left right i with
  | error e => rw [hi] at h; exact Except.noConfusion h
  | ok oi =>
    rw [hi] at h
    rw [obj_at_of_checked a left right i oi hi]
    simp only [] at h ⊢
    cases hj : obj_at_checked a left right j with
    | error e => rw [hj] at h; exact Except.noConfusion h
    | ok oj =>
      rw [hj] at h
      rw [obj_at_of_checked a left right j oj hj]
      exact h

theorem partition_loop_of_checked (p : ℚ) (left right : Int) (fuel : Nat) (a : List Object)
    (i j : Int) (r : List Object × Int × Int)
    (h : partition_loop_checked p left right fuel a i j = .ok r) :
    partition_loop p fuel a i j = .ok r := by
  induction fuel generalizing a i j with
  | zero => exact Except.noConfusion h
  | succ n ih =>
    unfold partition_loop_checked at h
    unfold partition_loop
    by_cases hij : i ≤ j
    · rw [if_pos hij] at h ⊢
      cases hsi : scan_i_checked a p left right (a.length + 1) i with
      | error e => rw [hsi] at h; exact Except.noConfusion h
      | ok i1 =>
        rw [hsi] at h
        rw [scan_i_of_checked a p left right _ i i1 hsi]
        simp only [] at h ⊢
        cases hsj : scan_j_checked a p left right (a.length + 1) j with
        | error e => rw [hsj] at h; exact Except.noConfusion h
        | ok j1 =>
          rw [hsj] at h
          rw [scan_j_of_checked a p left right _ j j1 hsj]
          simp only [] at h ⊢
          by_cases h1 : i1 ≤ j1
          · rw [if_pos h1] at h ⊢
            cases hsw : swap_at_checked a left right i1 j1 with
            | error e => rw [hsw] at h; exact Except.noConfusion h
            | ok swapped =>
              rw [hsw] at h
              rw [swap_at_of_checked a left right i1 j1 swapped hsw]
              simp only [] at h ⊢
              exact ih _ _ _ h
          · rw [if_neg h1] at h ⊢
            exact ih _ _ _ h
    · rw [if_neg hij] at h ⊢
      exact h

theorem qsort_range_of_checked (fuel : Nat) (a : List Object) (left right : Int)
    (r : List Object) (h : qsort_descent_inplace_range_checked fuel a left right = .ok r) :
    qsort_descent_inplace_range fuel a left right = .ok r := by
  induction fuel generalizing a left right r with
  | zero => exact Except.noConfusion h
  | succ n ih =>
    unfold qsort_descent_inplace_range_checked at h
    unfold qsort_descent_inplace_range
    cases hp : obj_at_checked a left right ((left + right).tdiv 2) with
    | error e => rw [hp] at h; exact Except.noConfusion h
    | ok pivot =>
      rw [hp] at h
      rw [obj_at_of_checked a left right _ pivot hp]
      simp only [] at h ⊢
      cases hpl : partition_loop_checked pivot.prob left right (a.length + 1) a left right with
      | error e => rw [hpl] at h; exact Except.noConfusion h
      | ok t =>
        obtain ⟨a1, i, j⟩ := t
        rw [hpl] at h
        rw [partition_loop_of_checked pivot.prob left right _ a left right _ hpl]
        simp only [] at h ⊢
        by_cases hl : left < j
        · rw [if_pos hl] at h ⊢
          cases h1 : qsort_descent_inplace_range_checked n a1 left j with
          | error e => rw [h1] at h; exact Except.noConfusion h
          | ok a2 =>
            rw [h1] at h
            rw [ih a1 left j a2 h1]
            simp only [] at h ⊢
            by_cases hr : i < right
            · rw [if_pos hr] at h ⊢
              exact ih _ _ _ _ h
            · rw [if_neg hr] at h ⊢
              exact h
        · rw [if_neg hl] at h ⊢
          simp only [] at h ⊢
          by_cases hr : i < right
          · rw [if_pos hr] at h ⊢
            exact ih _ _ _ _ h
          · rw [if_neg hr] at h ⊢
            exact h

theorem scan_i_checked_spec (a : List Object) (p : ℚ) (lo hi : Nat) (fuel i k : Nat)
    (hlo : lo ≤ i) (hhi : k ≤ hi) (hik : i ≤ k)
    (hk : k < a.length) (hstop : ¬ prob_at a k > p) (hfuel : k - i < fuel) :
    ∃ i1 : Nat, scan_i_checked a p (lo : Int) (hi : Int) fuel (i : Int) = .ok (i1 : Int) ∧ i ≤ i1 ∧ i1 ≤ k ∧
      (∀ m, i ≤ m → m < i1 → prob_at a m > p) ∧ ¬ prob_at a i1 > p := by
  induction fuel generalizing i with
  | zero => omega
  | succ n ih =>
    have hia : i < a.length := by omega
    unfold scan_i_checked
    rw [obj_at_checked_natCast a lo hi i hlo (by omega) hia]
    simp only []
    by_cases hgt : a[i].prob > p
    · rw [if_pos hgt]
      have hne : i ≠ k := by
        rintro rfl
        exact hstop (by rw [prob_at_eq a i hia]; exact hgt)
      obtain ⟨i1, h1, h2, h3, h4, h5⟩ := ih (i + 1) (by omega) (by omega) (by omega)
      refine ⟨i1, by exact_mod_cast h1, by omega, h3, ?_, h5⟩
      intro m hm1 hm2
      by_cases hmi : m = i
      · subst hmi; rw [prob_at_eq a m hia]; exact hgt
      · exact h4 m (by omega) hm2
    · rw [if_neg hgt]
      refine ⟨i, rfl, le_refl _, hik, fun m h1 h2 => by omega, ?_⟩
      rw [prob_at_eq a i hia]; exact hgt

theorem scan_j_checked_spec (a : List Object) (p : ℚ) (lo hi : Nat) (fuel j k : Nat)
    (hlo : lo ≤ k) (hhi : j ≤ hi) (hkj : k ≤ j)
    (hj : j < a.length) (hstop : ¬ prob_at a k < p) (hfuel : j - k < fuel) :
    ∃ j1 : Nat, scan_j_checked a p (lo : Int) (hi : Int) fuel (j : Int) = .ok (j1 : Int) ∧ k ≤ j1 ∧ j1 ≤ j ∧
      (∀ m, j1 < m → m ≤ j → prob_at a m < p) ∧ ¬ prob_at a j1 < p := by
  induction fuel generalizing j with
  | zero => omega
  | succ n ih =>
    unfold scan_j_checked
    rw [obj_at_checked_natCast a lo hi j (by omega) hhi hj]
    simp only []
    by_cases hlt : a[j].prob < p
    · rw [if_pos hlt]
      have hne : j ≠ k := by
        rintro rfl
        exact hstop (by rw [prob_at_eq a j hj]; exact hlt)
      obtain ⟨j1, h1, h2, h3, h4, h5⟩ := ih (j - 1) (by omega) (by omega) (by omega) (by omega)
      have hcast : ((j : Int) - 1) = ((j - 1 : Nat) : Int) := by omega
      refine ⟨j1, by rw [hcast]; exact h1, h2, by omega, ?_, h5⟩
      intro m hm1 hm2
      by_cases hmj : m = j
      · subst hmj; rw [prob_at_eq a m hj]; exact hlt
      · exact h4 m hm1 (by omega)
    · rw [if_neg hlt]
      refine ⟨j, rfl, hkj, le_refl _, fun m h1 h2 => by omega, ?_⟩
      rw [prob_at_eq a j hj]; exact hlt

theorem swap_at_checked_spec (a : List Object) (lo hi i j : Nat) (hli : lo ≤ i) (hih : i ≤ hi)
    (hlj : lo ≤ j) (hjh : j ≤ hi) (hia : i < a.length) (hja : j < a.length) :
    ∃ a2, swap_at_checked a (lo : Int) (hi : Int) (i : Int) (j : Int) = .ok a2 ∧
      swap_at a (i : Int) (j : Int) = .ok a2 ∧ a2.length = a.length ∧ a2.Perm a ∧
      ∀ k, a2[k]? = if k = j then a[i]? else if k = i then a[j]? else a[k]? := by
  obtain ⟨a2, h1, h2, h3, h4⟩ := swap_at_spec a i j hia hja
  refine ⟨a2, ?_, h1, h2, h3, h4⟩
  unfold swap_at_checked
  rw [obj_at_checked_natCast a lo hi i hli hih hia, obj_at_checked_natCast a lo hi j hlj hjh hja]
  unfold swap_at at h1
  rw [obj_at_natCast a i hia, obj_at_natCast a j hja] at h1
  exact h1

theorem partition_loop_checked_spec (lo hi : Nat) (p : ℚ) (fuel : Nat) (a : List Object) (i J : Nat)
    (inv : PartInv lo hi p a i J) (hfuel : J - i + 1 ≤ fuel) :
    ∃ (a2 : List Object) (i2 J2 : Nat),
      partition_loop_checked p (lo : Int) (hi : Int) fuel a (i : Int) ((J : Int) - 1)
        = .ok (a2, (i2 : Int), (J2 : Int) - 1) ∧
      RangePerm lo hi a a2 ∧ J2 ≤ i2 ∧ lo < i2 ∧ J2 ≤ hi ∧
      (∀ k, lo ≤ k → k < i2 → p ≤ prob_at a2 k) ∧
      (∀ k, J2 ≤ k → k ≤ hi → prob_at a2 k ≤ p) := by
  induction fuel generalizing a i J with
  | zero => omega
  | succ n ih =>
    have hlen := inv.hi_lt
    have hlohi := inv.lo_le_hi
    have hloi := inv.lo_le_i
    have hJle := inv.J_le
    unfold partition_loop_checked
    by_cases hiJ : i < J
    · rw [if_pos (by omega)]
      -- sentinels for the two scans
      have hsent : ∃ k k2, i ≤ k ∧ k ≤ hi ∧ prob_at a k ≤ p ∧ lo ≤ k2 ∧ k2 < J ∧
          p ≤ prob_at a k2 ∧ (i = lo → k ≤ k2) := by
        rcases inv.progress with ⟨h1, h2, m, hm1, hm2, hm3⟩ | ⟨h1, h2⟩
        · exact ⟨m, m, by omega, hm2, le_of_eq hm3, hm1, by omega, le_of_eq hm3.symm,
            fun _ => le_refl _⟩
        · obtain ⟨k, hk1, hk2, hk3⟩ := inv.sentinel_i h1 hiJ
          obtain ⟨k2, hk4, hk5, hk6⟩ := inv.sentinel_j h1 hiJ
          exact ⟨k, k2, hk1, hk2, hk3, hk4, hk5, hk6, fun h => by omega⟩
      obtain ⟨k, k2, hk1, hk2, hk3, hk4, hk5, hk6, hkk⟩ := hsent
      obtain ⟨i1, hsi, hi1a, hi1b, hi1c, hi1d⟩ :=
        scan_i_checked_spec a p lo hi (a.length + 1) i k hloi hk2 hk1 (by omega) (not_lt.mpr hk3)
          (by omega)
      have hJ1 : ((J : Int) - 1) = ((J - 1 : Nat) : Int) := by omega
      obtain ⟨j1, hsj, hj1a, hj1b, hj1c, hj1d⟩ :=
        scan_j_checked_spec a p lo hi (a.length + 1) (J - 1) k2 hk4 (by omega) (by omega) (by omega)
          (not_lt.mpr hk6) (by omega)
      rw [hsi, hJ1, hsj]
      simp only []
      by_cases hij : i1 ≤ j1
      · rw [if_pos (by omega)]
        obtain ⟨a2, hsw, -, hlen2, hperm2, hget2⟩ :=
          swap_at_checked_spec a lo hi i1 j1 (by omega) (by omega) (by omega) (by omega)
            (by omega) (by omega)
        rw [hsw]
        simp only []
        have hrp : RangePerm lo hi a a2 :=
          RangePerm.of_swap lo hi a a2 i1 j1 (by omega) (by omega) (by omega) (by omega)
            hlen2 hperm2 hget2
        have hp_j1 : prob_at a2 j1 = prob_at a i1 := by
          unfold prob_at; rw [hget2 j1, if_pos rfl]
        have hp_i1 : prob_at a2 i1 = prob_at a j1 := by
          unfold prob_at; rw [hget2 i1]
          by_cases h : i1 = j1
          · rw [if_pos h, h]
          · rw [if_neg h, if_pos rfl]
        have hp_other : ∀ m, m ≠ i1 → m ≠ j1 → prob_at a2 m = prob_at a m := by
          intro m h1 h2
          unfold prob_at; rw [hget2 m, if_neg h2, if_neg h1]
        have inv2 : PartInv lo hi p a2 (i1 + 1) j1 := by
          refine ⟨by omega, inv.lo_le_hi, by omega, by omega, ?_, ?_, ?_, ?_, Or.inr ⟨by omega, by omega⟩⟩
          · intro m hm1 hm2
            by_cases hm : m = i1
            · rw [hm, hp_i1]; exact not_lt.mp hj1d
            · rw [hp_other m hm (by omega)]
              by_cases hmi : m < i
              · exact inv.left_ge m hm1 hmi
              · exact le_of_lt (hi1c m (by omega) (by omega))
          · intro m hm1 hm2
            by_cases hm : m = j1
            · rw [hm, hp_j1]; exact not_lt.mp hi1d
            · rw [hp_other m (by omega) hm]
              by_cases hmJ : J ≤ m
              · exact inv.right_le m hmJ hm2
              · exact le_of_lt (hj1c m (by omega) (by omega))
          · intro _ h
            exact ⟨j1, by omega, by omega, by rw [hp_j1]; exact not_lt.mp hi1d⟩
          · intro _ h
            exact ⟨i1, by omega, by omega, by rw [hp_i1]; exact not_lt.mp hj1d⟩
        obtain ⟨a3, i3, J3, hrun, hrp3, h1, h2, h3, h4, h5⟩ := ih a2 (i1 + 1) j1 inv2 (by omega)
        have e1 : ((i1 : Int) + 1) = ((i1 + 1 : Nat) : Int) := by omega
        rw [e1, hrun]
        exact ⟨a3, i3, J3, rfl, hrp.trans hrp3, h1, h2, h3, h4, h5⟩
      · rw [if_neg (by omega)]
        have hprog : lo < i ∧ J ≤ hi := by
          rcases inv.progress with ⟨h1, _, _⟩ | h
          · have := hkk h1; omega
          · exact h
        have inv2 : PartInv lo hi p a i1 (j1 + 1) := by
          refine ⟨hlen, inv.lo_le_hi, by omega, by omega, ?_, ?_, ?_, ?_, Or.inr ⟨by omega, by omega⟩⟩
          · intro m hm1 hm2
            by_cases hmi : m < i
            · exact inv.left_ge m hm1 hmi
            · exact le_of_lt (hi1c m (by omega) hm2)
          · intro m hm1 hm2
            by_cases hmJ : J ≤ m
            · exact inv.right_le m hmJ hm2
            · exact le_of_lt (hj1c m (by omega) (by omega))
          · intro _ h; omega
          · intro _ h; omega
        obtain ⟨a3, i3, J3, hrun, hrp3, h1, h2, h3, h4, h5⟩ := ih a i1 (j1 + 1) inv2 (by omega)
        have e1 : ((j1 : Int)) = ((j1 + 1 : Nat) : Int) - 1 := by omega
        rw [e1, hrun]
        exact ⟨a3, i3, J3, rfl, hrp3, h1, h2, h3, h4, h5⟩
    · rw [if_neg (by omega)]
      have hprog : lo < i ∧ J ≤ hi := by
        rcases inv.progress with ⟨h1, h2, _⟩ | h
        · have := inv.lo_le_hi; omega
        · exact h
      exact ⟨a, i, J, rfl, RangePerm.refl lo hi a, by omega, hprog.1, hprog.2,
        inv.left_ge, inv.right_le⟩

theorem partition_call_checked (a : List Object) (lo hi : Nat) (hlohi : lo ≤ hi)
    (hhi : hi < a.length) :
    ∃ (pivot : Object) (a1 : List Object) (i2 J2 : Nat),
      obj_at_checked a (lo : Int) (hi : Int) (((lo : Int) + (hi : Int)).tdiv 2) = .ok pivot ∧
      partition_loop_checked pivot.prob (lo : Int) (hi : Int) (a.length + 1) a (lo : Int)
          (hi : Int) = .ok (a1, (i2 : Int), (J2 : Int) - 1) ∧
      a1.length = a.length ∧ J2 ≤ i2 ∧ lo < i2 ∧ J2 ≤ hi := by
  have hmid : ((lo : Int) + (hi : Int)).tdiv 2 = (((lo + hi) / 2 : Nat) : Int) := by
    rw [Int.tdiv_eq_ediv (by omega) (by omega)]
    omega
  have hmlt : (lo + hi) / 2 < a.length := by omega
  have hp : a[(lo + hi) / 2].prob = prob_at a ((lo + hi) / 2) := (prob_at_eq a _ hmlt).symm
  have inv : PartInv lo hi a[(lo + hi) / 2].prob a lo (hi + 1) := by
    rw [hp]
    refine ⟨hhi, hlohi, le_refl _, le_refl _, ?_, ?_, ?_, ?_, ?_⟩
    · intro k h1 h2; omega
    · intro k h1 h2; omega
    · intro h; omega
    · intro h; omega
    · exact Or.inl ⟨rfl, rfl, (lo + hi) / 2, by omega, by omega, rfl⟩
  obtain ⟨a1, i2, J2, hrun, hrp1, hJi, hloi, hJhi, hleft, hright⟩ :=
    partition_loop_checked_spec lo hi _ (a.length + 1) a lo (hi + 1) inv (by omega)
  have ehi : ((hi + 1 : Nat) : Int) - 1 = (hi : Int) := by omega
  rw [ehi] at hrun
  refine ⟨a[(lo + hi) / 2], a1, i2, J2, ?_, hrun, hrp1.length_eq, hJi, hloi, hJhi⟩
  rw [hmid]
  exact obj_at_checked_natCast a lo hi _ (by omega) (by omega) hmlt

theorem qsort_range_checked_spec (fuel : Nat) (a : List Object) (lo hi : Nat)
    (hlohi : lo ≤ hi) (hhi : hi < a.length) (hfuel : hi - lo + 1 ≤ fuel) :
    ∃ a3, qsort_descent_inplace_range_checked fuel a (lo : Int) (hi : Int) = .ok a3 ∧
      a3.length = a.length := by
  induction fuel generalizing a lo hi with
  | zero => omega
  | succ n ih =>
    obtain ⟨pivot, a1, i2, J2, hpiv, hrun, hlen1, hJi, hloi, hJhi⟩ :=
      partition_call_checked a lo hi hlohi hhi
    unfold qsort_descent_inplace_range_checked
    rw [hpiv]
    simp only []
    rw [hrun]
    simp only []
    have stage1 : ∃ a2,
        (if (lo : Int) < (J2 : Int) - 1 then
            qsort_descent_inplace_range_checked n a1 (lo : Int) ((J2 : Int) - 1)
          else .ok a1) = .ok a2 ∧ a2.length = a.length := by
      by_cases hrec : lo + 1 < J2
      · rw [if_pos (by omega)]
        have eJ : ((J2 : Int) - 1) = ((J2 - 1 : Nat) : Int) := by omega
        rw [eJ]
        obtain ⟨a2, h1, h2⟩ := ih a1 lo (J2 - 1) (by omega) (by omega) (by omega)
        exact ⟨a2, h1, h2.trans hlen1⟩
      · rw [if_neg (by omega)]
        exact ⟨a1, rfl, hlen1⟩
    obtain ⟨a2, hrun1, hlen2⟩ := stage1
    rw [hrun1]
    simp only []
    by_cases hrec : i2 < hi
    · rw [if_pos (by omega)]
      obtain ⟨a3, h1, h2⟩ := ih a2 i2 hi (by omega) (by omega) (by omega)
      exact ⟨a3, h1, h2.trans hlen2⟩
    · rw [if_neg (by omega)]
      exact ⟨a2, rfl, hlen2⟩

/-! ### Floating point: rounding -/

theorem fl32_bbox_conf_thresh : fl32 (3 / 10) = BBOX_CONF_THRESH := by decide!

theorem fl32_nms_thresh : fl32 (45 / 100) = NMS_THRESH := by decide!

theorem clip_fl_id (v : ℚ) (dim : Int) : clip_fl id v dim = clip v dim := rfl

theorem rescale_clip_rect_fl_id (o : Object) (scale : ℚ) (img_w img_h : Int) :
    rescale_clip_rect_fl id o.rect scale img_w img_h = (rescale_clip o scale img_w img_h).rect :=
  rfl

theorem clip_fl_of_mem (fl : ℚ → ℚ) (v : ℚ) (dim : Int) (h0 : 0 ≤ v)
    (h1 : v ≤ fl ((dim - 1 : Int) : ℚ)) : clip_fl fl v dim = v := by
  unfold clip_fl
  rw [min_eq_left h1, max_eq_left h0]

/-! ### Floating point: infinities and NaN -/

theorem decode_rect_f_finite (exp : ℚ → ℚ) (raw : Nat → ℚ) (g : GridAndStride) (c : Nat) :
    decode_rect_f (fun x => .fin (exp x)) (raw 0) (raw 1) (raw 2) (raw 3) g
      = (spec_candidate exp raw g c).rect.toF := by
  unfold decode_rect_f spec_candidate Rect.toF
  simp only [FloatVal.mul, FloatVal.sub, FloatVal.neg, FloatVal.add, sub_eq_add_neg,
    mul_one_div]

/-! ### The two-anchor buffer -/

theorem grids_640_head_two :
    ∃ tail, spec_cells 640 640 8 ++ (spec_cells 640 640 16 ++ spec_cells 640 640 32)
      = { grid0 := 0, grid1 := 0, stride := 8 } :: { grid0 := 1, grid1 := 0, stride := 8 }
          :: tail := by
  obtain ⟨tail1, h1⟩ := grids_640_head
  have l8 : (spec_cells 640 640 8).length = 6400 := by
    rw [spec_cells_length]; decide
  have hget : (spec_cells 640 640 8 ++ (spec_cells 640 640 16 ++ spec_cells 640 640 32))[1]?
      = some { grid0 := 1, grid1 := 0, stride := 8 } := by
    rw [List.getElem?_append_left (by omega)]
    unfold spec_cells
    have h := flatMap_range_get ((640 : Int).fdiv 8).toNat ((640 : Int).fdiv 8).toNat
      (fun (gy gx : Nat) => ({ grid0 := (gx : Int), grid1 := (gy : Int), stride := 8 } :
        GridAndStride)) 0 1 (by decide) (by decide)
    simpa using h
  rw [h1, List.getElem?_cons_succ] at hget
  obtain ⟨tail, h2⟩ := cons_of_getElem?_zero tail1 _ hget
  exact ⟨tail, by rw [h1, h2]⟩

theorem two_anchor_buffer_length : two_anchor_buffer.length = 8400 * (NUM_CLASSES + 13) := by
  unfold two_anchor_buffer half_record
  rw [List.length_append, List.length_append, one_hot_len, List.length_replicate]
  rfl

theorem two_anchor_proposals (tail : List GridAndStride) (htail : tail.length = 8398) :
    generate_yolox_proposals (fun x => 1 + x)
        ({ grid0 := 0, grid1 := 0, stride := 8 } :: { grid0 := 1, grid1 := 0, stride := 8 }
          :: tail) two_anchor_buffer BBOX_CONF_THRESH []
      = .ok [{ rect := { x := -4, y := -4, width := 8, height := 8 }
               points0 := { x := 0, y := 0 }, points1 := { x := 0, y := 0 }
               points2 := { x := 0, y := 0 }, points3 := { x := 0, y := 0 }
               label := 2, prob := 1 },
             { rect := { x := 4, y := -4, width := 8, height := 8 }
               points0 := { x := 8, y := 0 }, points1 := { x := 8, y := 0 }
               points2 := { x := 8, y := 0 }, points3 := { x := 8, y := 0 }
               label := 3, prob := 1 / 2 }] := by
  have hN : NUM_CLASSES + 13 = 19 := rfl
  have hpl : (one_hot_record 2 ++ half_record).length = 38 := by
    rw [List.length_append, one_hot_len]
    rfl
  rw [generate_yolox_proposals_eq _ _ _ _ _
    (by rw [two_anchor_buffer_length, List.length_cons, List.length_cons, htail])]
  have hrest : spec_proposals_from (fun x => 1 + x) two_anchor_buffer BBOX_CONF_THRESH 2 tail
      = [] := by
    apply spec_proposals_from_nil
    intro i _ k _
    have hz : raw_at two_anchor_buffer (2 + i) 12 = 0 := by
      unfold two_anchor_buffer
      apply raw_at_append_zeros
      rw [hpl, hN]
      have : (2 + i) * 19 = 38 + i * 19 := by ring
      omega
    rw [hz, zero_mul]
    unfold BBOX_CONF_THRESH
    norm_num
  have h0 : spec_anchor_proposals (fun x => 1 + x) two_anchor_buffer BBOX_CONF_THRESH 0
        { grid0 := 0, grid1 := 0, stride := 8 }
      = spec_anchor_proposals (fun x => 1 + x) (one_hot_record 2 ++ half_record)
        BBOX_CONF_THRESH 0 { grid0 := 0, grid1 := 0, stride := 8 } := by
    apply spec_anchor_proposals_congr
    intro k hk
    unfold two_anchor_buffer
    exact raw_at_append_left _ _ 0 k (by rw [hpl]; omega)
  have h1 : spec_anchor_proposals (fun x => 1 + x) two_anchor_buffer BBOX_CONF_THRESH 1
        { grid0 := 1, grid1 := 0, stride := 8 }
      = spec_anchor_proposals (fun x => 1 + x) (one_hot_record 2 ++ half_record)
        BBOX_CONF_THRESH 1 { grid0 := 1, grid1 := 0, stride := 8 } := by
    apply spec_anchor_proposals_congr
    intro k hk
    unfold two_anchor_buffer
    exact raw_at_append_left _ _ 1 k (by rw [hpl]; omega)
  simp only [spec_proposals_from, List.nil_append]
  rw [hrest, h0, h1]
  decide!

theorem decode_outputs_two_anchor (objects0 : List Object) :
    decode_outputs (fun x => 1 + x) two_anchor_buffer objects0 (1 / 2) 1280 768
      = .ok [{ rect := { x := 0, y := 0, width := 8, height := 8 }
               points0 := { x := 0, y := 0 }, points1 := { x := 0, y := 0 }
               points2 := { x := 0, y := 0 }, points3 := { x := 0, y := 0 }
               label := 2, prob := 1 },
             { rect := { x := 8, y := 0, width := 16, height := 8 }
               points0 := { x := 16, y := 0 }, points1 := { x := 16, y := 0 }
               points2 := { x := 16, y := 0 }, points3 := { x := 16, y := 0 }
               label := 3, prob := 1 / 2 }] := by
  obtain ⟨tail, htail⟩ := grids_640_head_two
  have hlen : tail.length = 8398 := by
    have h := grids_640_length
    rw [htail, List.length_cons, List.length_cons] at h
    omega
  unfold decode_outputs
  rw [grids_640_eq, htail,
    decode_with_grids_of_stages _ _ (1 / 2) 1280 768 _ _
      [{ rect := { x := -4, y := -4, width := 8, height := 8 }
         points0 := { x := 0, y := 0 }, points1 := { x := 0, y := 0 }
         points2 := { x := 0, y := 0 }, points3 := { x := 0, y := 0 }
         label := 2, prob := 1 },
       { rect := { x := 4, y := -4, width := 8, height := 8 }
         points0 := { x := 8, y := 0 }, points1 := { x := 8, y := 0 }
         points2 := { x := 8, y := 0 }, points3 := { x := 8, y := 0 }
         label := 3, prob := 1 / 2 }] [0, 1]
      (two_anchor_proposals tail hlen) (by decide!) (by decide!)]
  decide!

/-! ### The buffer on which `exp` overflows -/

/-- C1: for every width `w`, height `h` and stride list (no stride being zero, and no
division overflowing), `generate_grids_and_stride` appends to `grid_strides` exactly the
concatenation, over the strides `s` in list order, of the cells `(gx, gy, s)` with
`0 <= gy < h/s` and `0 <= gx < w/s` (floor division), `gy` outer and `gx` inner: the block
of stride `s` has `(h/s) * (w/s)` entries and its entry at offset `gy * (w/s) + gx` is
`(gx, gy, s)`.  For `w = h = 640` and strides `[8, 16, 32]` the result has length 8400, the
first 6400 entries having stride 8, the next 1600 stride 16 and the last 400 stride 32. -/
theorem generate_grids_and_stride_spec (w h : Int) (strides : List Int)
    (grid_strides : List GridAndStride)
    (hs : ∀ s ∈ strides, s ≠ 0 ∧ (s = -1 → w ≠ INT_MIN ∧ h ≠ INT_MIN)) :
    generate_grids_and_stride w h strides grid_strides
        = .ok (grid_strides ++ strides.flatMap (spec_cells w h))
      ∧ (∀ s : Int, (spec_cells w h s).length = (h.fdiv s).toNat * (w.fdiv s).toNat)
      ∧ (∀ (s : Int) (gy gx : Nat), (gy : Int) < h.fdiv s → (gx : Int) < w.fdiv s →
          (spec_cells w h s)[gy * (w.fdiv s).toNat + gx]?
            = some { grid0 := (gx : Int), grid1 := (gy : Int), stride := s })
      ∧ (∃ l, generate_grids_and_stride 640 640 [8, 16, 32] [] = .ok l ∧ l.length = 8400 ∧
          ∀ k, k < 8400 → (l[k]?).map GridAndStride.stride
            = some (if k < 6400 then 8 else if k < 8000 then 16 else 32)) := by
  refine ⟨generate_grids_eq w h strides grid_strides hs, spec_cells_length w h, ?_, ?_⟩
  · intro s gy gx hy hx
    unfold spec_cells
    exact flatMap_range_get _ _ _ gy gx (by omega) (by omega)
  · refine ⟨_, generate_grids_eq 640 640 [8, 16, 32] [] (by decide), ?_, ?_⟩
    · simp only [List.nil_append, List.flatMap_cons, List.flatMap_nil, List.append_nil,
        List.length_append, spec_cells_length]
      decide
    · intro k hk
      simp only [List.nil_append, List.flatMap_cons, List.flatMap_nil, List.append_nil]
      exact grids_640_strides k hk

/-- C1, witness: the grid of a 64x48 target with strides 16 and 8. -/
theorem generate_grids_and_stride_spec_witness :
    (∀ s ∈ [(16 : Int), 8], s ≠ 0 ∧ (s = -1 → (64 : Int) ≠ INT_MIN ∧ (48 : Int) ≠ INT_MIN))
      ∧ generate_grids_and_stride 64 48 [16, 8] []
        = .ok ([] ++ [(16 : Int), 8].flatMap (spec_cells 64 48)) :=
  ⟨by decide, (generate_grids_and_stride_spec 64 48 [16, 8] [] (by decide)).1⟩

/-- C2: for an anchor index `a` with grid `(gx, gy)` and stride `s` whose record `raw`
lies in the buffer at position `a * (13 + NUM_CLASSES)`, the body of the anchor loop of
`generate_yolox_proposals` appends candidates each of which, for some class index
`c < NUM_CLASSES`, has box `(center_x - w/2, center_y - h/2, w, h)` with
`center_x = (raw[0] + gx) * s`, `center_y = (raw[1] + gy) * s`, `w = exp(raw[2]) * s`,
`h = exp(raw[3]) * s`, polygon point `k` equal to
`((raw[4+2k] + gx) * s, (raw[5+2k] + gy) * s)` for `k = 0..3`, label `c` and score
`raw[12] * raw[13 + c]`.  For a whole run over a buffer holding one record per anchor,
every appended candidate is such a candidate of one of the anchors. -/
theorem proposals_decode_rule (exp : ℚ → ℚ) (feat_ptr : List ℚ) (prob_threshold : ℚ)
    (a : Nat) (g : GridAndStride) (objects : List Object) (raw : Nat → ℚ)
    (hraw : ∀ k, k < 13 + NUM_CLASSES → feat_ptr[a * (13 + NUM_CLASSES) + k]? = some (raw k)) :
    (∃ emitted, proposals_for_anchor exp feat_ptr prob_threshold a g objects
          = .ok (objects ++ emitted) ∧
        ∀ o ∈ emitted, ∃ c, c < NUM_CLASSES ∧
          o.rect = { x := (raw 0 + g.grid0) * g.stride - exp (raw 2) * g.stride / 2
                     y := (raw 1 + g.grid1) * g.stride - exp (raw 3) * g.stride / 2
                     width := exp (raw 2) * g.stride
                     height := exp (raw 3) * g.stride } ∧
          (∀ k, k < 4 → o.points k = { x := (raw (4 + 2 * k) + g.grid0) * g.stride
                                       y := (raw (5 + 2 * k) + g.grid1) * g.stride }) ∧
          o.label = (c : Int) ∧ o.prob = raw 12 * raw (13 + c))
      ∧ (∀ grid_strides : List GridAndStride,
          grid_strides.length * (NUM_CLASSES + 13) ≤ feat_ptr.length →
          ∃ emitted, generate_yolox_proposals exp grid_strides feat_ptr prob_threshold objects
              = .ok (objects ++ emitted) ∧
            ∀ o ∈ emitted, ∃ i gi c, grid_strides[i]? = some gi ∧ c < NUM_CLASSES ∧
              o = spec_candidate exp (raw_at feat_ptr i) gi c) := by
  constructor
  · have hlen : (a + 1) * (NUM_CLASSES + 13) ≤ feat_ptr.length := by
      have h18 := hraw 18 (by decide)
      have hlt : a * (13 + NUM_CLASSES) + 18 < feat_ptr.length := by
        by_contra hcon
        rw [List.getElem?_eq_none (by omega)] at h18
        exact Option.noConfusion h18
      have e1 : NUM_CLASSES + 13 = 19 := rfl
      have e2 : 13 + NUM_CLASSES = 19 := rfl
      rw [e1]; rw [e2] at hlt; omega
    refine ⟨_, proposals_for_anchor_eq exp feat_ptr prob_threshold a g objects hlen, ?_⟩
    intro o ho
    obtain ⟨c, hc, -, rfl⟩ := mem_spec_anchor_proposals exp feat_ptr prob_threshold a g o ho
    have hr : ∀ k, k < 13 + NUM_CLASSES → raw_at feat_ptr a k = raw k :=
      fun k hk => raw_at_of_getElem? feat_ptr a k _ (hraw k hk)
    have hN : NUM_CLASSES = 6 := rfl
    refine ⟨c, hc, ?_, ?_, rfl, ?_⟩
    · simp only [spec_candidate]
      rw [hr 0 (by decide), hr 1 (by decide), hr 2 (by decide), hr 3 (by decide)]
    · intro k hk
      have hk4 : k = 0 ∨ k = 1 ∨ k = 2 ∨ k = 3 := by omega
      rcases hk4 with rfl | rfl | rfl | rfl
      · simp only [spec_candidate, Object.points]
        rw [hr 4 (by decide), hr 5 (by decide)]
      · simp only [spec_candidate, Object.points]
        rw [hr 6 (by decide), hr 7 (by decide)]
      · simp only [spec_candidate, Object.points]
        rw [hr 8 (by decide), hr 9 (by decide)]
      · simp only [spec_candidate, Object.points]
        rw [hr 10 (by decide), hr 11 (by decide)]
    · simp only [spec_candidate]
      rw [hr 12 (by decide), hr (13 + c) (by omega)]
  · intro grid_strides hlen
    refine ⟨_, anchor_loop_eq exp feat_ptr prob_threshold 0 grid_strides objects
      (by simpa using hlen), ?_⟩
    intro o ho
    obtain ⟨i, gi, hgi, hmem⟩ :=
      mem_spec_proposals_from exp feat_ptr prob_threshold 0 grid_strides o ho
    obtain ⟨c, hc, -, rfl⟩ := mem_spec_anchor_proposals exp feat_ptr prob_threshold _ gi o hmem
    exact ⟨i, gi, c, hgi, hc, by simp⟩

/-- C2, witness: the record `one_hot_record 2` for the anchor 0 at grid `(0, 0)`, stride 8. -/
theorem proposals_decode_rule_witness :
    (∀ k, k < 13 + NUM_CLASSES →
        (one_hot_record 2)[0 * (13 + NUM_CLASSES) + k]? = some ((one_hot_record 2).getD k 0))
      ∧ ∃ emitted, proposals_for_anchor (fun x => 1 + x) (one_hot_record 2) (3 / 10) 0
          { grid0 := 0, grid1 := 0, stride := 8 } [] = .ok ([] ++ emitted) :=
  ⟨by decide,
   (proposals_decode_rule (fun x => 1 + x) (one_hot_record 2) (3 / 10) 0
      { grid0 := 0, grid1 := 0, stride := 8 } [] (fun k => (one_hot_record 2).getD k 0)
      (by decide)).1.imp fun _ h => h.1⟩

/-- C3: over a buffer holding one record per anchor, `generate_yolox_proposals` appends
exactly the specification's candidate list: anchor by anchor in anchor order and, within an
anchor, one candidate for each class `c` in increasing order with
`raw[12] * raw[13 + c] > threshold` (strictly), and nothing else.  In particular it appends
nothing when every `objectness * class_prob <= threshold`. -/
theorem proposals_exactly_above_threshold (exp : ℚ → ℚ) (grid_strides : List GridAndStride)
    (feat_ptr : List ℚ) (prob_threshold : ℚ) (objects : List Object)
    (hlen : grid_strides.length * (NUM_CLASSES + 13) ≤ feat_ptr.length) :
    generate_yolox_proposals exp grid_strides feat_ptr prob_threshold objects
        = .ok (objects ++ spec_proposals_from exp feat_ptr prob_threshold 0 grid_strides)
      ∧ ((∀ a, a < grid_strides.length → ∀ c, c < NUM_CLASSES →
            raw_at feat_ptr a 12 * raw_at feat_ptr a (13 + c) ≤ prob_threshold) →
          generate_yolox_proposals exp grid_strides feat_ptr prob_threshold objects
            = .ok objects) := by
  have hrun := anchor_loop_eq exp feat_ptr prob_threshold 0 grid_strides objects
    (by simpa using hlen)
  refine ⟨hrun, fun hall => ?_⟩
  unfold generate_yolox_proposals
  rw [hrun, spec_proposals_from_nil exp feat_ptr prob_threshold 0 grid_strides
    (fun i hi c hc => by simpa using hall i hi c hc)]
  simp

/-- C3, witness: one anchor at grid `(0, 0)`, stride 8, with the record `one_hot_record 2`. -/
theorem proposals_exactly_above_threshold_witness :
    [({ grid0 := 0, grid1 := 0, stride := 8 } : GridAndStride)].length * (NUM_CLASSES + 13)
        ≤ (one_hot_record 2).length
      ∧ generate_yolox_proposals (fun x => 1 + x) [{ grid0 := 0, grid1 := 0, stride := 8 }]
          (one_hot_record 2) (3 / 10) []
        = .ok ([] ++ spec_proposals_from (fun x => 1 + x) (one_hot_record 2) (3 / 10) 0
            [{ grid0 := 0, grid1 := 0, stride := 8 }]) :=
  ⟨by decide,
   (proposals_exactly_above_threshold (fun x => 1 + x) [{ grid0 := 0, grid1 := 0, stride := 8 }]
      (one_hot_record 2) (3 / 10) [] (by decide)).1⟩

/-- C4, as stated, fails for a negative threshold: with threshold `-1` (below 1) the
classes of probability 0 have score `0 > -1`, and the anchor yields `NUM_CLASSES = 6`
candidates instead of one.  (`exp` is only evaluated at 0 here, where it is 1.) -/
theorem one_hot_negative_threshold_six :
    (-1 : ℚ) < 1 ∧
      ∃ l, generate_yolox_proposals (fun x => 1 + x) [{ grid0 := 0, grid1 := 0, stride := 8 }]
          (one_hot_record 0) (-1) [] = .ok l ∧ l.length = 6 := by
  refine ⟨by decide, _, generate_yolox_proposals_eq _ _ _ _ _ (by decide), ?_⟩
  decide!

/-- C4 (amended): for every stride `s` and class index `c < NUM_CLASSES`, decoding a single
anchor at grid `(0, 0)` whose record has all 12 offset values 0, objectness 1, class
probability 1 at index `c` and 0 at every other class, with a threshold `t` such that
`0 <= t < 1` (and `exp 0 = 1`), yields exactly one candidate: label `c`, score 1, box
width = height = `s`, box x = y = `-s/2`, and the four polygon points at `(0, 0)`. -/
theorem one_hot_anchor_single_candidate (exp : ℚ → ℚ) (s : Int) (c : Nat) (thr : ℚ)
    (hc : c < NUM_CLASSES) (hexp : exp 0 = 1) (h0 : 0 ≤ thr) (h1 : thr < 1) :
    generate_yolox_proposals exp [{ grid0 := 0, grid1 := 0, stride := s }] (one_hot_record c) thr []
      = .ok [{ rect := { x := -(s : ℚ) / 2, y := -(s : ℚ) / 2, width := s, height := s }
               points0 := { x := 0, y := 0 }, points1 := { x := 0, y := 0 }
               points2 := { x := 0, y := 0 }, points3 := { x := 0, y := 0 }
               label := (c : Int), prob := 1 }] := by
  rw [generate_yolox_proposals_eq _ _ _ _ _ (by rw [one_hot_len]; simp [NUM_CLASSES])]
  have hf : (List.range NUM_CLASSES).filter (fun k =>
      decide (raw_at (one_hot_record c) 0 12 * raw_at (one_hot_record c) 0 (13 + k) > thr)) = [c] := by
    apply filter_range_eq_singleton _ _ hc
    intro k hk
    rw [raw_one_hot_obj, raw_one_hot_cls c k hk]
    by_cases hkc : k = c
    · simp [hkc, h1]
    · simp [hkc, h0]
  simp only [spec_proposals_from, spec_anchor_proposals, hf, List.map_cons, List.map_nil,
    List.nil_append, List.append_nil, spec_candidate]
  rw [raw_one_hot_obj, raw_one_hot_cls c c hc, raw_one_hot_offsets c 0 (by omega),
    raw_one_hot_offsets c 1 (by omega), raw_one_hot_offsets c 2 (by omega),
    raw_one_hot_offsets c 3 (by omega), raw_one_hot_offsets c 4 (by omega),
    raw_one_hot_offsets c 5 (by omega), raw_one_hot_offsets c 6 (by omega),
    raw_one_hot_offsets c 7 (by omega), raw_one_hot_offsets c 8 (by omega),
    raw_one_hot_offsets c 9 (by omega), raw_one_hot_offsets c 10 (by omega),
    raw_one_hot_offsets c 11 (by omega), hexp]
  simp
  ring

/-- C4, witness: stride 8, class 2, threshold 3/10. -/
theorem one_hot_anchor_single_candidate_witness :
    2 < NUM_CLASSES ∧ (fun x : ℚ => 1 + x) 0 = 1 ∧ (0 : ℚ) ≤ 3 / 10 ∧ (3 / 10 : ℚ) < 1
      ∧ generate_yolox_proposals (fun x => 1 + x) [{ grid0 := 0, grid1 := 0, stride := 8 }]
          (one_hot_record 2) (3 / 10) []
        = .ok [{ rect := { x := -((8 : Int) : ℚ) / 2, y := -((8 : Int) : ℚ) / 2,
                           width := ((8 : Int) : ℚ), height := ((8 : Int) : ℚ) }
                 points0 := { x := 0, y := 0 }, points1 := { x := 0, y := 0 }
                 points2 := { x := 0, y := 0 }, points3 := { x := 0, y := 0 }
                 label := ((2 : Nat) : Int), prob := 1 }] :=
  ⟨by decide, by norm_num, by norm_num, by norm_num,
   one_hot_anchor_single_candidate (fun x => 1 + x) 8 2 (3 / 10) (by decide) (by norm_num)
     (by norm_num) (by norm_num)⟩

/-- C5: for every list of candidates, including lists with tied scores and the empty list,
`qsort_descent_inplace` returns (without fault) a list sorted non-increasing by score: for
all positions `i < j` of the result, `result[i].prob >= result[j].prob`. -/
theorem qsort_descent_inplace_sorted (objects : List Object) :
    ∃ result, qsort_descent_inplace objects = .ok result ∧
      ∀ (i j : Nat) (_ : i < j) (hj : j < result.length),
        result[i].prob ≥ result[j].prob := by
  obtain ⟨result, h1, _, _, h4⟩ := qsort_descent_inplace_spec objects
  refine ⟨result, h1, ?_⟩
  intro i j hij hj
  have := h4 i j (le_of_lt hij) hj
  rw [prob_at_eq result j hj, prob_at_eq result i (by omega)] at this
  exact this

/-- C6, as stated, fails: two candidates with equal score (labels 0 and 1, score 1/2) come
out of `qsort_descent_inplace` in the opposite relative order. -/
theorem qsort_descent_inplace_not_stable :
    (unit_candidate 0 (1 / 2)).prob = (unit_candidate 1 (1 / 2)).prob ∧
      qsort_descent_inplace [unit_candidate 0 (1 / 2), unit_candidate 1 (1 / 2)]
        = .ok [unit_candidate 1 (1 / 2), unit_candidate 0 (1 / 2)] := by
  decide!

/-- C6 (amended): the Ranker sorts by descending score but is not stable.  For every input
list the result holds, for every score value `v`, the same candidates of score `v` as the
input (as a multiset: the sub-list of score `v` is permuted, possibly reordered), and any
two candidates of different score appear with the higher score first. -/
theorem qsort_descent_inplace_score_classes (objects : List Object) :
    ∃ result, qsort_descent_inplace objects = .ok result ∧
      (∀ v : ℚ, (result.filter fun o => decide (o.prob = v)).Perm
          (objects.filter fun o => decide (o.prob = v))) ∧
      ∀ (i j : Nat) (_ : i < j) (hj : j < result.length),
        result[i].prob ≠ result[j].prob → result[i].prob > result[j].prob := by
  obtain ⟨result, h1, h2, _, h4⟩ := qsort_descent_inplace_spec objects
  refine ⟨result, h1, fun v => h2.filter _, ?_⟩
  intro i j hij hj hne
  have := h4 i j (le_of_lt hij) hj
  rw [prob_at_eq result j hj, prob_at_eq result i (by omega)] at this
  exact lt_of_le_of_ne this (Ne.symm hne)

/-- C7: for every candidate list of length `n` and every threshold, `nms_sorted_bboxes`
returns in `picked`, whatever `picked` contained before the call, a strictly increasing
sequence of indices in `[0, n)`: an ordered subsequence of the input positions, without
duplicates.  Hence the kept items keep the order of the input: when the input is in
descending-score order, so are the kept items. -/
theorem nms_sorted_bboxes_increasing (faceobjects : List Object) (nms_threshold : ℚ) :
    ∃ picked, (∀ previous : List Nat,
        nms_sorted_bboxes faceobjects previous nms_threshold = .ok picked) ∧
      picked.Pairwise (· < ·) ∧ picked.Nodup ∧ (∀ x ∈ picked, x < faceobjects.length) ∧
      ((∀ i j, i < j → j < faceobjects.length →
          prob_at faceobjects j ≤ prob_at faceobjects i) →
        ∀ (p q : Nat) (_ : p < q) (hq : q < picked.length),
          prob_at faceobjects picked[q] ≤ prob_at faceobjects picked[p]) := by
  obtain ⟨picked, h1, h2⟩ := nms_sorted_bboxes_spec faceobjects [] nms_threshold
  refine ⟨picked, fun previous => h1, h2.increasing, ?_, h2.below, ?_⟩
  · exact h2.increasing.imp (fun h => Nat.ne_of_lt h)
  · intro hsorted p q hpq hq
    have hlt : picked[p] < picked[q] :=
      List.pairwise_iff_getElem.mp h2.increasing p q (by omega) hq hpq
    exact hsorted _ _ hlt (h2.below _ (List.getElem_mem hq))

/-- C8: `nms_sorted_bboxes` implements the greedy rule exactly.  With `IoU(i, j) > t` the
code's test `intersection_area(i,j) / (area(i) + area(j) - intersection_area(i,j)) > t`
(`iou_gt`): an index `i < n` is in `picked` if and only if there is no `j < i` in `picked`
with `IoU(i, j) > t`; hence no two kept candidates have `IoU > t`, and every discarded
candidate has `IoU > t` with some earlier kept candidate.  Whenever the denominator is not
zero the test is the comparison of the quotient with `t`. -/
theorem nms_sorted_bboxes_greedy (faceobjects : List Object) (previous : List Nat)
    (nms_threshold : ℚ) :
    ∃ picked, nms_sorted_bboxes faceobjects previous nms_threshold = .ok picked ∧
      (∀ i, i < faceobjects.length →
        (i ∈ picked ↔ ¬ ∃ j, j ∈ picked ∧ j < i ∧ iou_gt faceobjects nms_threshold i j = true)) ∧
      (∀ i ∈ picked, ∀ j ∈ picked, j < i → iou_gt faceobjects nms_threshold i j = false) ∧
      (∀ i, i < faceobjects.length → i ∉ picked →
        ∃ j, j ∈ picked ∧ j < i ∧ iou_gt faceobjects nms_threshold i j = true) ∧
      (∀ (i j : Nat) (a b : Object), faceobjects[i]? = some a → faceobjects[j]? = some b →
        a.rect.area + b.rect.area - intersection_area a b ≠ 0 →
        (iou_gt faceobjects nms_threshold i j = true ↔
          intersection_area a b / (a.rect.area + b.rect.area - intersection_area a b)
            > nms_threshold)) := by
  obtain ⟨picked, h1, h2⟩ := nms_sorted_bboxes_spec faceobjects previous nms_threshold
  have hiff : ∀ i, i < faceobjects.length →
      (i ∈ picked ↔ ¬ ∃ j, j ∈ picked ∧ j < i ∧ iou_gt faceobjects nms_threshold i j = true) := by
    intro i hi
    rw [h2.greedy i hi]
    constructor
    · rintro h ⟨j, hj1, hj2, hj3⟩
      rw [h j hj1 hj2] at hj3
      exact Bool.noConfusion hj3
    · intro h j hj1 hj2
      cases hc : iou_gt faceobjects nms_threshold i j
      · rfl
      · exact absurd ⟨j, hj1, hj2, hc⟩ h
  refine ⟨picked, h1, hiff, ?_, ?_, ?_⟩
  · intro i hi j hj hji
    exact (h2.greedy i (h2.below i hi)).mp hi j hj hji
  · intro i hi hnot
    by_contra hcon
    exact hnot ((hiff i hi).mpr hcon)
  · intro i j a b ha hb hne
    unfold iou_gt
    rw [ha, hb]
    simp only []
    unfold iou_exceeds
    rw [if_neg hne]
    simp

/-- C9, as stated, fails for boxes of zero area: two candidates with the identical box
`(0, 0, 0, 0)` have intersection area 0 and union area 0, the quotient `0 / 0` is not above
the threshold 45/100, and both are kept. -/
theorem nms_identical_empty_boxes_both_kept :
    (box_candidate 0 0 0 0 (9 / 10)).rect = (box_candidate 0 0 0 0 (8 / 10)).rect ∧
      (45 / 100 : ℚ) < 1 ∧
      nms_sorted_bboxes [box_candidate 0 0 0 0 (9 / 10), box_candidate 0 0 0 0 (8 / 10)] []
        (45 / 100) = .ok [0, 1] := by
  decide!

/-- C9 (amended): for every two candidates with identical boxes of positive width and
positive height (so that their IoU is 1) and every threshold `< 1`, `nms_sorted_bboxes` on
the two-element list keeps exactly the first one: `picked = [0]`. -/
theorem nms_identical_boxes (a b : Object) (previous : List Nat) (nms_threshold : ℚ)
    (hrect : a.rect = b.rect) (hw : 0 < a.rect.width) (hh : 0 < a.rect.height)
    (ht : nms_threshold < 1) :
    nms_sorted_bboxes [a, b] previous nms_threshold = .ok [0] := by
  rw [nms_pair]
  have hinter : intersection_area b a = a.rect.area := by
    unfold intersection_area
    rw [← hrect]
    exact Rect.inter_self_area a.rect hw hh
  have hpos : 0 < a.rect.area := by
    unfold Rect.area
    exact mul_pos hw hh
  have hex : iou_exceeds (intersection_area b a)
      (b.rect.area + a.rect.area - intersection_area b a) nms_threshold = true := by
    rw [hinter, ← hrect]
    unfold iou_exceeds
    rw [add_sub_cancel_right, if_neg (ne_of_gt hpos), div_self (ne_of_gt hpos)]
    simpa using ht
  rw [hex]
  rfl

/-- C9, witness: two unit boxes at the origin, threshold 45/100. -/
theorem nms_identical_boxes_witness :
    (box_candidate 0 0 1 1 (9 / 10)).rect = (box_candidate 0 0 1 1 (8 / 10)).rect ∧
      nms_sorted_bboxes [box_candidate 0 0 1 1 (9 / 10), box_candidate 0 0 1 1 (8 / 10)] []
        (45 / 100) = .ok [0] :=
  ⟨rfl, nms_identical_boxes _ _ [] (45 / 100) rfl (by decide) (by decide) (by norm_num)⟩

/-- C10, as stated, fails for a negative threshold: two unit boxes without overlap have
IoU `0 / 2 = 0`, which is above the threshold `-1`, and the second one is discarded. -/
theorem nms_disjoint_negative_threshold :
    intersection_area (box_candidate 0 0 1 1 (9 / 10)) (box_candidate 5 5 1 1 (8 / 10)) = 0 ∧
      nms_sorted_bboxes [box_candidate 0 0 1 1 (9 / 10), box_candidate 5 5 1 1 (8 / 10)] []
        (-1) = .ok [0] := by
  decide!

/-- C10 (amended): for every two candidates whose boxes have intersection area 0 and for
every threshold `>= 0`, `nms_sorted_bboxes` on the two-element list keeps both:
`picked = [0, 1]`. -/
theorem nms_disjoint_boxes (a b : Object) (previous : List Nat) (nms_threshold : ℚ)
    (hinter : intersection_area a b = 0) (ht : 0 ≤ nms_threshold) :
    nms_sorted_bboxes [a, b] previous nms_threshold = .ok [0, 1] := by
  rw [nms_pair, ← intersection_area_comm a b, hinter]
  have hex : iou_exceeds 0 (b.rect.area + a.rect.area - 0) nms_threshold = false := by
    unfold iou_exceeds
    by_cases hu : b.rect.area + a.rect.area - 0 = 0
    · rw [if_pos hu]; simp
    · rw [if_neg hu]; simpa using ht
  rw [hex]
  rfl

/-- C10, witness: two unit boxes without overlap, threshold 45/100. -/
theorem nms_disjoint_boxes_witness :
    intersection_area (box_candidate 0 0 1 1 (9 / 10)) (box_candidate 5 5 1 1 (8 / 10)) = 0 ∧
      nms_sorted_bboxes [box_candidate 0 0 1 1 (9 / 10), box_candidate 5 5 1 1 (8 / 10)] []
        (45 / 100) = .ok [0, 1] :=
  ⟨by decide!, nms_disjoint_boxes _ _ [] (45 / 100) (by decide!) (by norm_num)⟩

/-- C11: NMS is idempotent.  For every candidate list and threshold, running
`nms_sorted_bboxes` on the list of the candidates it kept (in kept order, `kept_objects`)
with the same threshold keeps every one of them: it returns the indices `0 .. k-1`, and so
selects the same list again.  On the empty list it returns the empty list. -/
theorem nms_sorted_bboxes_idempotent (faceobjects : List Object)
    (previous previous2 : List Nat) (nms_threshold : ℚ) :
    ∃ picked, nms_sorted_bboxes faceobjects previous nms_threshold = .ok picked ∧
      nms_sorted_bboxes (kept_objects faceobjects picked) previous2 nms_threshold
        = .ok (List.range picked.length) ∧
      (kept_objects faceobjects picked).length = picked.length ∧
      kept_objects (kept_objects faceobjects picked) (List.range picked.length)
        = kept_objects faceobjects picked ∧
      nms_sorted_bboxes [] previous nms_threshold = .ok [] := by
  obtain ⟨picked, h1, h2⟩ := nms_sorted_bboxes_spec faceobjects previous nms_threshold
  have hlen := kept_objects_length faceobjects picked h2.below
  refine ⟨picked, h1, nms_kept_all faceobjects picked nms_threshold previous2 h2, hlen, ?_,
    nms_sorted_bboxes_nil previous nms_threshold⟩
  have := kept_objects_range (kept_objects faceobjects picked)
  rw [hlen] at this
  exact this

/-- C12: in `nms_sorted_bboxes`, when the candidate under test `a = faceobjects[i]` and an
already-kept candidate `b = faceobjects[j]` both have zero-area boxes, the intersection
area and the union area are 0, the comparison `inter_area / union_area > nms_threshold` is
false (the division does not fault), and for a threshold `>= 0` this is the outcome of
comparing an IoU of 0 with the threshold: the step of the inner loop for that pair leaves
`keep` unchanged, and the call returns without fault. -/
theorem nms_zero_area_pair (faceobjects : List Object) (nms_threshold : ℚ) (i j : Nat)
    (a b : Object) (ha : faceobjects[i]? = some a) (hb : faceobjects[j]? = some b)
    (hza : a.rect.area = 0) (hzb : b.rect.area = 0) :
    intersection_area a b = 0 ∧
      a.rect.area + b.rect.area - intersection_area a b = 0 ∧
      iou_gt faceobjects nms_threshold i j = false ∧
      (0 ≤ nms_threshold →
        iou_gt faceobjects nms_threshold i j = decide ((0 : ℚ) > nms_threshold)) ∧
      (∀ (rest : List Nat) (keep : Bool),
        nms_keep faceobjects (faceobjects.map fun o => o.rect.area) nms_threshold i a
            (j :: rest) keep
          = nms_keep faceobjects (faceobjects.map fun o => o.rect.area) nms_threshold i a
              rest keep) ∧
      (∀ previous : List Nat, ∃ picked,
        nms_sorted_bboxes faceobjects previous nms_threshold = .ok picked) := by
  have hinter : intersection_area a b = 0 := zero_area_inter a.rect b.rect hza
  have hunion : a.rect.area + b.rect.area - intersection_area a b = 0 := by
    rw [hinter, hza, hzb]; norm_num
  have hex : iou_exceeds (intersection_area a b)
      (a.rect.area + b.rect.area - intersection_area a b) nms_threshold = false := by
    unfold iou_exceeds
    rw [if_pos hunion, hinter]
    simp
  have hgt : iou_gt faceobjects nms_threshold i j = false := by
    unfold iou_gt
    rw [ha, hb]
    exact hex
  refine ⟨hinter, hunion, hgt, ?_, ?_, ?_⟩
  · intro ht
    rw [hgt]
    symm
    simpa using ht
  · intro rest keep
    have hai : (faceobjects.map fun o => o.rect.area)[i]? = some a.rect.area := by
      rw [List.getElem?_map, ha]; rfl
    have hbj : (faceobjects.map fun o => o.rect.area)[j]? = some b.rect.area := by
      rw [List.getElem?_map, hb]; rfl
    conv_lhs => unfold nms_keep
    rw [hb, hai, hbj]
    simp only []
    rw [hex]
    simp
  · intro previous
    obtain ⟨picked, h1, _⟩ := nms_sorted_bboxes_spec faceobjects previous nms_threshold
    exact ⟨picked, h1⟩

/-- C12, witness: two candidates with the empty box `(0, 0, 0, 0)`, threshold 45/100. -/
theorem nms_zero_area_pair_witness :
    (box_candidate 0 0 0 0 (9 / 10)).rect.area = 0 ∧
      (box_candidate 0 0 0 0 (8 / 10)).rect.area = 0 ∧
      iou_gt [box_candidate 0 0 0 0 (9 / 10), box_candidate 0 0 0 0 (8 / 10)] (45 / 100) 1 0
        = false :=
  ⟨by decide!, by decide!,
   (nms_zero_area_pair [box_candidate 0 0 0 0 (9 / 10), box_candidate 0 0 0 0 (8 / 10)]
      (45 / 100) 1 0 (box_candidate 0 0 0 0 (8 / 10)) (box_candidate 0 0 0 0 (9 / 10))
      rfl rfl (by decide!) (by decide!)).2.2.1⟩

/-- C14: for every original width `W >= 1`, the rescale/clip step of `decode_outputs` at
scale 1 applied to a box with left edge `x0 = -10` and right edge `x1 = W + 50` produces a
box spanning exactly `[0, W - 1]` horizontally: `rect.x = 0` and `rect.width = W - 1`. -/
theorem rescale_clip_overhang (o : Object) (W img_h : Int) (hW : 1 ≤ W)
    (hx0 : o.rect.x = -10) (hx1 : o.rect.x + o.rect.width = (W : ℚ) + 50) :
    (rescale_clip o 1 W img_h).rect.x = 0 ∧
      (rescale_clip o 1 W img_h).rect.width = (W : ℚ) - 1 := by
  have hWq : (1 : ℚ) ≤ (W : ℚ) := by exact_mod_cast hW
  have hx : (rescale_clip o 1 W img_h).rect.x = clip (o.rect.x / 1) W := rfl
  have hwd : (rescale_clip o 1 W img_h).rect.width
      = clip ((o.rect.x + o.rect.width) / 1) W - clip (o.rect.x / 1) W := rfl
  have c0 : clip (o.rect.x / 1) W = 0 := by
    rw [hx0, div_one]
    unfold clip
    push_cast
    rw [min_eq_left (by linarith), max_eq_right (by norm_num)]
  have c1 : clip ((o.rect.x + o.rect.width) / 1) W = (W : ℚ) - 1 := by
    rw [hx1, div_one]
    unfold clip
    push_cast
    rw [min_eq_right (by linarith), max_eq_left (by linarith)]
  rw [hx, hwd, c0, c1]
  exact ⟨rfl, by ring⟩

/-- C14, witness: the box `(-10, 0, 700, 10)` in an image of width 640. -/
theorem rescale_clip_overhang_witness :
    (1 : Int) ≤ 640 ∧ (box_candidate (-10) 0 700 10 (9 / 10)).rect.x = -10 ∧
      (rescale_clip (box_candidate (-10) 0 700 10 (9 / 10)) 1 640 480).rect.x = 0 ∧
      (rescale_clip (box_candidate (-10) 0 700 10 (9 / 10)) 1 640 480).rect.width
        = ((640 : Int) : ℚ) - 1 :=
  ⟨by decide, rfl,
   rescale_clip_overhang (box_candidate (-10) 0 700 10 (9 / 10)) 640 480 (by decide) rfl
     (by norm_num [box_candidate])⟩

/-- C15, as stated, fails through the rounding of `float` arithmetic.  The box
`x = y = 100.1f`, `width = height = 50.3f` is fully inside a 640x640 image, and the
rescale/clip step at scale 1.0 keeps `rect.x` but recomputes `rect.width` as
`fl(fl(x + width) - x) = 13185842 / 2 ^ 18 = 50.299995...`, one unit in the last place below
the input width `13185843 / 2 ^ 18`. -/
theorem rescale_clip_width_rounded :
    rounding_box
        = { x := 13120307 / 131072, y := 13120307 / 131072,
            width := 13185843 / 262144, height := 13185843 / 262144 } ∧
      0 ≤ rounding_box.x ∧
      rounding_box.x + rounding_box.width ≤ (((640 : Int) - 1 : Int) : ℚ) ∧
      0 ≤ rounding_box.y ∧
      rounding_box.y + rounding_box.height ≤ (((640 : Int) - 1 : Int) : ℚ) ∧
      (rescale_clip_rect_fl fl32 rounding_box 1 640 640).x = rounding_box.x ∧
      (rescale_clip_rect_fl fl32 rounding_box 1 640 640).width = 13185842 / 262144 ∧
      (rescale_clip_rect_fl fl32 rounding_box 1 640 640).width ≠ rounding_box.width ∧
      rescale_clip_rect_fl fl32 rounding_box 1 640 640 ≠ rounding_box := by
  decide!

/-- C15 (amended): `fl` being the rounding applied to the result of each `float` operation,
for every box of `float` coordinates `x`, `y` whose corners as the step computes them, `x`
and `fl(x + width)`, `y` and `fl(y + height)`, lie in `[0, (float)(img_w - 1)]` and
`[0, (float)(img_h - 1)]`, the rescale/clip step of `decode_outputs` at scale 1.0 leaves
`rect.x` and `rect.y` unchanged and recomputes `rect.width = fl(fl(x + width) - x)` and
`rect.height = fl(fl(y + height) - y)`.  These are the input width and height when the sum
and the difference are exact (`fl(x + width) = x + width` and `fl(width) = width`), as they
always are in exact arithmetic, for boxes of negative size too. -/
theorem rescale_clip_rect_fl_inside (fl : ℚ → ℚ) (r : Rect) (img_w img_h : Int)
    (hfx : fl r.x = r.x) (hfy : fl r.y = r.y)
    (hfr : fl (fl (r.x + r.width)) = fl (r.x + r.width))
    (hfb : fl (fl (r.y + r.height)) = fl (r.y + r.height))
    (hx0 : 0 ≤ r.x) (hx1 : r.x ≤ fl ((img_w - 1 : Int) : ℚ))
    (hr0 : 0 ≤ fl (r.x + r.width))
    (hr1 : fl (r.x + r.width) ≤ fl ((img_w - 1 : Int) : ℚ))
    (hy0 : 0 ≤ r.y) (hy1 : r.y ≤ fl ((img_h - 1 : Int) : ℚ))
    (hb0 : 0 ≤ fl (r.y + r.height))
    (hb1 : fl (r.y + r.height) ≤ fl ((img_h - 1 : Int) : ℚ)) :
    rescale_clip_rect_fl fl r 1 img_w img_h
        = { x := r.x, y := r.y, width := fl (fl (r.x + r.width) - r.x),
            height := fl (fl (r.y + r.height) - r.y) } ∧
      (fl (r.x + r.width) = r.x + r.width → fl r.width = r.width →
        (rescale_clip_rect_fl fl r 1 img_w img_h).width = r.width) ∧
      (fl (r.y + r.height) = r.y + r.height → fl r.height = r.height →
        (rescale_clip_rect_fl fl r 1 img_w img_h).height = r.height) := by
  have e : rescale_clip_rect_fl fl r 1 img_w img_h
      = { x := r.x, y := r.y, width := fl (fl (r.x + r.width) - r.x),
          height := fl (fl (r.y + r.height) - r.y) } := by
    unfold rescale_clip_rect_fl
    simp only [div_one]
    rw [hfx, hfy, hfr, hfb, clip_fl_of_mem fl _ _ hx0 hx1, clip_fl_of_mem fl _ _ hy0 hy1,
      clip_fl_of_mem fl _ _ hr0 hr1, clip_fl_of_mem fl _ _ hb0 hb1]
  refine ⟨e, ?_, ?_⟩
  · intro h1 h2
    rw [e]
    show fl (fl (r.x + r.width) - r.x) = r.width
    rw [h1, add_sub_cancel_left, h2]
  · intro h1 h2
    rw [e]
    show fl (fl (r.y + r.height) - r.y) = r.height
    rw [h1, add_sub_cancel_left, h2]

/-- C15, witness: `float` rounding `fl32` and the box `x = y = 100.1f`,
`width = height = 50.3f` in a 640x640 image: `x` and `y` are kept, width and height are
recomputed as `fl32 (fl32 (x + width) - x)`. -/
theorem rescale_clip_rect_fl_inside_witness :
    fl32 rounding_box.x = rounding_box.x ∧ 0 ≤ rounding_box.x ∧
      rounding_box.x ≤ fl32 (((640 : Int) - 1 : Int) : ℚ) ∧
      0 ≤ fl32 (rounding_box.x + rounding_box.width) ∧
      fl32 (rounding_box.x + rounding_box.width) ≤ fl32 (((640 : Int) - 1 : Int) : ℚ) ∧
      rescale_clip_rect_fl fl32 rounding_box 1 640 640
        = { x := rounding_box.x, y := rounding_box.y,
            width := fl32 (fl32 (rounding_box.x + rounding_box.width) - rounding_box.x),
            height := fl32 (fl32 (rounding_box.y + rounding_box.height) - rounding_box.y) } :=
  ⟨by decide!, by decide!, by decide!, by decide!, by decide!,
   (rescale_clip_rect_fl_inside fl32 rounding_box 640 640 (by decide!) (by decide!)
      (by decide!) (by decide!) (by decide!) (by decide!) (by decide!) (by decide!)
      (by decide!) (by decide!) (by decide!) (by decide!)).1⟩

/-- C16: for every prediction buffer holding the 8400 records, every scale and image size,
`decode_outputs` returns one detection per index kept by NMS, in the same order: its `i`-th
detection carries the label and the score, unchanged, of the `i`-th kept candidate
`sorted[picked[i]]` (for a non-zero scale it is that candidate after the rescale/clip step);
the returned list is ordered by non-increasing score. -/
theorem decode_outputs_order_labels (exp : ℚ → ℚ) (prob : List ℚ) (objects0 : List Object)
    (scale : ℚ) (img_w img_h : Int) (hlen : 8400 * (NUM_CLASSES + 13) ≤ prob.length) :
    ∃ grid_strides proposals sorted picked objects,
      generate_grids_and_stride INPUT_W INPUT_H [8, 16, 32] [] = .ok grid_strides ∧
      generate_yolox_proposals exp grid_strides prob BBOX_CONF_THRESH [] = .ok proposals ∧
      qsort_descent_inplace proposals = .ok sorted ∧
      nms_sorted_bboxes sorted [] NMS_THRESH = .ok picked ∧
      decode_outputs exp prob objects0 scale img_w img_h = .ok objects ∧
      objects.length = picked.length ∧
      (∀ (i : Nat) (hi : i < picked.length), ∃ c o,
        sorted[picked[i]]? = some c ∧ objects[i]? = some o ∧
        o.label = c.label ∧ o.prob = c.prob ∧
        (scale ≠ 0 → o = rescale_clip c scale img_w img_h)) ∧
      (∀ (i j : Nat) (_ : i < j) (hj : j < objects.length),
        objects[i].prob ≥ objects[j].prob) := by
  obtain ⟨gs, proposals, sorted, picked, h1, -, h2, -, h3, -, hsorted, h4, hinv, hrun⟩ :=
    decode_outputs_stages exp prob objects0 scale img_w img_h hlen
  have hklen := kept_objects_length sorted picked hinv.below
  have holen : ((kept_objects sorted picked).map
      fun o => rescale_clip o scale img_w img_h).length = picked.length := by
    rw [List.length_map, hklen]
  refine ⟨gs, proposals, sorted, picked, _, h1, h2, h3, h4, hrun, holen, ?_, ?_⟩
  · intro i hi
    have hlt : picked[i] < sorted.length := hinv.below _ (List.getElem_mem hi)
    refine ⟨sorted[picked[i]], rescale_clip sorted[picked[i]] scale img_w img_h,
      List.getElem?_eq_getElem hlt, ?_, rfl, rfl, fun _ => rfl⟩
    rw [List.getElem?_map, kept_objects_getElem? sorted picked hinv.below,
      List.getElem?_eq_getElem hi]
    simp only [Option.some_bind]
    rw [List.getElem?_eq_getElem hlt]
    rfl
  · intro i j hij hj
    have hj2 : j < picked.length := by rw [← holen]; exact hj
    have hi2 : i < picked.length := by omega
    have hpj := prob_at_rescaled sorted picked scale img_w img_h hinv.below j hj2
    have hpi := prob_at_rescaled sorted picked scale img_w img_h hinv.below i hi2
    rw [prob_at_eq _ j hj] at hpj
    rw [prob_at_eq _ i (by omega)] at hpi
    rw [hpi, hpj]
    have hlt : picked[i] < picked[j] :=
      List.pairwise_iff_getElem.mp hinv.increasing i j hi2 hj2 hij
    exact hsorted _ _ (le_of_lt hlt) (hinv.below _ (List.getElem_mem hj2))

/-- C16, witness: the two-anchor buffer, scale 1/2, a 1280x768 image; `decode_outputs`
returns the detection of label 2 and score 1 before the detection of label 3 and score
1/2. -/
theorem decode_outputs_order_labels_witness :
    8400 * (NUM_CLASSES + 13) ≤ two_anchor_buffer.length ∧
      ∃ objects, decode_outputs (fun x => 1 + x) two_anchor_buffer [] (1 / 2) 1280 768
          = .ok objects ∧
        objects.map (fun o => (o.label, o.prob)) = [(2, 1), (3, 1 / 2)] ∧
        ∀ (i j : Nat) (_ : i < j) (hj : j < objects.length),
          objects[i].prob ≥ objects[j].prob :=
  ⟨le_of_eq two_anchor_buffer_length.symm,
   match decode_outputs_order_labels (fun x => 1 + x) two_anchor_buffer [] (1 / 2)
      1280 768 (le_of_eq two_anchor_buffer_length.symm) with
   | ⟨_, _, _, _, objects, _, _, _, _, hrun, _, _, hord⟩ =>
     ⟨objects, hrun,
      by
        rw [decode_outputs_two_anchor] at hrun
        injection hrun with h
        rw [← h]
        rfl,
      hord⟩⟩

/-- C17: end to end.  For the buffer of 8400 records in which every value is 0 except that
anchor 0 (grid `(0, 0)`, stride 8) has objectness 1 and class probability 1 at the single
class `c`, `decode_outputs` with scale 1 and an image of at least 640x640 returns exactly
one detection, with label `c`, score 1, box `x = y = 0` (the decoded -4 clipped to 0),
`width = height = 4`, and the four polygon points at `(0, 0)` (given `exp 0 = 1`). -/
theorem decode_outputs_single_anchor (exp : ℚ → ℚ) (c : Nat) (objects0 : List Object)
    (img_w img_h : Int) (hexp : exp 0 = 1) (hc : c < NUM_CLASSES)
    (hw : 640 ≤ img_w) (hh : 640 ≤ img_h) :
    decode_outputs exp (single_anchor_buffer c) objects0 1 img_w img_h
      = .ok [{ rect := { x := 0, y := 0, width := 4, height := 4 }
               points0 := { x := 0, y := 0 }, points1 := { x := 0, y := 0 }
               points2 := { x := 0, y := 0 }, points3 := { x := 0, y := 0 }
               label := (c : Int), prob := 1 }] := by
  obtain ⟨tail, htail⟩ := grids_640_head
  have hlen : tail.length = 8399 := by
    have h := grids_640_length
    rw [htail, List.length_cons] at h
    omega
  unfold decode_outputs
  rw [grids_640_eq, htail,
    decode_with_grids_of_stages exp _ 1 img_w img_h _ _ _ _
      (single_anchor_proposals exp hexp c hc tail hlen) (qsort_singleton _)
      (nms_singleton _ [] NMS_THRESH)]
  have hwq : (4 : ℚ) ≤ ((img_w - 1 : Int) : ℚ) := by
    have : (4 : Int) ≤ img_w - 1 := by omega
    exact_mod_cast this
  have hhq : (4 : ℚ) ≤ ((img_h - 1 : Int) : ℚ) := by
    have : (4 : Int) ≤ img_h - 1 := by omega
    exact_mod_cast this
  have c0w : clip 0 img_w = 0 := clip_of_mem 0 img_w (le_refl _) (by linarith)
  have c0h : clip 0 img_h = 0 := clip_of_mem 0 img_h (le_refl _) (by linarith)
  have c4w : clip 4 img_w = 4 := clip_of_mem 4 img_w (by norm_num) hwq
  have c4h : clip 4 img_h = 4 := clip_of_mem 4 img_h (by norm_num) hhq
  have cmw : clip (-4) img_w = 0 := by
    unfold clip
    rw [min_eq_left (by linarith), max_eq_right (by norm_num)]
  have cmh : clip (-4) img_h = 0 := by
    unfold clip
    rw [min_eq_left (by linarith), max_eq_right (by norm_num)]
  simp only [rescale_loop, List.getElem?_cons_zero, List.nil_append, rescale_clip, div_one,
    zero_div]
  norm_num [c0w, c0h, c4w, c4h, cmw, cmh]

/-- C17, witness: class 2 and a 1280x768 image. -/
theorem decode_outputs_single_anchor_witness :
    (fun x : ℚ => 1 + x) 0 = 1 ∧ 2 < NUM_CLASSES ∧ (640 : Int) ≤ 1280 ∧ (640 : Int) ≤ 768 ∧
      decode_outputs (fun x => 1 + x) (single_anchor_buffer 2) [] 1 1280 768
        = .ok [{ rect := { x := 0, y := 0, width := 4, height := 4 }
                 points0 := { x := 0, y := 0 }, points1 := { x := 0, y := 0 }
                 points2 := { x := 0, y := 0 }, points3 := { x := 0, y := 0 }
                 label := ((2 : Nat) : Int), prob := 1 }] :=
  ⟨by norm_num, by decide, by decide, by decide,
   decode_outputs_single_anchor (fun x => 1 + x) 2 [] 1280 768 (by norm_num) (by decide)
     (by decide) (by decide)⟩

/-- C18, as stated, fails: the decode core has no length check.  A buffer longer than
`num_anchors * record_size` is decoded without failure, for one anchor with 20 values
instead of 19 as well as for the 8400-anchor configuration with one value too many. -/
theorem decode_accepts_longer_buffer :
    (one_hot_record 0 ++ [7]).length
        ≠ [({ grid0 := 0, grid1 := 0, stride := 8 } : GridAndStride)].length
          * (5 + 8 + NUM_CLASSES) ∧
      generate_yolox_proposals (fun x => 1 + x) [{ grid0 := 0, grid1 := 0, stride := 8 }]
          (one_hot_record 0 ++ [7]) (3 / 10) []
        = .ok [{ rect := { x := -4, y := -4, width := 8, height := 8 }
                 points0 := { x := 0, y := 0 }, points1 := { x := 0, y := 0 }
                 points2 := { x := 0, y := 0 }, points3 := { x := 0, y := 0 }
                 label := 0, prob := 1 }] ∧
      (List.replicate 159601 (0 : ℚ)).length ≠ 8400 * (5 + 8 + NUM_CLASSES) ∧
      decode_outputs (fun x => 1 + x) (List.replicate 159601 0) [] 1 640 640 = .ok [] := by
  refine ⟨by decide, by decide!, by rw [List.length_replicate]; decide, ?_⟩
  exact decode_outputs_zeros _ 159601 [] 1 640 640 (by decide)

/-- C18 (amended): the decode core does not check the length of the prediction buffer.
When the buffer holds at least `num_anchors * record_size` values,
`generate_yolox_proposals` succeeds and its result is the one for the first
`num_anchors * record_size` values (values beyond them are ignored).  When the buffer holds
fewer values the call is not rejected: it reads outside the buffer (`Fault.outOfRange`,
undefined behaviour in C++) and yields no result.  The same holds for `decode_outputs` with
its 8400 anchors. -/
theorem decode_no_length_check (exp : ℚ → ℚ) (grid_strides : List GridAndStride)
    (feat_ptr : List ℚ) (prob_threshold : ℚ) (objects : List Object) :
    (grid_strides.length * (NUM_CLASSES + 13) ≤ feat_ptr.length →
        ∃ result,
          generate_yolox_proposals exp grid_strides feat_ptr prob_threshold objects
            = .ok result ∧
          generate_yolox_proposals exp grid_strides
              (feat_ptr.take (grid_strides.length * (NUM_CLASSES + 13))) prob_threshold objects
            = .ok result) ∧
      (feat_ptr.length < grid_strides.length * (NUM_CLASSES + 13) →
        generate_yolox_proposals exp grid_strides feat_ptr prob_threshold objects
          = .error .outOfRange) ∧
      (8400 * (NUM_CLASSES + 13) ≤ feat_ptr.length →
        ∀ (objects0 : List Object) (scale : ℚ) (img_w img_h : Int),
          ∃ detections, decode_outputs exp feat_ptr objects0 scale img_w img_h
            = .ok detections) ∧
      (feat_ptr.length < 8400 * (NUM_CLASSES + 13) →
        ∀ (objects0 : List Object) (scale : ℚ) (img_w img_h : Int),
          decode_outputs exp feat_ptr objects0 scale img_w img_h = .error .outOfRange) := by
  refine ⟨?_, generate_yolox_proposals_error exp grid_strides feat_ptr prob_threshold objects,
    ?_, ?_⟩
  · intro hlen
    refine ⟨_, generate_yolox_proposals_eq exp grid_strides feat_ptr prob_threshold objects
      hlen, ?_⟩
    rw [generate_yolox_proposals_eq exp grid_strides _ prob_threshold objects
      (by rw [List.length_take]; omega)]
    congr 2
    apply spec_proposals_from_congr
    intro i hi k hk
    apply raw_at_take
    have : (0 + i + 1) * (NUM_CLASSES + 13) ≤ grid_strides.length * (NUM_CLASSES + 13) :=
      Nat.mul_le_mul_right _ (by omega)
    have e : (0 + i + 1) * (NUM_CLASSES + 13)
        = (0 + i) * (NUM_CLASSES + 13) + (NUM_CLASSES + 13) := by ring
    omega
  · intro hlen objects0 scale img_w img_h
    obtain ⟨_, _, _, _, -, -, -, -, -, -, -, -, -, hrun⟩ :=
      decode_outputs_stages exp feat_ptr objects0 scale img_w img_h hlen
    exact ⟨_, hrun⟩
  · intro hlen objects0 scale img_w img_h
    exact decode_outputs_short exp feat_ptr objects0 scale img_w img_h hlen

/-- C20: for `exp` with non-negative values, every candidate emitted by
`generate_yolox_proposals` belongs to an anchor `a` with grid entry `g`, has
`width = exp(raw[2]) * stride` and `height = exp(raw[3]) * stride` for the record `raw` of
that anchor, whatever its values, and for a positive stride has `width >= 0` and
`height >= 0`. -/
theorem proposals_box_nonneg (exp : ℚ → ℚ) (grid_strides : List GridAndStride)
    (feat_ptr : List ℚ) (prob_threshold : ℚ) (objects : List Object)
    (hexp : ∀ x, 0 ≤ exp x)
    (hlen : grid_strides.length * (NUM_CLASSES + 13) ≤ feat_ptr.length) :
    ∃ emitted, generate_yolox_proposals exp grid_strides feat_ptr prob_threshold objects
        = .ok (objects ++ emitted) ∧
      ∀ o ∈ emitted, ∃ a g, grid_strides[a]? = some g ∧
        o.rect.width = exp (raw_at feat_ptr a 2) * g.stride ∧
        o.rect.height = exp (raw_at feat_ptr a 3) * g.stride ∧
        (0 < g.stride → 0 ≤ o.rect.width ∧ 0 ≤ o.rect.height) := by
  refine ⟨_, generate_yolox_proposals_eq exp grid_strides feat_ptr prob_threshold objects
    hlen, ?_⟩
  intro o ho
  obtain ⟨i, gi, hgi, hmem⟩ :=
    mem_spec_proposals_from exp feat_ptr prob_threshold 0 grid_strides o ho
  obtain ⟨c, -, -, rfl⟩ := mem_spec_anchor_proposals exp feat_ptr prob_threshold _ gi o hmem
  rw [Nat.zero_add]
  refine ⟨i, gi, hgi, rfl, rfl, ?_⟩
  intro hs
  have hsq : (0 : ℚ) ≤ (gi.stride : ℚ) := by exact_mod_cast le_of_lt hs
  exact ⟨mul_nonneg (hexp _) hsq, mul_nonneg (hexp _) hsq⟩

/-- C20, witness: `exp` replaced by `x ↦ 1 + x * x`, one anchor with stride 8. -/
theorem proposals_box_nonneg_witness :
    (∀ x : ℚ, 0 ≤ 1 + x * x) ∧
      [({ grid0 := 0, grid1 := 0, stride := 8 } : GridAndStride)].length * (NUM_CLASSES + 13)
        ≤ (one_hot_record 2).length ∧
      ∃ emitted, generate_yolox_proposals (fun x => 1 + x * x)
          [{ grid0 := 0, grid1 := 0, stride := 8 }] (one_hot_record 2) (3 / 10) []
        = .ok ([] ++ emitted) :=
  ⟨fun x => add_nonneg zero_le_one (mul_self_nonneg x), by decide,
   (proposals_box_nonneg (fun x => 1 + x * x) [{ grid0 := 0, grid1 := 0, stride := 8 }]
      (one_hot_record 2) (3 / 10) [] (fun x => add_nonneg zero_le_one (mul_self_nonneg x))
      (by decide)).imp
     fun _ h => h.1⟩

/-- C21: for every candidate list, `qsort_descent_inplace` returns (without fault) a
permutation of the input list: the same length and the same multiset of candidates, each
with its box, polygon, label and score intact (every candidate occurs in the result exactly
as often as in the input). -/
theorem qsort_descent_inplace_perm (objects : List Object) :
    ∃ result, qsort_descent_inplace objects = .ok result ∧ result.Perm objects ∧
      result.length = objects.length ∧
      ∀ o : Object, result.count o = objects.count o := by
  obtain ⟨result, h1, h2, h3, _⟩ := qsort_descent_inplace_spec objects
  exact ⟨result, h1, h2, h3, fun o => h2.count_eq o⟩

/-- C22: for every candidate list of length `n` and every call
`qsort_descent_inplace(list, left, right)` with `0 <= left <= right < n`, the call with
every read and swap checked against `[left, right]` (and those of each recursive call
against the range of that call) returns without fault, and the call without the checks
returns the same vector: no access leaves the range (a checked access outside the range
is a fault), and a fuel of `right - left + 1` recursion levels suffices.  The pivot is read inside the range, and the partition loop ends
with `left < i`, `j < right` and `j < i`, so that the recursive calls on `[left, j]` and
`[i, right]` are on strictly smaller ranges. -/
theorem qsort_accesses_in_range (faceobjects : List Object) (left right fuel : Nat)
    (hlr : left ≤ right) (hr : right < faceobjects.length)
    (hfuel : right - left + 1 ≤ fuel) :
    (∃ result,
        qsort_descent_inplace_range_checked fuel faceobjects (left : Int) (right : Int)
          = .ok result ∧
        qsort_descent_inplace_range fuel faceobjects (left : Int) (right : Int)
          = .ok result ∧
        result.length = faceobjects.length) ∧
      (∃ (pivot : Object) (partitioned : List Object) (i j : Int),
        obj_at_checked faceobjects (left : Int) (right : Int)
            (((left : Int) + (right : Int)).tdiv 2) = .ok pivot ∧
        partition_loop_checked pivot.prob (left : Int) (right : Int)
            (faceobjects.length + 1) faceobjects (left : Int) (right : Int)
          = .ok (partitioned, i, j) ∧
        partition_loop pivot.prob (faceobjects.length + 1) faceobjects (left : Int)
            (right : Int) = .ok (partitioned, i, j) ∧
        (left : Int) < i ∧ j < (right : Int) ∧ j < i) ∧
      ∀ k : Int, k < (left : Int) ∨ (right : Int) < k →
        obj_at_checked faceobjects (left : Int) (right : Int) k = .error .outOfRange := by
  refine ⟨?_, ?_, ?_⟩
  · obtain ⟨a3, h1, h2⟩ := qsort_range_checked_spec fuel faceobjects left right hlr hr hfuel
    exact ⟨a3, h1, qsort_range_of_checked fuel faceobjects _ _ a3 h1, h2⟩
  rotate_left
  · intro k hk
    unfold obj_at_checked
    rw [if_pos hk]
  · obtain ⟨pivot, a1, i2, J2, hpiv, hrun, _, hJi, hloi, hJhi⟩ :=
      partition_call_checked faceobjects left right hlr hr
    exact ⟨pivot, a1, (i2 : Int), (J2 : Int) - 1, hpiv, hrun,
      partition_loop_of_checked _ _ _ _ _ _ _ _ hrun, by omega, by omega, by omega⟩

/-- C22, witness: the range `[1, 3]` of a list of four candidates. -/
theorem qsort_accesses_in_range_witness :
    1 ≤ 3 ∧
      3 < [unit_candidate 0 (1 / 2), unit_candidate 1 (3 / 4), unit_candidate 2 (1 / 4),
            unit_candidate 3 (3 / 4)].length ∧
      ∃ result,
        qsort_descent_inplace_range_checked 3
            [unit_candidate 0 (1 / 2), unit_candidate 1 (3 / 4), unit_candidate 2 (1 / 4),
              unit_candidate 3 (3 / 4)] ((1 : Nat) : Int) ((3 : Nat) : Int) = .ok result ∧
        qsort_descent_inplace_range 3
            [unit_candidate 0 (1 / 2), unit_candidate 1 (3 / 4), unit_candidate 2 (1 / 4),
              unit_candidate 3 (3 / 4)] ((1 : Nat) : Int) ((3 : Nat) : Int) = .ok result :=
  ⟨by decide, by decide,
   (qsort_accesses_in_range
      [unit_candidate 0 (1 / 2), unit_candidate 1 (3 / 4), unit_candidate 2 (1 / 4),
        unit_candidate 3 (3 / 4)] 1 3 3 (by decide) (by decide) (by decide)).1.imp
     fun _ h => ⟨h.1, h.2.1⟩⟩

end Yolox
